import Mathlib

/-!
Verification development for the IRV margin analyzer.

The ballot profile is a trie (`Node`) whose children are kept as an
association list in deterministic (insertion) order; Python dictionaries
promise no particular iteration order, but the specification only requires
a deterministic one, which the list order provides.  Integer values are
modelled by `Int` (Python integers are unbounded).  The recursive tree
operations `_merge` and `eliminate` of `node.py` mutate a tree while
walking it, so they are defined here by fuel-indexed recursion; wrapper
definitions supply sufficient fuel (a size-based bound) and unconditional
equations for the wrappers are derived below, so all later reasoning is
fuel-free.
-/

set_option maxHeartbeats 1000000

/-- Ballot trie node from node.py: a value together with keyed children. -/
inductive Node where
  | mk (value : Int) (children : List (Nat × Node))

/-- Value stored at a node. -/
def Node.value : Node → Int
  | .mk v _ => v

/-- Children of a node, in deterministic order. -/
def Node.children : Node → List (Nat × Node)
  | .mk _ cs => cs

/-- Lookup of a child by key, mirroring dictionary access. -/
def lookupC : List (Nat × Node) → Nat → Option Node
  | [], _ => none
  | (k, n) :: rest, c => if k = c then some n else lookupC rest c

/-- Removal of a key, mirroring `del self._children[c]`. -/
def eraseC : List (Nat × Node) → Nat → List (Nat × Node)
  | [], _ => []
  | (k, n) :: rest, c => if k = c then rest else (k, n) :: eraseC rest c

/-- Keys of a children list. -/
def keysOf (cs : List (Nat × Node)) : List Nat := cs.map Prod.fst

/-- Value of the child keyed `c`; `0` when absent, which is the value
`get_child` would give a freshly inserted child. -/
def childVal (cs : List (Nat × Node)) (c : Nat) : Int :=
  match lookupC cs c with
  | some n => n.value
  | none => 0

/-- Sum of the values of the children in a list. -/
def sumVals : List (Nat × Node) → Int
  | [] => 0
  | (_, n) :: rest => n.value + sumVals rest

mutual
/-- Number of nodes in a tree; the measure for all fuel bounds. -/
def Node.size : Node → Nat
  | .mk _ cs => 1 + sizeL cs
/-- Number of nodes in a children list. -/
def sizeL : List (Nat × Node) → Nat
  | [] => 0
  | (_, n) :: rest => Node.size n + sizeL rest
end

mutual
def mergeF : Nat → Node → Node → Node
  | 0, a, _ => a
  | f+1, a, b =>
    if a.children.isEmpty then Node.mk (a.value + b.value) b.children
    else Node.mk (a.value + b.value) (mergeListF f a.children b.children)
def mergeListF : Nat → List (Nat × Node) → List (Nat × Node) → List (Nat × Node)
  | 0, cs, _ => cs
  | _+1, cs, [] => cs
  | f+1, cs, (k, n) :: rest => mergeListF f (mergeIntoF f cs k n) rest
def mergeIntoF : Nat → List (Nat × Node) → Nat → Node → List (Nat × Node)
  | 0, cs, _, _ => cs
  | _+1, [], k, n => [(k, n)]
  | f+1, (k', m) :: cs, k, n =>
    if k' = k then (k', mergeF f m n) :: cs else (k', m) :: mergeIntoF f cs k n
end

/-- Fuel sufficient for `mergeF`. -/
def fuelM (a b : Node) : Nat := a.size + 2 * b.size

/-- Fuel sufficient for `mergeListF`. -/
def fuelL (cs ns : List (Nat × Node)) : Nat := sizeL cs + 2 * sizeL ns + 2

/-- Fuel sufficient for `mergeIntoF`. -/
def fuelI (cs : List (Nat × Node)) (n : Node) : Nat := sizeL cs + 2 * n.size + 1

/-- Merge of node.py, with canonical fuel. -/
def Node.merge (a b : Node) : Node := mergeF (fuelM a b) a b

/-- Children-list merge with canonical fuel. -/
def mergeListC (cs ns : List (Nat × Node)) : List (Nat × Node) :=
  mergeListF (fuelL cs ns) cs ns

/-- Merge of one keyed node into a children list, with canonical fuel. -/
def mergeIntoC (cs : List (Nat × Node)) (k : Nat) (n : Node) : List (Nat × Node) :=
  mergeIntoF (fuelI cs n) cs k n

def eliminateF : Nat → Node → Nat → Node
  | 0, t, _ => t
  | f+1, t, c =>
    let t1 := match lookupC t.children c with
      | some child => Node.mk t.value (mergeListC (eraseC t.children c) child.children)
      | none => t
    Node.mk t1.value (t1.children.map (fun p => (p.1, eliminateF f p.2 c)))

/-- Elimination of a candidate from the whole subtree, canonical fuel. -/
def Node.eliminate (t : Node) (c : Nat) : Node := eliminateF t.size t c

mutual
def cFree : Nat → Node → Bool
  | c, .mk _ cs => cFreeL c cs
def cFreeL : Nat → List (Nat × Node) → Bool
  | _, [] => true
  | c, (k, u) :: rest => decide (k ≠ c) && cFree c u && cFreeL c rest
end

mutual
def nnc : Nat → Node → Bool
  | c, .mk _ cs => nncL c cs
def nncL : Nat → List (Nat × Node) → Bool
  | _, [] => true
  | c, (k, u) :: rest => (if k = c then cFree c u else nnc c u) && nncL c rest
end

mutual
def ndp : List Nat → Node → Bool
  | banned, .mk _ cs => ndpL banned cs
def ndpL : List Nat → List (Nat × Node) → Bool
  | _, [] => true
  | banned, (k, u) :: rest =>
      !(banned.contains k) && ndp (k :: banned) u && ndpL banned rest
end

/-- Duplicate-freedom of a list of keys, as an executable check. -/
def nodupB : List Nat → Bool
  | [] => true
  | x :: xs => !(xs.contains x) && nodupB xs

mutual
def uniqK : Node → Bool
  | .mk _ cs => nodupB (keysOf cs) && uniqKL cs
def uniqKL : List (Nat × Node) → Bool
  | [] => true
  | (_, u) :: rest => uniqK u && uniqKL rest
end

mutual
def consV : Node → Bool
  | .mk v cs => decide (sumVals cs ≤ v) && consVL cs
def consVL : List (Nat × Node) → Bool
  | [] => true
  | (_, u) :: rest => consV u && consVL rest
end

mutual
/-- Total number of represented ballots: the sum over all nodes of the
node's value minus the sum of its children's values. -/
def residSum : Node → Int
  | .mk v cs => (v - sumVals cs) + residSumL cs
def residSumL : List (Nat × Node) → Int
  | [] => 0
  | (_, u) :: rest => residSum u + residSumL rest
end

/-- Concrete tree in which the candidate 1 appears nested under itself:
one ballot with prefix 1 followed again by 1.  After `eliminate 1` the
merged grandchild keyed 1 survives as a direct child. -/
def cexNested : Node := Node.mk 2 [(1, Node.mk 1 [(1, Node.mk 1 [])])]

/-- Fold of `eliminate` over `elim_order[start], …, elim_order[idx-1]`,
the loop `for i in range(start, idx): self.eliminate(elim_order[i])`. -/
def elimRange (t : Node) (order : List Nat) (start idx : Nat) : Node :=
  (List.range' start (idx - start)).foldl (fun acc i => acc.eliminate (order.getD i 0)) t

/-- Rewrite every child of a list through an option-valued function,
keeping keys and order, failing as soon as one child fails — the loop
`for c, node in self._children.iteritems(): node._reduce(...)` in which
an exception in any iteration aborts the whole call. -/
def optMapChildren (g : Nat × Node → Option Node) :
    List (Nat × Node) → Option (List (Nat × Node))
  | [] => some []
  | p :: rest =>
      match g p, optMapChildren g rest with
      | some u, some rest2 => some ((p.1, u) :: rest2)
      | _, _ => none

/-- Fueled version of `Node._reduce` from node.py; `none` models the
`ValueError` raised by `elim_order.index(c)` when the node's key `c`
does not occur in the elimination order (the final-two check precedes
it, so the last two candidates of the order never reach the lookup). -/
def reduceNodeF : Nat → Node → Nat → List Nat → Nat → Option Node
  | 0, t, _, _, _ => some t
  | f+1, t, c, order, start =>
    if c = order.getD (order.length - 1) 0 ∨ c = order.getD (order.length - 2) 0 then
      some (Node.mk t.value [])
    else if c ∈ order then
      Option.map
        (fun cs => Node.mk (elimRange t order start (order.indexOf c)).value cs)
        (optMapChildren (fun p => reduceNodeF f p.2 p.1 order (start + 1))
          (elimRange t order start (order.indexOf c)).children)
    else none

/-- Canonical-fuel wrapper for `_reduce`. -/
def reduceNode (t : Node) (c : Nat) (order : List Nat) (start : Nat) : Option Node :=
  reduceNodeF t.size t c order start

/-- Reduce of node.py; `none` models the assertion failure when the order
length does not match the number of children, and the `ValueError`
propagating out of `_reduce` when a key is missing from the order. -/
def Node.reduce (t : Node) (order : List Nat) : Option Node :=
  if order.length = t.children.length then
    if order.length < 2 then some t
    else
      Option.map (fun cs => Node.mk t.value cs)
        (optMapChildren (fun p => reduceNode p.2 p.1 order 0) t.children)
  else none

/-- Fold of eliminate over an explicit candidate list. -/
def foldElim (t : Node) (cands : List Nat) : Node :=
  cands.foldl (fun acc c => acc.eliminate c) t

/-- Size of the tree inside an optional result, zero when absent. -/
def sizeO : Option Node → Nat
  | none => 0
  | some t => t.size

/-- Tree whose candidate 1 occurs nested beneath itself inside the subtree
of candidate 2; `reduce [1,2,3,4]` then leaves a candidate-1 child that a
second `reduce` removes, so reduce is not idempotent on it. -/
def cexReduce : Node :=
  Node.mk 4 [(1, Node.mk 1 []),
    (2, Node.mk 2 [(1, Node.mk 2 [(1, Node.mk 1 [])])]),
    (3, Node.mk 1 []), (4, Node.mk 0 [])]

/-- Python sys.maxint on a 64-bit build. -/
def maxint : Int := 9223372036854775807

/-- The three rules variants of irv.py. -/
inductive Rules where
  | baseIrv
  | sfRcv
  | completeIrv
deriving DecidableEq

/-- Election record from election.py; `names` is indexed so that entry
`i` names candidate `i+1`. -/
structure Election where
  names : List String
  profile : Node
  ranks : Nat
  seats : Int
  description : String

/-- Candidate with the fewest top-choice votes, ties resolved by the
first candidate in iteration order, starting from candidate 0 with
sys.maxint votes exactly as in `_elimination_set`. -/
def argminChild (cs : List (Nat × Node)) : Nat :=
  (cs.foldl (fun acc p => if p.2.value < acc.2 then (p.1, p.2.value) else acc)
    (0, maxint)).1

/-- Candidates sorted ascending by top-choice votes; a stable sort, as
Python's `sorted` guarantees. -/
def sortedCandidates (root : Node) : List Nat :=
  List.insertionSort
    (fun a b => childVal root.children a ≤ childVal root.children b)
    (keysOf root.children)

/-- Groups of consecutive equal vote totals with their sizes, the model
of `itertools.groupby` composed with taking lengths. -/
def groupPairs (val : Nat → Int) : List Nat → List (Int × Nat)
  | [] => []
  | c :: rest =>
    match groupPairs val rest with
    | [] => [(val c, 1)]
    | (k, num) :: gs =>
        if val c = k then (k, num + 1) :: gs else (val c, 1) :: (k, num) :: gs

/-- The San Francisco rule walk over vote groups: carries the running
prefix vote sum `n`, the best prefix length `i`, the scanned count `j`,
and collects every valid nonempty prefix. -/
def sfFold (sorted : List Nat) :
    List (Int × Nat) → Int → Nat → Nat → Nat × List (List Nat)
  | [], _, i, _ => (i, [])
  | (k, num) :: gs, n, i, j =>
    if n < k then
      let res := sfFold sorted gs (n + k * num) j (j + num)
      (res.1, (if 0 < j then [sorted.take j] else []) ++ res.2)
    else
      sfFold sorted gs (n + k * num) i (j + num)

/-- The elimination set of `_elimination_set`, together with the list of
all valid SF batch sets (the `all_sets` out-parameter). -/
def eliminationSet (root : Node) (rules : Rules) : List Nat × List (List Nat) :=
  match rules with
  | .baseIrv => ([argminChild root.children], [])
  | .completeIrv => ([argminChild root.children], [])
  | .sfRcv =>
      let sorted := sortedCandidates root
      let groups := groupPairs (fun c => childVal root.children c) sorted
      let res := sfFold sorted groups 0 0 0
      if res.1 = 0 then (sorted.take 1, res.2) else (sorted.take res.1, res.2)

/-- One pass over the children recording total votes and the running
leader, Python's scan with `high_candidate = 0`, `high_votes = 0`. -/
def roundScan (cs : List (Nat × Node)) : Int × Nat × Int :=
  cs.foldl (fun acc p =>
    if p.2.value > acc.2.2 then (acc.1 + p.2.value, p.1, p.2.value)
    else (acc.1 + p.2.value, acc.2.1, acc.2.2)) (0, 0, 0)

/-- Maximum top-choice vote count over the children (0 when empty). -/
def leadVotes (cs : List (Nat × Node)) : Int :=
  cs.foldl (fun m p => max m p.2.value) 0

/-- Record a value in a counts table at round `r` (1-based). -/
def setCount (counts : List (Nat × List Int)) (c : Nat) (r : Nat) (v : Int) :
    List (Nat × List Int) :=
  counts.map (fun q => if q.1 = c then (q.1, q.2.set (r - 1) v) else q)

/-- Record every child's value for round `r`. -/
def updateCounts (counts : List (Nat × List Int)) (cs : List (Nat × Node))
    (r : Nat) : List (Nat × List Int) :=
  cs.foldl (fun acc p => setCount acc p.1 r p.2.value) counts

/-- State returned by the round loop. -/
structure RoundState where
  winner : Option Nat
  counts : List (Nat × List Int)
  elimination : List (List Nat)
  root : Node
  roundsDone : Nat

/-- The `while r < rounds` loop of `irv_round`; `none` models an
assertion failure or the KeyError of `final_elim.remove(winner)`. -/
def irvLoop (rules : Rules) (candidates : List Nat) :
    Nat → Nat → Node → List Nat → List (Nat × List Int) → List (List Nat) →
    Option RoundState
  | 0, r, root, _, counts, elim => some ⟨none, counts, elim, root, r⟩
  | rem+1, r, root, eliminated, counts, elim =>
    if root.children.any (fun p => eliminated.contains p.1) then none
    else
      let counts2 := updateCounts counts root.children (r + 1)
      let scan := roundScan root.children
      if (rules ≠ Rules.completeIrv ∧ scan.2.2 * 2 > scan.1) ∨
          root.children.length ≤ 2 then
        let finalElim := candidates.filter (fun c => !(eliminated.contains c))
        if finalElim.contains scan.2.1 then
          some ⟨some scan.2.1, counts2,
            elim ++ [finalElim.filter (fun c => decide (c ≠ scan.2.1))],
            root, r + 1⟩
        else none
      else
        let lowest := (eliminationSet root rules).1
        irvLoop rules candidates rem (r + 1) (foldElim root lowest)
          (eliminated ++ lowest) counts2 (elim ++ [lowest])

/-- Result of `irv_round`. -/
structure RoundResult where
  winner : Option Nat
  counts : List (Nat × List Int)
  elimination : List (List Nat)
  root : Node

/-- irv_round from irv.py: at most `rounds` rounds of IRV on a deep copy
of the profile, with the counts truncated to the rounds executed. -/
def irvRound (profile : Node) (rounds : Nat) (rules : Rules) :
    Option RoundResult :=
  let root := profile
  let candidates := keysOf root.children
  let counts0 := candidates.map (fun c => (c, List.replicate rounds (0 : Int)))
  match irvLoop rules candidates rounds 0 root [] counts0 [] with
  | none => none
  | some st =>
      let counts2 := if st.roundsDone < rounds then
          st.counts.map (fun q => (q.1, q.2.take st.roundsDone)) else st.counts
      some ⟨st.winner, counts2, st.elimination, st.root⟩

/-- irv from irv.py: a full tabulation with `max_rounds = K`. -/
def irv (e : Election) (rules : Rules) :
    Option (Option Nat × List (Nat × List Int) × List (List Nat)) :=
  match irvRound e.profile e.profile.children.length rules with
  | none => none
  | some res => some (res.winner, res.counts, res.elimination)

/-- Flattening of vote groups back into the list of vote totals. -/
def gflat (gs : List (Int × Nat)) : List Int :=
  gs.bind (fun g => List.replicate g.2 g.1)

/-- Claim C2's notion of a valid elimination prefix: a nonempty proper
prefix of the votes-ascending candidate order whose total top-choice
votes are strictly below the top-choice votes of every candidate outside
it.  (An elimination set must leave a continuing candidate, so the full
list is not a prefix in this sense.) -/
def validPrefix (root : Node) (j : Nat) : Prop :=
  0 < j ∧ j < (sortedCandidates root).length ∧
  ∀ c ∈ (sortedCandidates root).drop j,
    (((sortedCandidates root).take j).map (fun x => childVal root.children x)).sum
      < childVal root.children c

/-- Internal form of validity over the sorted list of vote totals. -/
def validAtV (V : List Int) (j : Nat) : Prop :=
  0 < j ∧ j < V.length ∧ ∀ x ∈ V.drop j, (V.take j).sum < x

mutual
/-- Helper of `_tree_to_map`: DFS enumeration of the residual ballots of
a subtree, each with the path that reaches it. -/
def treeToMapN : Node → List Nat → List (List Nat × Int)
  | .mk v cs, b =>
      treeToMapL cs b ++ (if sumVals cs < v then [(b, v - sumVals cs)] else [])
def treeToMapL : List (Nat × Node) → List Nat → List (List Nat × Int)
  | [], _ => []
  | (c, n) :: rest, b => treeToMapN n (b ++ [c]) ++ treeToMapL rest b
end

/-- The ballot profile of a tree as a signature-to-count map. -/
def treeToMap (root : Node) : List (List Nat × Int) := treeToMapN root []

/-- Lookup of a signature in a profile map. -/
def lookupSig : List (List Nat × Int) → List Nat → Option Int
  | [], _ => none
  | (s, n) :: rest, sig => if s = sig then some n else lookupSig rest sig

/-- Combinations of `r` elements in order, as `itertools.combinations`. -/
def combinations : List Nat → Nat → List (List Nat)
  | _, 0 => [[]]
  | [], _+1 => []
  | x :: xs, r+1 =>
      (combinations xs r).map (fun c => x :: c) ++ combinations xs (r+1)

/-- Powerset enumeration by increasing subset size up to `maxsize`. -/
def powersetUpTo (s : List Nat) (maxsize : Nat) : List (List Nat) :=
  (List.range (min s.length maxsize + 1)).bind (fun r => combinations s r)

/-- Variable identifier: `true` for a P (plus) variable, `false` for an
M (minus) variable, with the ballot signature. -/
abbrev VarId := Bool × List Nat

/-- The data handed to the ILP solver by `distance_to`. -/
structure IlpInput where
  obj : List Int
  varUb : List Int
  varNames : List VarId
  constraints : List (List VarId × List Int)
  senses : String
  rhs : List Int

/-- The special inequality helper `_compute_special`. -/
def computeSpecial (profile : List (List Nat × Int)) (v : List (List Nat))
    (coef : Int) : List VarId × List Int × Int :=
  v.foldl (fun acc signature =>
    match lookupSig profile signature with
    | some cnt =>
        (acc.1 ++ [(true, signature), (false, signature)],
          acc.2.1 ++ [coef, -coef], acc.2.2 + cnt)
    | none => (acc.1 ++ [(true, signature)], acc.2.1 ++ [coef], acc.2.2))
    ([], [], 0)

/-- Append a signature into the round/offset bucket `special[rr][off]`. -/
def bumpSpecial (special : List (List (List (List Nat)))) (rr off : Nat)
    (sig : List Nat) : List (List (List (List Nat))) :=
  special.set rr ((special.getD rr []).set off
    ((special.getD rr []).getD off [] ++ [sig]))

/-- The bucket updates a single subset performs: for each index `i` of
the subset, the signature is appended to `special[rr][i-rr]` for every
`rr` from the running counter to `i`, after which the counter becomes
`i + 1`. -/
def addSubsetSpecial (special : List (List (List (List Nat))))
    (subset : List Nat) (sig : List Nat) : List (List (List (List Nat))) :=
  (subset.foldl (fun acc i =>
    (((List.range' acc.2 (i + 1 - acc.2)).foldl
        (fun sp rr => bumpSpecial sp rr (i - rr) sig) acc.1), i + 1))
    (special, 0)).1

/-- Accumulator state of the per-subset variable loop of `distance_to`. -/
structure DistState where
  obj : List Int
  varUb : List Int
  varNames : List VarId
  basicVars : List VarId
  basicCoefs : List Int
  special : List (List (List (List Nat)))

/-- Processing of one index subset: adds the P (and, when the signature
is observed, M) variables with their objective coefficients and bounds,
extends the balance constraint, and files the signature in the special
buckets. -/
def distStep (k : Nat) (elimOrder : List Nat) (profile : List (List Nat × Int))
    (n : Int) (st : DistState) (subset : List Nat) : DistState :=
  if (k - 1) ∈ subset ∧ (k - 2) ∈ subset then st
  else
    let signature := subset.map (fun i => elimOrder.getD i 0)
    let st2 :=
      match lookupSig profile signature with
      | some ns =>
          { st with
            varNames := st.varNames ++ [(true, signature), (false, signature)],
            obj := st.obj ++ (if subset.isEmpty then [-1, 1] else [0, 2]),
            varUb := st.varUb ++ [n - ns, ns],
            basicVars := st.basicVars ++ [(true, signature), (false, signature)],
            basicCoefs := st.basicCoefs ++ [1, -1] }
      | none =>
          { st with
            varNames := st.varNames ++ [(true, signature)],
            obj := st.obj ++ (if subset.isEmpty then [-1] else [0]),
            varUb := st.varUb ++ [n],
            basicVars := st.basicVars ++ [(true, signature)],
            basicCoefs := st.basicCoefs ++ [1] }
    { st2 with special := addSubsetSpecial st2.special subset signature }

/-- Assembly of the special inequalities from the filled buckets. -/
def specialConstraints (profile : List (List Nat × Int))
    (special : List (List (List (List Nat)))) :
    List (List VarId × List Int) × List Int :=
  special.foldl (fun acc s =>
    match s with
    | [] => acc
    | s0 :: srest =>
        let isetc := computeSpecial profile s0 1
        srest.foldl (fun acc2 t =>
          let jsetc := computeSpecial profile t (-1)
          (acc2.1 ++ [(isetc.1 ++ jsetc.1, isetc.2.1 ++ jsetc.2.1)],
            acc2.2 ++ [jsetc.2.2 - isetc.2.2])) acc)
    ([], [])

/-- distance_to from cplex_ilp.py, with the CPLEX solver abstracted as a
function of the assembled problem and the timeout.  `none` models the
assertion failure inside `reduce` when the elimination order does not
cover the children.  The guard `k < 2` answers 0 before the tree is
copied, reduced, or any problem is built. -/
def distanceTo (solver : IlpInput → Int → Int) (root : Node) (ranks : Nat)
    (elimOrder : List Nat) (timeout : Int) : Option Int :=
  let k := elimOrder.length
  if k < 2 then some 0
  else
    match root.reduce elimOrder with
    | none => none
    | some reduced =>
        let n := reduced.value
        let profile := treeToMap reduced
        let special0 : List (List (List (List Nat))) :=
          (List.range (k - 1)).map (fun i => (List.range (k - i)).map (fun _ => []))
        let st0 : DistState := ⟨[], [], [], [], [], special0⟩
        let st := (powersetUpTo (List.range k) ranks).foldl
          (distStep k elimOrder profile n) st0
        let spc := specialConstraints profile st.special
        let numspecial := (k * (k - 1)) / 2
        let senses := "E" ++ String.mk (List.replicate numspecial 'L')
        some (solver
          ⟨st.obj, st.varUb, st.varNames,
            (st.basicVars, st.basicCoefs) :: spc.1, senses, 0 :: spc.2⟩
          timeout)

mutual
/-- All values in a tree are nonnegative. -/
def vnn : Node → Bool
  | .mk v cs => decide (0 ≤ v) && vnnL cs
/-- All values in a children list are nonnegative. -/
def vnnL : List (Nat × Node) → Bool
  | [] => true
  | (_, u) :: rest => vnn u && vnnL rest
end

/-- In-place update of the child keyed `c`, the dict slot assignment that
mutating the looked-up node object amounts to; keeps the insertion order. -/
def replaceC : List (Nat × Node) → Nat → Node → List (Nat × Node)
  | [], _, _ => []
  | (k, n) :: rest, c, n' =>
      if k = c then (k, n') :: rest else (k, n) :: replaceC rest c n'

/-- Sum of the child values at the keys of a list (0 for absent keys). -/
def sumOver (cs : List (Nat × Node)) : List Nat → Int
  | [] => 0
  | c :: rest => childVal cs c + sumOver cs rest

/-- One frame of `_steal_votes`: the loop over the steal order entering
present children through `recur`, then the self steal.  `changed` is the
frame's accumulator.  `none` models the assertions `child.value >= 0`
and `x > 0`, and failure of `recur`. -/
def stealStep (recur : Node → Int → Option (Node × Int × Int)) :
    List Nat → Node → Int → Int → Option (Node × Int × Int)
  | [], node, m, changed =>
      if 0 < node.value then
        let x := min node.value (m / 2 + 1)
        if x ≤ 0 then none
        else some (Node.mk (node.value - x) node.children, changed + x, m - 2 * x)
      else some (node, changed, m)
  | c :: cs, node, m, changed =>
      match lookupC node.children c with
      | none => stealStep recur cs node m changed
      | some child =>
          match recur child m with
          | none => none
          | some (child', sub, m') =>
              if child'.value < 0 then none
              else
                let node' := Node.mk (node.value - sub)
                  (if child'.value = 0 then eraseC node.children c
                   else replaceC node.children c child')
                if m' < 0 then some (node', changed + sub, m')
                else stealStep recur cs node' m' (changed + sub)

/-- Fueled `_steal_votes`; the fuel bounds the recursion depth, so the
size of the subtree always suffices. -/
def stealVotesF (order : List Nat) : Nat → Node → Int → Option (Node × Int × Int)
  | 0, _, _ => none
  | fuel + 1, node, m => stealStep (stealVotesF order fuel) order node m 0

/-- `get_child`: the child keyed `c` (a fresh zero node is appended when
absent) together with the updated parent. -/
def getChildIns (t : Node) (c : Nat) : Node × Node :=
  match lookupC t.children c with
  | some ch => (ch, t)
  | none => (Node.mk 0 [], Node.mk t.value (t.children ++ [(c, Node.mk 0 [])]))

/-- `steal_from_order` before `remove(k)`: the later elimination sets in
order, the winner, round 0 without `j`, then `j`. -/
def stealPre (e0 : List Nat) (rest : List (List Nat)) (j w : Nat) : List Nat :=
  rest.foldl (fun a es => a ++ es) [] ++ [w] ++
    e0.filter (fun c => c != j) ++ [j]

/-- `_modify_margin`: steals votes from `k`'s subtree and credits them to
the root's child `j`, returning the updated tree with the number of
changed ballots.  `none` models the two entry assertions, the
`ValueError` of `steal_from_order.remove(k)` when `k` is absent, the
internal assertions of `_steal_votes`, and fuel exhaustion (which the
canonical fuel rules out).  The source increments the root's child `j`
at each steal; here the total is credited once at the end, which agrees
with the source whenever `j ≠ k` (the only case `irv_margin` produces,
`k` being a continuing candidate and `j` an eliminated one), since that
child is disjoint from the traversed subtree and never read. -/
def modifyMargin (root : Node) (m : Int) (j k : Nat)
    (elimOrder : List (List Nat)) (w : Nat) : Option (Node × Int) :=
  match elimOrder with
  | [] => none
  | e0 :: rest =>
    if j ∈ e0 then
      if 0 ≤ m then
        let pre := stealPre e0 rest j w
        if k ∈ pre then
          let order := pre.erase k
          let kc := (getChildIns root k).1
          let root1 := (getChildIns root k).2
          match stealVotesF order kc.size kc m with
          | none => none
          | some (kc2, changed, _) =>
              let root2 := Node.mk root1.value (replaceC root1.children k kc2)
              if 0 < changed then
                let jc := (getChildIns root2 j).1
                let root3 := (getChildIns root2 j).2
                some (Node.mk root3.value
                  (replaceC root3.children j
                    (Node.mk (jc.value + changed) jc.children)), changed)
              else some (root2, changed)
        else none
      else none
    else none

/-- Postcondition of one `_steal_votes` frame: success, a nonnegative
number of stolen ballots accounted exactly against the node's value,
nonnegative values throughout, no growth in size, the margin decreased
by twice the steals, and either overshoot or a drained node. -/
def StealOut (node : Node) (m acc : Int) (res : Option (Node × Int × Int)) : Prop :=
  ∃ n' d m', res = some (n', acc + d, m') ∧ 0 ≤ d ∧
    n'.value = node.value - d ∧ 0 ≤ n'.value ∧ vnn n' = true ∧
    n'.size ≤ node.size ∧ m' = m - 2 * d ∧ (m' < 0 ∨ n'.value = 0)

/-- The Condorcet matrix, as a total function on 0-based indices. -/
abbrev CMat := Nat → Nat → Int

/-- `m[r, cols] += v` on a numpy matrix. -/
def addRow (m : CMat) (r : Nat) (cols : List Nat) (v : Int) : CMat :=
  fun i j => if i = r ∧ j ∈ cols then m i j + v else m i j

/-- One loop step of `_add_child_to_matrix`: enter the child keyed `c`
through `recur` when present. -/
def addChildGo (recur : Node → Nat → List Nat → CMat → CMat)
    (chs : List (Nat × Node)) (cs1 : List Nat) (acc : CMat) (c : Nat) : CMat :=
  match lookupC chs c with
  | some ch => recur ch c cs1 acc
  | none => acc

/-- `_add_child_to_matrix`, fueled by recursion depth: removes `who`
from the candidate set, adds the subtree count to row `who-1` at the
columns of the remaining candidates, and recurses into the children
that are still in the set.  (The numpy matrix is int32; values within
its range are assumed, as everywhere in this embedding.) -/
def addChildF : Nat → Node → Nat → List Nat → CMat → CMat
  | 0, _, _, _, m => m
  | fuel + 1, n, who, cs, m =>
      let cs1 := if who ∈ cs then cs.erase who else cs
      (cs1.filter (fun c => (keysOf n.children).contains c)).foldl
        (addChildGo (addChildF fuel) n.children cs1)
        (addRow m (who - 1) (cs1.map (fun c => c - 1)) n.value)

/-- `build_condorcet`: start from the zero matrix and add every child of
the root with the full candidate set. -/
def buildCondorcet (e : Election) : CMat :=
  e.profile.children.foldl
    (fun acc p => addChildF p.2.size p.2 p.1 (keysOf e.profile.children) acc)
    (fun _ _ => 0)

mutual
/-- Scoping invariant of the candidate-set walk: every child key lies in
the current set, recursively with the key removed below it. -/
def scopedB : List Nat → Node → Bool
  | cs, .mk _ chs => scopedL cs chs
def scopedL : List Nat → List (Nat × Node) → Bool
  | _, [] => true
  | cs, (k, u) :: rest => cs.contains k && scopedB (cs.erase k) u && scopedL cs rest
end

mutual
/-- Count of ballots in a subtree whose remaining ranking avoids both
`a` and `b`: the node's residual plus the avoiders below children keyed
neither `a` nor `b`. -/
def avoidT (a b : Nat) : Node → Int
  | .mk v chs => (v - sumVals chs) + avoidTL a b chs
def avoidTL (a b : Nat) : List (Nat × Node) → Int
  | [] => 0
  | (k, u) :: rest =>
      (if k = a ∨ k = b then 0 else avoidT a b u) + avoidTL a b rest
end

/-- Total count of the profile entries whose signature avoids both `a`
and `b`. -/
def avoidSum (a b : Nat) (l : List (List Nat × Int)) : Int :=
  (l.map (fun p => if a ∈ p.1 ∨ b ∈ p.1 then 0 else p.2)).sum

mutual
/-- Every key of the subtree lies in the allowed list. -/
def keysIn (allowed : List Nat) : Node → Bool
  | .mk _ chs => keysInL allowed chs
/-- Every key of a children list and below lies in the allowed list. -/
def keysInL (allowed : List Nat) : List (Nat × Node) → Bool
  | [] => true
  | (k, u) :: rest => allowed.contains k && keysIn allowed u && keysInL allowed rest
end

/-- The symmetric pair of matrix entries the claim is about. -/
def pairAt (a b : Nat) (m : CMat) : Int := m (a - 1) (b - 1) + m (b - 1) (a - 1)

/-- The two-candidate election of the C6 counterexample: one ballot
ranking only candidate 1. -/
def cexCondorcet : Election :=
  ⟨["A", "B"], Node.mk 1 [(1, Node.mk 1 []), (2, Node.mk 0 [])], 1, 1, ""⟩

/-- Sum of the values of the entries keyed `c` in a list. -/
def keyedSum (c : Nat) : List (Nat × Node) → Int
  | [] => 0
  | (k, n) :: rest => (if k = c then n.value else 0) + keyedSum c rest

/-- The zero-vote election of the C4 counterexample. -/
def cexIrv : Election := ⟨["A"], Node.mk 0 [(1, Node.mk 0 [])], 1, 1, ""⟩

/-- A ballot-line token: a candidate number, the `-` skipped rank, or a
token containing `=` (equal ranking). -/
inductive Token where
  | cand (c : Nat)
  | skip
  | equal
deriving DecidableEq

/-- The structured content of a .blt file: header, ballot lines as token
lists, quoted names, and the quoted description. -/
structure BltFile where
  numCandidates : Nat
  seats : Int
  ballots : List (List Token)
  names : List String
  description : String

mutual
/-- `_write_blt`: DFS over the children, then one line per residual
ballot at this node, the path's candidates padded with `-` to `ranks`. -/
def writeBallots (ranks : Nat) : Node → List Nat → List (List Token)
  | .mk v cs, b =>
      writeBallotsL ranks cs b ++
        List.replicate (v - sumVals cs).toNat
          (b.map Token.cand ++ List.replicate (ranks - b.length) Token.skip)
/-- The child loop of `_write_blt`. -/
def writeBallotsL (ranks : Nat) : List (Nat × Node) → List Nat → List (List Token)
  | [], _ => []
  | (c, n) :: rest, b => writeBallots ranks n (b ++ [c]) ++ writeBallotsL ranks rest b
end

/-- `write_blt`: header from the election, the ballot lines, the names
1..K and the description. -/
def writeBlt (e : Election) : BltFile :=
  ⟨e.names.length, e.seats, writeBallots e.ranks e.profile [], e.names, e.description⟩

/-- The per-ballot token walk of `_read_blt`: `-` is skipped, `=` stops
the ballot, a fresh candidate descends into (creating) the child and
increments its count, a repeated candidate is ignored. -/
def insertTok : Node → List Token → List Nat → Node
  | node, [], _ => node
  | node, Token.skip :: rest, seen => insertTok node rest seen
  | node, Token.equal :: _, _ => node
  | node, Token.cand c :: rest, seen =>
      if c ∈ seen then insertTok node rest seen
      else
        Node.mk (getChildIns node c).2.value
          (replaceC (getChildIns node c).2.children c
            (insertTok (Node.mk ((getChildIns node c).1.value + 1)
              (getChildIns node c).1.children) rest (c :: seen)))

/-- Insertion of all ballot lines in order. -/
def readBallots (root : Node) (ballots : List (List Token)) : Node :=
  ballots.foldl (fun acc l => insertTok acc l []) root

/-- The reader's initial tree: a child for every candidate `1..n`. -/
def initCands (n : Nat) : Node :=
  (List.range' 1 n).foldl (fun acc c => (getChildIns acc c).2) (Node.mk 0 [])

/-- `_read_blt` over structured content: initial candidates, ballot
insertion, `ranks` as the maximum token count of any line, and the root
value overwritten with the number of ballots. -/
def readBlt (f : BltFile) : Election :=
  ⟨f.names,
    Node.mk (f.ballots.length : Int)
      (readBallots (initCands f.numCandidates) f.ballots).children,
    f.ballots.foldl (fun m l => max m l.length) 0,
    f.seats, f.description⟩

/-- Effect of rebuilding a child list: each rebuilt child replaces its
placeholder (a zero node inserted earlier) or is appended. -/
def graftKids : List (Nat × Node) → List (Nat × Node) → List (Nat × Node)
  | cs0, [] => cs0
  | cs0, (c, tc) :: rest =>
      graftKids (if (lookupC cs0 c).isSome then replaceC cs0 c tc
        else cs0 ++ [(c, tc)]) rest

/-- Candidate numbers appearing in a token line. -/
def candsOf (l : List Token) : List Nat :=
  l.filterMap (fun t => match t with | Token.cand c => some c | _ => none)

/-- Child bumping plus suffix insertion, the effect of a batch of lines
that all start with the same candidate on that candidate's subtree. -/
def readBump (ch : Node) (ls : List (List Token)) : Node :=
  ls.foldl (fun acc l => insertTok (Node.mk (acc.value + 1) acc.children) l []) ch

mutual
/-- Positivity of every strict descendant of a node. -/
def posB : Node → Bool
  | .mk _ cs => posBL cs
/-- Positivity of a whole child list's subtrees. -/
def posBL : List (Nat × Node) → Bool
  | [] => true
  | (_, u) :: rest => decide (0 < u.value) && posB u && posBL rest
end

/-- The precondition on a child entry for the round trip: either its
subtree carries ballots with every strict descendant positive, or it is
an untouched zero leaf matched by a zero placeholder in the accumulator. -/
def OkChild (R : Node) (p : Nat × Node) : Prop :=
  ((0 < p.2.value ∧ posB p.2 = true) ∨ p.2 = Node.mk 0 []) ∧
  (lookupC R.children p.1 = none → 0 < p.2.value) ∧
  (lookupC R.children p.1 = none ∨ lookupC R.children p.1 = some (Node.mk 0 []))

/-- A one-candidate election with no ballots but `ranks = 5`. -/
def cexBlt : Election :=
  ⟨["A"], Node.mk 0 [(1, Node.mk 0 [])], 5, 1, "d"⟩

/-- A two-candidate, two-ballot election satisfying the round-trip
hypotheses. -/
def wBltEl : Election :=
  ⟨["A", "B"], Node.mk 2 [(1, Node.mk 1 []), (2, Node.mk 1 [])], 1, 1, "x"⟩

@[simp] theorem Node.value_mk (v : Int) (cs : List (Nat × Node)) :
    (Node.mk v cs).value = v := rfl

@[simp] theorem Node.children_mk (v : Int) (cs : List (Nat × Node)) :
    (Node.mk v cs).children = cs := rfl

theorem Node.eta (t : Node) : Node.mk t.value t.children = t := by
  cases t
  rfl

@[simp] theorem size_mk (v : Int) (cs : List (Nat × Node)) :
    (Node.mk v cs).size = 1 + sizeL cs := rfl

@[simp] theorem sizeL_nil : sizeL [] = 0 := rfl

@[simp] theorem sizeL_cons (k : Nat) (n : Node) (rest : List (Nat × Node)) :
    sizeL ((k, n) :: rest) = n.size + sizeL rest := rfl

theorem size_pos (t : Node) : 1 ≤ t.size := by
  cases t
  simp [Node.size]

theorem size_eq (t : Node) : t.size = 1 + sizeL t.children := by
  cases t
  rfl

theorem sizeL_append (cs ds : List (Nat × Node)) :
    sizeL (cs ++ ds) = sizeL cs + sizeL ds := by
  induction cs with
  | nil => simp
  | cons p rest ih =>
      obtain ⟨k, n⟩ := p
      simp [ih]
      ring

theorem size_mem_le {cs : List (Nat × Node)} {k : Nat} {n : Node}
    (h : (k, n) ∈ cs) : n.size ≤ sizeL cs := by
  induction cs with
  | nil => cases h
  | cons p rest ih =>
      obtain ⟨k', n'⟩ := p
      rcases List.mem_cons.mp h with h' | h'
      · cases h'
        simp
      · have := ih h'
        simp
        omega

theorem lookupC_eraseC_size {cs : List (Nat × Node)} {c : Nat} {n : Node}
    (h : lookupC cs c = some n) :
    n.size + sizeL (eraseC cs c) ≤ sizeL cs := by
  induction cs with
  | nil => simp [lookupC] at h
  | cons p rest ih =>
      obtain ⟨k', n'⟩ := p
      by_cases hk : k' = c
      · subst hk
        simp [lookupC] at h
        subst h
        simp [eraseC]
      · simp [lookupC, hk] at h
        have := ih h
        simp [eraseC, hk]
        omega

/-!  Fueled versions of `Node._merge` from node.py.  The Python method
merges a node `b` into `a` in place: values are added, and when `a` has
children, each child of `b` is merged into the same-keyed child of `a`
(created zero-valued if missing, in which case merging into the fresh
node adopts `b`'s child wholesale, which is what `mergeIntoF` appending
`(k, n)` produces). -/

theorem merge_size_bound :
    ∀ f : Nat,
      (∀ a b : Node, (mergeF f a b).size ≤ a.size + b.size) ∧
      (∀ cs ns : List (Nat × Node), sizeL (mergeListF f cs ns) ≤ sizeL cs + sizeL ns) ∧
      (∀ (cs : List (Nat × Node)) (k : Nat) (n : Node),
        sizeL (mergeIntoF f cs k n) ≤ sizeL cs + n.size) := by
  intro f
  induction f with
  | zero =>
      refine ⟨?_, ?_, ?_⟩
      · intro a b
        simp only [mergeF]
        omega
      · intro cs ns
        simp only [mergeListF]
        omega
      · intro cs k n
        simp only [mergeIntoF]
        omega
  | succ f ih =>
      obtain ⟨ihM, ihL, ihI⟩ := ih
      refine ⟨?_, ?_, ?_⟩
      · intro a b
        cases a with
        | mk va csa =>
          cases b with
          | mk vb csb =>
            cases csa with
            | nil =>
                simp only [mergeF, Node.children_mk, List.isEmpty_nil, if_true,
                  size_mk, Node.value_mk, sizeL_nil]
                omega
            | cons p rest =>
                have h := ihL (p :: rest) csb
                simp only [mergeF, Node.children_mk, List.isEmpty_cons, if_false,
                  size_mk, Node.value_mk, Bool.false_eq_true]
                omega
      · intro cs ns
        cases ns with
        | nil => simp [mergeListF]
        | cons p rest =>
            obtain ⟨k, n⟩ := p
            simp [mergeListF]
            have h1 := ihL (mergeIntoF f cs k n) rest
            have h2 := ihI cs k n
            simp at h1 h2 ⊢
            omega
      · intro cs k n
        cases cs with
        | nil => simp [mergeIntoF]
        | cons p rest =>
            obtain ⟨k', m⟩ := p
            by_cases hk : k' = k
            · simp [mergeIntoF, hk]
              have := ihM m n
              omega
            · simp [mergeIntoF, hk]
              have := ihI rest k n
              omega

theorem mergeF_size (f : Nat) (a b : Node) :
    (mergeF f a b).size ≤ a.size + b.size := (merge_size_bound f).1 a b

theorem mergeListF_size (f : Nat) (cs ns : List (Nat × Node)) :
    sizeL (mergeListF f cs ns) ≤ sizeL cs + sizeL ns := (merge_size_bound f).2.1 cs ns

theorem mergeIntoF_size (f : Nat) (cs : List (Nat × Node)) (k : Nat) (n : Node) :
    sizeL (mergeIntoF f cs k n) ≤ sizeL cs + n.size := (merge_size_bound f).2.2 cs k n

theorem merge_congr :
    ∀ f : Nat,
      (∀ g a b, fuelM a b ≤ f → fuelM a b ≤ g → mergeF f a b = mergeF g a b) ∧
      (∀ g cs ns, fuelL cs ns ≤ f → fuelL cs ns ≤ g →
        mergeListF f cs ns = mergeListF g cs ns) ∧
      (∀ g cs k n, fuelI cs n ≤ f → fuelI cs n ≤ g →
        mergeIntoF f cs k n = mergeIntoF g cs k n) := by
  intro f
  induction f using Nat.strong_induction_on with
  | _ f ih =>
    refine ⟨?_, ?_, ?_⟩
    · intro g a b hf hg
      have hsa := size_pos a
      have hsb := size_pos b
      have hf1 : 1 ≤ f := by
        simp [fuelM] at hf
        omega
      have hg1 : 1 ≤ g := by
        simp [fuelM] at hg
        omega
      obtain ⟨f', rfl⟩ : ∃ f', f = f' + 1 := ⟨f - 1, by omega⟩
      obtain ⟨g', rfl⟩ : ∃ g', g = g' + 1 := ⟨g - 1, by omega⟩
      cases a with
      | mk va csa =>
        cases b with
        | mk vb csb =>
          by_cases hemp : csa.isEmpty
          · simp [mergeF, hemp]
          · simp [mergeF, hemp]
            have hfl : fuelL csa csb ≤ f' := by
              simp [fuelM, Node.size] at hf
              simp [fuelL]
              omega
            have hgl : fuelL csa csb ≤ g' := by
              simp [fuelM, Node.size] at hg
              simp [fuelL]
              omega
            have h1 := ((ih f' (by omega)).2.1) g' csa csb hfl hgl
            exact h1
    · intro g cs ns hf hg
      have hf1 : 1 ≤ f := by
        simp [fuelL] at hf
        omega
      have hg1 : 1 ≤ g := by
        simp [fuelL] at hg
        omega
      obtain ⟨f', rfl⟩ : ∃ f', f = f' + 1 := ⟨f - 1, by omega⟩
      obtain ⟨g', rfl⟩ : ∃ g', g = g' + 1 := ⟨g - 1, by omega⟩
      cases ns with
      | nil => simp [mergeListF]
      | cons p rest =>
          obtain ⟨k, n⟩ := p
          simp [mergeListF]
          have hsn := size_pos n
          have hfI : fuelI cs n ≤ f' := by
            simp [fuelL] at hf
            simp [fuelI]
            omega
          have hgI : fuelI cs n ≤ g' := by
            simp [fuelL] at hg
            simp [fuelI]
            omega
          have hInto : mergeIntoF f' cs k n = mergeIntoF g' cs k n :=
            ((ih f' (by omega)).2.2) g' cs k n hfI hgI
          rw [hInto]
          have hsz : sizeL (mergeIntoF g' cs k n) ≤ sizeL cs + n.size :=
            mergeIntoF_size g' cs k n
          have hfL : fuelL (mergeIntoF g' cs k n) rest ≤ f' := by
            simp [fuelL] at hf ⊢
            omega
          have hgL : fuelL (mergeIntoF g' cs k n) rest ≤ g' := by
            simp [fuelL] at hg ⊢
            omega
          exact ((ih f' (by omega)).2.1) g' (mergeIntoF g' cs k n) rest hfL hgL
    · intro g cs k n hf hg
      have hsn := size_pos n
      have hf1 : 1 ≤ f := by
        simp [fuelI] at hf
        omega
      have hg1 : 1 ≤ g := by
        simp [fuelI] at hg
        omega
      obtain ⟨f', rfl⟩ : ∃ f', f = f' + 1 := ⟨f - 1, by omega⟩
      obtain ⟨g', rfl⟩ : ∃ g', g = g' + 1 := ⟨g - 1, by omega⟩
      cases cs with
      | nil => simp [mergeIntoF]
      | cons p rest =>
          obtain ⟨k', m⟩ := p
          have hsm := size_pos m
          by_cases hk : k' = k
          · simp [mergeIntoF, hk]
            have hfM : fuelM m n ≤ f' := by
              simp [fuelI, Node.size] at hf
              simp [fuelM]
              omega
            have hgM : fuelM m n ≤ g' := by
              simp [fuelI, Node.size] at hg
              simp [fuelM]
              omega
            exact ((ih f' (by omega)).1) g' m n hfM hgM
          · simp [mergeIntoF, hk]
            have hfI : fuelI rest n ≤ f' := by
              simp [fuelI] at hf ⊢
              omega
            have hgI : fuelI rest n ≤ g' := by
              simp [fuelI] at hg ⊢
              omega
            exact ((ih f' (by omega)).2.2) g' rest k n hfI hgI

theorem mergeF_eq_wrapper (f : Nat) (a b : Node) (h : fuelM a b ≤ f) :
    mergeF f a b = Node.merge a b :=
  (merge_congr f).1 (fuelM a b) a b h (le_refl _)

theorem mergeListF_eq_wrapper (f : Nat) (cs ns : List (Nat × Node))
    (h : fuelL cs ns ≤ f) : mergeListF f cs ns = mergeListC cs ns :=
  (merge_congr f).2.1 (fuelL cs ns) cs ns h (le_refl _)

theorem mergeIntoF_eq_wrapper (f : Nat) (cs : List (Nat × Node)) (k : Nat) (n : Node)
    (h : fuelI cs n ≤ f) : mergeIntoF f cs k n = mergeIntoC cs k n :=
  (merge_congr f).2.2 (fuelI cs n) cs k n h (le_refl _)

theorem merge_def (a b : Node) :
    Node.merge a b =
      if a.children.isEmpty then Node.mk (a.value + b.value) b.children
      else Node.mk (a.value + b.value) (mergeListC a.children b.children) := by
  have hsa := size_pos a
  have hsb := size_pos b
  have h1 : fuelM a b = (fuelM a b - 1) + 1 := by
    simp [fuelM]
    omega
  rw [Node.merge, h1]
  simp only [mergeF]
  by_cases hemp : a.children.isEmpty
  · simp [hemp]
  · simp [hemp]
    apply mergeListF_eq_wrapper
    simp [fuelM, fuelL, size_eq a, size_eq b] at h1 ⊢
    omega

theorem mergeListC_nil (cs : List (Nat × Node)) : mergeListC cs [] = cs := by
  rw [mergeListC]
  have : fuelL cs [] = (fuelL cs [] - 1) + 1 := by
    simp [fuelL]
  rw [this]
  simp [mergeListF]

theorem mergeListC_cons (cs : List (Nat × Node)) (k : Nat) (n : Node)
    (rest : List (Nat × Node)) :
    mergeListC cs ((k, n) :: rest) = mergeListC (mergeIntoC cs k n) rest := by
  have hsn := size_pos n
  have h1 : fuelL cs ((k, n) :: rest) = (fuelL cs ((k, n) :: rest) - 1) + 1 := by
    simp [fuelL]
  rw [mergeListC, h1]
  simp only [mergeListF]
  have hfI : fuelI cs n ≤ fuelL cs ((k, n) :: rest) - 1 := by
    simp only [fuelL, fuelI, sizeL_cons]
    omega
  rw [mergeIntoF_eq_wrapper _ _ _ _ hfI]
  apply mergeListF_eq_wrapper
  have hsz : sizeL (mergeIntoC cs k n) ≤ sizeL cs + n.size := mergeIntoF_size _ cs k n
  simp only [fuelL, sizeL_cons]
  omega

theorem mergeIntoC_nil (k : Nat) (n : Node) : mergeIntoC [] k n = [(k, n)] := by
  rw [mergeIntoC]
  have : fuelI [] n = (fuelI [] n - 1) + 1 := by
    simp [fuelI]
  rw [this]
  simp [mergeIntoF]

theorem mergeIntoC_cons (k' : Nat) (m : Node) (cs : List (Nat × Node)) (k : Nat)
    (n : Node) :
    mergeIntoC ((k', m) :: cs) k n =
      if k' = k then (k', Node.merge m n) :: cs else (k', m) :: mergeIntoC cs k n := by
  have hsn := size_pos n
  have hsm := size_pos m
  have h1 : fuelI ((k', m) :: cs) n = (fuelI ((k', m) :: cs) n - 1) + 1 := by
    simp [fuelI]
  rw [mergeIntoC, h1]
  simp only [mergeIntoF]
  by_cases hk : k' = k
  · simp only [hk, if_true]
    rw [mergeF_eq_wrapper]
    simp only [fuelI, fuelM, sizeL_cons]
    omega
  · simp only [hk, if_false, ite_false]
    rw [mergeIntoF_eq_wrapper]
    simp only [fuelI, sizeL_cons]
    omega

theorem merge_size (a b : Node) : (Node.merge a b).size ≤ a.size + b.size :=
  mergeF_size _ a b

theorem mergeListC_size (cs ns : List (Nat × Node)) :
    sizeL (mergeListC cs ns) ≤ sizeL cs + sizeL ns :=
  mergeListF_size _ cs ns

theorem mergeIntoC_size (cs : List (Nat × Node)) (k : Nat) (n : Node) :
    sizeL (mergeIntoC cs k n) ≤ sizeL cs + n.size :=
  mergeIntoF_size _ cs k n

/-!  Fueled `eliminate` from node.py.  The Python method first removes the
child keyed `c` (if present) and merges each of its children into the
same-keyed surviving child, then recursively eliminates `c` in every
remaining child subtree. -/

theorem eliminateF_congr :
    ∀ f g t c, t.size ≤ f → t.size ≤ g → eliminateF f t c = eliminateF g t c := by
  intro f
  induction f using Nat.strong_induction_on with
  | _ f ih =>
    intro g t c hf hg
    have hst := size_pos t
    obtain ⟨f', rfl⟩ : ∃ f', f = f' + 1 := ⟨f - 1, by omega⟩
    obtain ⟨g', rfl⟩ : ∃ g', g = g' + 1 := ⟨g - 1, by omega⟩
    simp only [eliminateF]
    have hsub : ∀ t1 : Node, t1.size ≤ t.size →
        t1.children.map (fun p => (p.1, eliminateF f' p.2 c)) =
        t1.children.map (fun p => (p.1, eliminateF g' p.2 c)) := by
      intro t1 ht1
      apply List.map_congr_left
      intro p hp
      have hple : p.2.size ≤ sizeL t1.children := by
        obtain ⟨k, u⟩ := p
        exact size_mem_le hp
      have hlt : p.2.size ≤ t1.size - 1 := by
        rw [size_eq t1] at *
        omega
      have h1 : p.2.size ≤ f' := by omega
      have h2 : p.2.size ≤ g' := by omega
      rw [ih f' (by omega) g' p.2 c h1 h2]
    cases hlk : lookupC t.children c with
    | none =>
        simp only [hlk]
        rw [hsub t (le_refl _)]
    | some child =>
        simp only [hlk]
        have hsz : sizeL (mergeListC (eraseC t.children c) child.children) ≤
            sizeL t.children := by
          have h1 := mergeListC_size (eraseC t.children c) child.children
          have h2 := lookupC_eraseC_size hlk
          have h3 : child.size = 1 + sizeL child.children := size_eq child
          omega
        have := hsub (Node.mk t.value
          (mergeListC (eraseC t.children c) child.children))
          (by simp [Node.size, size_eq t]; omega)
        simp at this
        simp
        exact this

theorem eliminateF_eq_wrapper (f : Nat) (t : Node) (c : Nat) (h : t.size ≤ f) :
    eliminateF f t c = t.eliminate c :=
  eliminateF_congr f t.size t c h (le_refl _)

theorem eliminate_def (t : Node) (c : Nat) :
    t.eliminate c =
      match lookupC t.children c with
      | some child =>
          Node.mk t.value
            ((mergeListC (eraseC t.children c) child.children).map
              (fun p => (p.1, p.2.eliminate c)))
      | none =>
          Node.mk t.value (t.children.map (fun p => (p.1, p.2.eliminate c))) := by
  have hst := size_pos t
  have h1 : t.size = (t.size - 1) + 1 := by omega
  rw [Node.eliminate, h1]
  simp only [eliminateF]
  cases hlk : lookupC t.children c with
  | none =>
      simp only [hlk]
      have : ∀ p : Nat × Node, p ∈ t.children →
          (p.1, eliminateF (t.size - 1) p.2 c) = (p.1, p.2.eliminate c) := by
        intro p hp
        have : p.2.size ≤ sizeL t.children := by
          obtain ⟨k, u⟩ := p
          exact size_mem_le hp
        rw [eliminateF_eq_wrapper _ _ _ (by rw [size_eq t] at h1 ⊢; omega)]
      rw [List.map_congr_left this]
  | some child =>
      simp only [hlk]
      have hsz : sizeL (mergeListC (eraseC t.children c) child.children) ≤
          sizeL t.children := by
        have ha := mergeListC_size (eraseC t.children c) child.children
        have hb := lookupC_eraseC_size hlk
        have hc : child.size = 1 + sizeL child.children := size_eq child
        omega
      have : ∀ p : Nat × Node,
          p ∈ mergeListC (eraseC t.children c) child.children →
          (p.1, eliminateF (t.size - 1) p.2 c) = (p.1, p.2.eliminate c) := by
        intro p hp
        have : p.2.size ≤ sizeL (mergeListC (eraseC t.children c) child.children) := by
          obtain ⟨k, u⟩ := p
          exact size_mem_le hp
        rw [eliminateF_eq_wrapper _ _ _ (by rw [size_eq t] at h1 ⊢; omega)]
      simp only [Node.value_mk, Node.children_mk]
      rw [List.map_congr_left this]

theorem eliminate_value (t : Node) (c : Nat) : (t.eliminate c).value = t.value := by
  rw [eliminate_def]
  cases lookupC t.children c <;> simp

theorem eliminateF_size (f : Nat) (t : Node) (c : Nat) :
    (eliminateF f t c).size ≤ t.size := by
  induction f generalizing t with
  | zero => simp [eliminateF]
  | succ f ih =>
      simp only [eliminateF]
      cases hlk : lookupC t.children c with
      | none =>
          simp only [hlk]
          rw [size_eq t, size_mk]
          have : sizeL (t.children.map (fun p => (p.1, eliminateF f p.2 c))) ≤
              sizeL t.children := by
            induction t.children with
            | nil => simp
            | cons p rest ihr =>
                obtain ⟨k, u⟩ := p
                simp
                have := ih u
                omega
          omega
      | some child =>
          simp only [hlk, Node.value_mk, Node.children_mk]
          rw [size_eq t, size_mk]
          have hsz : sizeL (mergeListC (eraseC t.children c) child.children) ≤
              sizeL t.children := by
            have ha := mergeListC_size (eraseC t.children c) child.children
            have hb := lookupC_eraseC_size hlk
            have hc : child.size = 1 + sizeL child.children := size_eq child
            omega
          have : sizeL ((mergeListC (eraseC t.children c) child.children).map
              (fun p => (p.1, eliminateF f p.2 c))) ≤
              sizeL (mergeListC (eraseC t.children c) child.children) := by
            induction (mergeListC (eraseC t.children c) child.children) with
            | nil => simp
            | cons p rest ihr =>
                obtain ⟨k, u⟩ := p
                simp
                have := ih u
                omega
          omega

theorem eliminate_size (t : Node) (c : Nat) : (t.eliminate c).size ≤ t.size :=
  eliminateF_size _ t c

theorem sizeL_eq_zero {ns : List (Nat × Node)} (h : sizeL ns = 0) : ns = [] := by
  cases ns with
  | nil => rfl
  | cons p rest =>
      obtain ⟨k, n⟩ := p
      have := size_pos n
      simp at h
      omega

/-- Strong induction on the size of a node. -/
theorem node_size_ind (P : Node → Prop)
    (h : ∀ t, (∀ u : Node, u.size < t.size → P u) → P t) : ∀ t, P t := by
  have main : ∀ N (t : Node), t.size ≤ N → P t := by
    intro N
    induction N with
    | zero =>
        intro t ht
        have := size_pos t
        omega
    | succ N ihN =>
        intro t ht
        apply h
        intro u hu
        exact ihN u (by omega)
  exact fun t => main t.size t (le_refl _)

/-- Recursion principle following the call structure of the merge family. -/
theorem merge_rec
    (Pm : Node → Node → Prop)
    (Pi : List (Nat × Node) → Nat → Node → Prop)
    (Pl : List (Nat × Node) → List (Nat × Node) → Prop)
    (hm : ∀ a b, Pl a.children b.children → Pm a b)
    (hiNil : ∀ k n, Pi [] k n)
    (hiCons : ∀ k' m cs k n, Pm m n → Pi cs k n → Pi ((k', m) :: cs) k n)
    (hlNil : ∀ cs, Pl cs [])
    (hlCons : ∀ cs k n rest, Pi cs k n → (∀ cs2, Pl cs2 rest) →
      Pl cs ((k, n) :: rest)) :
    (∀ a b, Pm a b) ∧ (∀ cs k n, Pi cs k n) ∧ (∀ cs ns, Pl cs ns) := by
  have main : ∀ N, (∀ a b : Node, b.size ≤ N → Pm a b) ∧
      (∀ cs k (n : Node), n.size ≤ N → Pi cs k n) ∧
      (∀ cs ns, sizeL ns ≤ N → Pl cs ns) := by
    intro N
    induction N with
    | zero =>
        refine ⟨?_, ?_, ?_⟩
        · intro a b hb
          have := size_pos b
          omega
        · intro cs k n hn
          have := size_pos n
          omega
        · intro cs ns hns
          have := sizeL_eq_zero (Nat.le_zero.mp hns)
          subst this
          exact hlNil cs
    | succ N ihN =>
        obtain ⟨im, ii, il⟩ := ihN
        have hm' : ∀ a b : Node, b.size ≤ N + 1 → Pm a b := by
          intro a b hb
          apply hm
          apply il
          have := size_eq b
          omega
        have hi' : ∀ cs k (n : Node), n.size ≤ N + 1 → Pi cs k n := by
          intro cs
          induction cs with
          | nil => intro k n _; exact hiNil k n
          | cons p rest ihcs =>
              obtain ⟨k', m⟩ := p
              intro k n hn
              exact hiCons k' m rest k n (hm' m n hn) (ihcs k n hn)
        have hl' : ∀ cs ns, sizeL ns ≤ N + 1 → Pl cs ns := by
          intro cs ns hns
          cases ns with
          | nil => exact hlNil cs
          | cons p rest =>
              obtain ⟨k, n⟩ := p
              have hsn := size_pos n
              simp at hns
              apply hlCons
              · exact hi' cs k n (by omega)
              · intro cs2
                exact il cs2 rest (by omega)
        exact ⟨hm', hi', hl'⟩
  refine ⟨fun a b => (main b.size).1 a b (le_refl _),
    fun cs k n => (main n.size).2.1 cs k n (le_refl _),
    fun cs ns => (main (sizeL ns)).2.2 cs ns (le_refl _)⟩

/-!  Well-formedness predicates on ballot trees.  These are executable
Bool-valued checks: `cFree c` (the candidate `c` keys no node of the
subtree), `nnc c` (no downward path passes through `c` twice), `ndp`
(no downward path repeats any key, relative to a list of keys banned by
the ancestors), `uniqK` (every node's children have pairwise distinct
keys, as Python dictionaries guarantee), and `consV` (every node's value
is at least the sum of its children's values, the trie counting
invariant of the specification). -/

@[simp] theorem cFree_mk (c : Nat) (v : Int) (cs : List (Nat × Node)) :
    cFree c (Node.mk v cs) = cFreeL c cs := rfl

@[simp] theorem cFreeL_nil (c : Nat) : cFreeL c [] = true := rfl

@[simp] theorem cFreeL_cons (c k : Nat) (u : Node) (rest : List (Nat × Node)) :
    cFreeL c ((k, u) :: rest) = (decide (k ≠ c) && cFree c u && cFreeL c rest) := rfl

@[simp] theorem nnc_mk (c : Nat) (v : Int) (cs : List (Nat × Node)) :
    nnc c (Node.mk v cs) = nncL c cs := rfl

@[simp] theorem nncL_nil (c : Nat) : nncL c [] = true := rfl

@[simp] theorem nncL_cons (c k : Nat) (u : Node) (rest : List (Nat × Node)) :
    nncL c ((k, u) :: rest) =
      ((if k = c then cFree c u else nnc c u) && nncL c rest) := rfl

@[simp] theorem ndp_mk (banned : List Nat) (v : Int) (cs : List (Nat × Node)) :
    ndp banned (Node.mk v cs) = ndpL banned cs := rfl

@[simp] theorem ndpL_nil (banned : List Nat) : ndpL banned [] = true := rfl

@[simp] theorem ndpL_cons (banned : List Nat) (k : Nat) (u : Node)
    (rest : List (Nat × Node)) :
    ndpL banned ((k, u) :: rest) =
      (!(banned.contains k) && ndp (k :: banned) u && ndpL banned rest) := rfl

@[simp] theorem uniqK_mk (v : Int) (cs : List (Nat × Node)) :
    uniqK (Node.mk v cs) = (nodupB (keysOf cs) && uniqKL cs) := rfl

@[simp] theorem uniqKL_nil : uniqKL [] = true := rfl

@[simp] theorem uniqKL_cons (k : Nat) (u : Node) (rest : List (Nat × Node)) :
    uniqKL ((k, u) :: rest) = (uniqK u && uniqKL rest) := rfl

@[simp] theorem consV_mk (v : Int) (cs : List (Nat × Node)) :
    consV (Node.mk v cs) = (decide (sumVals cs ≤ v) && consVL cs) := rfl

@[simp] theorem consVL_nil : consVL [] = true := rfl

@[simp] theorem consVL_cons (k : Nat) (u : Node) (rest : List (Nat × Node)) :
    consVL ((k, u) :: rest) = (consV u && consVL rest) := rfl

theorem cFree_eq (c : Nat) (t : Node) : cFree c t = cFreeL c t.children := by
  cases t
  rfl

theorem nnc_eq (c : Nat) (t : Node) : nnc c t = nncL c t.children := by
  cases t
  rfl

theorem ndp_eq (banned : List Nat) (t : Node) :
    ndp banned t = ndpL banned t.children := by
  cases t
  rfl

theorem uniqK_eq (t : Node) :
    uniqK t = (nodupB (keysOf t.children) && uniqKL t.children) := by
  cases t
  rfl

theorem consV_eq (t : Node) :
    consV t = (decide (sumVals t.children ≤ t.value) && consVL t.children) := by
  cases t
  rfl

theorem cFreeL_iff (c : Nat) (cs : List (Nat × Node)) :
    cFreeL c cs = true ↔ ∀ p : Nat × Node, p ∈ cs → p.1 ≠ c ∧ cFree c p.2 = true := by
  induction cs with
  | nil => simp
  | cons p rest ih =>
      obtain ⟨k, u⟩ := p
      simp [ih]

theorem nncL_iff (c : Nat) (cs : List (Nat × Node)) :
    nncL c cs = true ↔ ∀ p : Nat × Node, p ∈ cs →
      (if p.1 = c then cFree c p.2 = true else nnc c p.2 = true) := by
  induction cs with
  | nil => simp
  | cons p rest ih =>
      obtain ⟨k, u⟩ := p
      by_cases hk : k = c
      · simp [hk, ih]
      · simp [hk, ih]

theorem ndpL_iff (banned : List Nat) (cs : List (Nat × Node)) :
    ndpL banned cs = true ↔ ∀ p : Nat × Node, p ∈ cs →
      banned.contains p.1 = false ∧ ndp (p.1 :: banned) p.2 = true := by
  induction cs with
  | nil => simp
  | cons p rest ih =>
      obtain ⟨k, u⟩ := p
      simp [ih]

theorem uniqKL_iff (cs : List (Nat × Node)) :
    uniqKL cs = true ↔ ∀ p : Nat × Node, p ∈ cs → uniqK p.2 = true := by
  induction cs with
  | nil => simp
  | cons p rest ih =>
      obtain ⟨k, u⟩ := p
      simp [ih]

theorem consVL_iff (cs : List (Nat × Node)) :
    consVL cs = true ↔ ∀ p : Nat × Node, p ∈ cs → consV p.2 = true := by
  induction cs with
  | nil => simp
  | cons p rest ih =>
      obtain ⟨k, u⟩ := p
      simp [ih]

theorem eraseC_sublist (cs : List (Nat × Node)) (c : Nat) :
    (eraseC cs c).Sublist cs := by
  induction cs with
  | nil => simp [eraseC]
  | cons p rest ih =>
      obtain ⟨k, u⟩ := p
      by_cases hk : k = c
      · simp [eraseC, hk]
      · simp [eraseC, hk]
        exact ih

theorem mem_eraseC {cs : List (Nat × Node)} {c : Nat} {p : Nat × Node}
    (h : p ∈ eraseC cs c) : p ∈ cs := (eraseC_sublist cs c).subset h

theorem lookupC_mem {cs : List (Nat × Node)} {c : Nat} {u : Node}
    (h : lookupC cs c = some u) : (c, u) ∈ cs := by
  induction cs with
  | nil => simp [lookupC] at h
  | cons p rest ih =>
      obtain ⟨k, n⟩ := p
      by_cases hk : k = c
      · subst hk
        simp [lookupC] at h
        subst h
        exact List.mem_cons_self _ _
      · simp [lookupC, hk] at h
        exact List.mem_cons_of_mem _ (ih h)

theorem lookupC_none_iff (cs : List (Nat × Node)) (c : Nat) :
    lookupC cs c = none ↔ c ∉ keysOf cs := by
  induction cs with
  | nil => simp [lookupC, keysOf]
  | cons p rest ih =>
      obtain ⟨k, n⟩ := p
      by_cases hk : k = c
      · subst hk
        simp [lookupC, keysOf]
      · simp [lookupC, hk, keysOf] at ih ⊢
        tauto

theorem lookupC_isSome_iff (cs : List (Nat × Node)) (c : Nat) :
    (lookupC cs c).isSome = true ↔ c ∈ keysOf cs := by
  rcases h : lookupC cs c with _ | u
  · simp [(lookupC_none_iff cs c).mp h]
  · simp
    exact List.mem_map.mpr ⟨(c, u), lookupC_mem h, rfl⟩

theorem mem_keysOf {cs : List (Nat × Node)} {k : Nat} :
    k ∈ keysOf cs ↔ ∃ u, (k, u) ∈ cs := by
  simp [keysOf, List.mem_map]

theorem nodupB_iff (l : List Nat) : nodupB l = true ↔ l.Nodup := by
  induction l with
  | nil => simp [nodupB]
  | cons x xs ih =>
      simp [nodupB, ih]

theorem keysOf_eraseC_not_mem {cs : List (Nat × Node)} {c : Nat}
    (h : nodupB (keysOf cs) = true) : c ∉ keysOf (eraseC cs c) := by
  induction cs with
  | nil => simp [eraseC, keysOf]
  | cons p rest ih =>
      obtain ⟨k, u⟩ := p
      rw [nodupB_iff] at h
      simp [keysOf] at h
      by_cases hk : k = c
      · subst hk
        simp [eraseC]
        intro hmem
        rcases mem_keysOf.mp hmem with ⟨w, hw⟩
        exact h.1 w hw
      · simp [eraseC, hk, keysOf]
        constructor
        · omega
        · have := ih (by rw [nodupB_iff]; exact h.2)
          simpa [keysOf] using this

theorem sumVals_eraseC {cs : List (Nat × Node)} {c : Nat} {u : Node}
    (h : lookupC cs c = some u) :
    sumVals (eraseC cs c) + u.value = sumVals cs := by
  induction cs with
  | nil => simp [lookupC] at h
  | cons p rest ih =>
      obtain ⟨k, n⟩ := p
      by_cases hk : k = c
      · subst hk
        simp [lookupC] at h
        subst h
        simp [eraseC, sumVals]
        ring
      · simp [lookupC, hk] at h
        simp [eraseC, hk, sumVals]
        have := ih h
        omega

theorem merge_value (a b : Node) : (Node.merge a b).value = a.value + b.value := by
  rw [merge_def]
  by_cases hemp : a.children.isEmpty <;> simp [hemp]

theorem sumVals_mergeIntoC (cs : List (Nat × Node)) (k : Nat) (n : Node) :
    sumVals (mergeIntoC cs k n) = sumVals cs + n.value := by
  induction cs with
  | nil => simp [mergeIntoC_nil, sumVals]
  | cons p rest ih =>
      obtain ⟨k', m⟩ := p
      rw [mergeIntoC_cons]
      by_cases hk : k' = k
      · simp [hk, sumVals, merge_value]
        ring
      · simp [hk, sumVals, ih]
        ring

theorem sumVals_mergeListC (cs ns : List (Nat × Node)) :
    sumVals (mergeListC cs ns) = sumVals cs + sumVals ns := by
  induction ns generalizing cs with
  | nil => simp [mergeListC_nil, sumVals]
  | cons p rest ih =>
      obtain ⟨k, n⟩ := p
      rw [mergeListC_cons, ih, sumVals_mergeIntoC]
      simp [sumVals]
      ring

theorem keysOf_mergeIntoC (cs : List (Nat × Node)) (k : Nat) (n : Node) :
    keysOf (mergeIntoC cs k n) =
      if k ∈ keysOf cs then keysOf cs else keysOf cs ++ [k] := by
  induction cs with
  | nil => simp [mergeIntoC_nil, keysOf]
  | cons p rest ih =>
      obtain ⟨k', m⟩ := p
      rw [mergeIntoC_cons]
      by_cases hk : k' = k
      · subst hk
        simp [keysOf]
      · rw [if_neg hk]
        have hstep : keysOf ((k', m) :: mergeIntoC rest k n) =
            k' :: keysOf (mergeIntoC rest k n) := rfl
        rw [hstep, ih]
        have hcons : keysOf ((k', m) :: rest) = k' :: keysOf rest := rfl
        by_cases hmem : k ∈ keysOf rest
        · rw [if_pos hmem, if_pos (by rw [hcons]; exact List.mem_cons_of_mem _ hmem)]
          exact hcons.symm
        · rw [if_neg hmem, if_neg (by
            rw [hcons]
            intro hcontra
            rcases List.mem_cons.mp hcontra with h | h
            · exact hk (h.symm)
            · exact hmem h)]
          rw [hcons]
          rfl

theorem mem_keys_mergeIntoC (cs : List (Nat × Node)) (k : Nat) (n : Node) (a : Nat) :
    a ∈ keysOf (mergeIntoC cs k n) ↔ a ∈ keysOf cs ∨ a = k := by
  rw [keysOf_mergeIntoC]
  by_cases hmem : k ∈ keysOf cs
  · rw [if_pos hmem]
    constructor
    · exact Or.inl
    · rintro (h | rfl)
      · exact h
      · exact hmem
  · rw [if_neg hmem]
    simp

theorem mem_keys_mergeListC (cs ns : List (Nat × Node)) (a : Nat) :
    a ∈ keysOf (mergeListC cs ns) ↔ a ∈ keysOf cs ∨ a ∈ keysOf ns := by
  induction ns generalizing cs with
  | nil => simp [mergeListC_nil, keysOf]
  | cons p rest ih =>
      obtain ⟨k, n⟩ := p
      rw [mergeListC_cons, ih, mem_keys_mergeIntoC]
      simp [keysOf]
      tauto

theorem nodupB_append_singleton {l : List Nat} {x : Nat}
    (hl : nodupB l = true) (hx : x ∉ l) : nodupB (l ++ [x]) = true := by
  rw [nodupB_iff] at hl ⊢
  simp [List.nodup_append, hl, hx]

theorem nodup_keys_mergeIntoC {cs : List (Nat × Node)} (k : Nat) (n : Node)
    (h : nodupB (keysOf cs) = true) :
    nodupB (keysOf (mergeIntoC cs k n)) = true := by
  rw [keysOf_mergeIntoC]
  by_cases hmem : k ∈ keysOf cs
  · simp [hmem, h]
  · simp [hmem]
    exact nodupB_append_singleton h hmem

theorem nodup_keys_mergeListC {cs : List (Nat × Node)} (ns : List (Nat × Node))
    (h : nodupB (keysOf cs) = true) :
    nodupB (keysOf (mergeListC cs ns)) = true := by
  induction ns generalizing cs with
  | nil => simpa [mergeListC_nil] using h
  | cons p rest ih =>
      obtain ⟨k, n⟩ := p
      rw [mergeListC_cons]
      exact ih (nodup_keys_mergeIntoC k n h)

theorem nodupB_eraseC {cs : List (Nat × Node)} {c : Nat}
    (h : nodupB (keysOf cs) = true) : nodupB (keysOf (eraseC cs c)) = true := by
  rw [nodupB_iff] at h ⊢
  exact List.Nodup.sublist (List.Sublist.map Prod.fst (eraseC_sublist cs c)) h

theorem containsB_iff (l : List Nat) (x : Nat) : l.contains x = true ↔ x ∈ l := by
  induction l with
  | nil => simp [List.contains]
  | cons y ys ih =>
      rw [List.contains_cons]
      rw [Bool.or_eq_true, ih]
      constructor
      · rintro (h | h)
        · exact (Nat.beq_eq.mp (by simpa using h)) ▸ List.mem_cons_self _ _
        · exact List.mem_cons_of_mem _ h
      · intro h
        rcases List.mem_cons.mp h with h' | h'
        · subst h'
          left
          simp
        · right
          exact h'

theorem containsB_false_iff (l : List Nat) (x : Nat) :
    l.contains x = false ↔ x ∉ l := by
  constructor
  · intro h hmem
    have hx := (containsB_iff l x).mpr hmem
    rw [h] at hx
    exact Bool.false_ne_true hx
  · intro h
    rcases hc : l.contains x with _ | _
    · rfl
    · exact absurd ((containsB_iff l x).mp hc) h

theorem size_snd_lt {t : Node} {p : Nat × Node} (hp : p ∈ t.children) :
    p.2.size < t.size := by
  obtain ⟨k, u⟩ := p
  have h1 := size_mem_le hp
  have h2 := size_eq t
  simp only []
  omega

theorem size_snd_lt_of_sizeL {cs : List (Nat × Node)} {p : Nat × Node} {N : Nat}
    (hp : p ∈ cs) (h : sizeL cs ≤ N) : p.2.size ≤ N := by
  obtain ⟨k, u⟩ := p
  have h1 := size_mem_le hp
  simp only []
  omega

theorem cFree_merge_all :
    (∀ a b : Node, ∀ c, cFree c a = true → cFree c b = true →
      cFree c (Node.merge a b) = true) ∧
    (∀ (cs : List (Nat × Node)) (k : Nat) (n : Node), ∀ c, k ≠ c →
      cFreeL c cs = true → cFree c n = true →
      cFreeL c (mergeIntoC cs k n) = true) ∧
    (∀ cs ns : List (Nat × Node), ∀ c, cFreeL c cs = true → cFreeL c ns = true →
      cFreeL c (mergeListC cs ns) = true) := by
  exact merge_rec
    (fun a b => ∀ c, cFree c a = true → cFree c b = true →
      cFree c (Node.merge a b) = true)
    (fun cs k n => ∀ c, k ≠ c → cFreeL c cs = true → cFree c n = true →
      cFreeL c (mergeIntoC cs k n) = true)
    (fun cs ns => ∀ c, cFreeL c cs = true → cFreeL c ns = true →
      cFreeL c (mergeListC cs ns) = true)
    (by
      intro a b hl c ha hb
      rw [merge_def]
      by_cases hemp : a.children.isEmpty
      · rw [if_pos hemp, cFree_mk, ← cFree_eq]
        exact hb
      · rw [if_neg hemp, cFree_mk]
        exact hl c (by rw [← cFree_eq]; exact ha) (by rw [← cFree_eq]; exact hb))
    (by
      intro k n c hkc _ hn
      rw [mergeIntoC_nil]
      simp [hkc, hn])
    (by
      intro k' m cs k n hm hi c hkc hcs hn
      rw [mergeIntoC_cons]
      simp only [cFreeL_cons, Bool.and_eq_true, decide_eq_true_eq] at hcs
      obtain ⟨⟨hk'c, hm'⟩, hrest⟩ := hcs
      by_cases hk : k' = k
      · rw [if_pos hk]
        simp only [cFreeL_cons, Bool.and_eq_true, decide_eq_true_eq]
        exact ⟨⟨hk'c, hm c hm' hn⟩, hrest⟩
      · rw [if_neg hk]
        simp only [cFreeL_cons, Bool.and_eq_true, decide_eq_true_eq]
        exact ⟨⟨hk'c, hm'⟩, hi c hkc hrest hn⟩)
    (by
      intro cs c h _
      rw [mergeListC_nil]
      exact h)
    (by
      intro cs k n rest hi hrest c hcs hns
      rw [mergeListC_cons]
      simp only [cFreeL_cons, Bool.and_eq_true, decide_eq_true_eq] at hns
      obtain ⟨⟨hknec, hn⟩, hrest'⟩ := hns
      exact hrest _ c (hi c hknec hcs hn) hrest')

theorem cFree_merge (a b : Node) (c : Nat) (ha : cFree c a = true)
    (hb : cFree c b = true) : cFree c (Node.merge a b) = true :=
  cFree_merge_all.1 a b c ha hb

theorem cFree_mergeListC (cs ns : List (Nat × Node)) (c : Nat)
    (hcs : cFreeL c cs = true) (hns : cFreeL c ns = true) :
    cFreeL c (mergeListC cs ns) = true :=
  cFree_merge_all.2.2 cs ns c hcs hns

theorem cFree_nnc : ∀ (t : Node) (c : Nat), cFree c t = true → nnc c t = true := by
  have main : ∀ t : Node, ∀ c, cFree c t = true → nnc c t = true := by
    apply node_size_ind (fun t => ∀ c, cFree c t = true → nnc c t = true)
    intro t ih c hc
    rw [cFree_eq] at hc
    rw [nnc_eq, nncL_iff]
    intro p hp
    rw [cFreeL_iff] at hc
    obtain ⟨hne, hfree⟩ := hc p hp
    rw [if_neg hne]
    exact ih p.2 (size_snd_lt hp) c hfree
  exact main

theorem nnc_merge_all :
    (∀ a b : Node, ∀ c, nnc c a = true → nnc c b = true →
      nnc c (Node.merge a b) = true) ∧
    (∀ (cs : List (Nat × Node)) (k : Nat) (n : Node), ∀ c,
      ((if k = c then cFree c n else nnc c n) = true) →
      nncL c cs = true → nncL c (mergeIntoC cs k n) = true) ∧
    (∀ cs ns : List (Nat × Node), ∀ c, nncL c cs = true → nncL c ns = true →
      nncL c (mergeListC cs ns) = true) := by
  exact merge_rec
    (fun a b => ∀ c, nnc c a = true → nnc c b = true →
      nnc c (Node.merge a b) = true)
    (fun cs k n => ∀ c,
      ((if k = c then cFree c n else nnc c n) = true) →
      nncL c cs = true → nncL c (mergeIntoC cs k n) = true)
    (fun cs ns => ∀ c, nncL c cs = true → nncL c ns = true →
      nncL c (mergeListC cs ns) = true)
    (by
      intro a b hl c ha hb
      rw [merge_def]
      by_cases hemp : a.children.isEmpty
      · rw [if_pos hemp, nnc_mk, ← nnc_eq]
        exact hb
      · rw [if_neg hemp, nnc_mk]
        exact hl c (by rw [← nnc_eq]; exact ha) (by rw [← nnc_eq]; exact hb))
    (by
      intro k n c hn _
      rw [mergeIntoC_nil]
      simp only [nncL_cons, nncL_nil, Bool.and_true]
      by_cases hc : k = c
      · rw [if_pos hc]
        rw [if_pos hc] at hn
        exact hn
      · rw [if_neg hc]
        rw [if_neg hc] at hn
        exact hn)
    (by
      intro k' m cs k n hm hi c hn hcs
      rw [mergeIntoC_cons]
      simp only [nncL_cons, Bool.and_eq_true] at hcs
      obtain ⟨hentry, hrest⟩ := hcs
      by_cases hk : k' = k
      · subst hk
        rw [if_pos rfl]
        simp only [nncL_cons, Bool.and_eq_true]
        refine ⟨?_, hrest⟩
        by_cases hc : k' = c
        · rw [if_pos hc] at hentry hn ⊢
          exact cFree_merge m n c hentry hn
        · rw [if_neg hc] at hentry hn ⊢
          exact hm c hentry hn
      · rw [if_neg hk]
        simp only [nncL_cons, Bool.and_eq_true]
        exact ⟨hentry, hi c hn hrest⟩)
    (by
      intro cs c h _
      rw [mergeListC_nil]
      exact h)
    (by
      intro cs k n rest hi hrest c hcs hns
      rw [mergeListC_cons]
      simp only [nncL_cons, Bool.and_eq_true] at hns
      obtain ⟨hentry, hrest'⟩ := hns
      exact hrest _ c (hi c hentry hcs) hrest')

theorem nnc_merge (a b : Node) (c : Nat) (ha : nnc c a = true)
    (hb : nnc c b = true) : nnc c (Node.merge a b) = true :=
  nnc_merge_all.1 a b c ha hb

theorem nnc_mergeListC (cs ns : List (Nat × Node)) (c : Nat)
    (hcs : nncL c cs = true) (hns : nncL c ns = true) :
    nncL c (mergeListC cs ns) = true :=
  nnc_merge_all.2.2 cs ns c hcs hns

theorem uniqK_merge_all :
    (∀ a b : Node, uniqK a = true → uniqK b = true →
      uniqK (Node.merge a b) = true) ∧
    (∀ (cs : List (Nat × Node)) (k : Nat) (n : Node),
      uniqKL cs = true → uniqK n = true → uniqKL (mergeIntoC cs k n) = true) ∧
    (∀ cs ns : List (Nat × Node), uniqKL cs = true → uniqKL ns = true →
      uniqKL (mergeListC cs ns) = true) := by
  exact merge_rec
    (fun a b => uniqK a = true → uniqK b = true → uniqK (Node.merge a b) = true)
    (fun cs k n => uniqKL cs = true → uniqK n = true →
      uniqKL (mergeIntoC cs k n) = true)
    (fun cs ns => uniqKL cs = true → uniqKL ns = true →
      uniqKL (mergeListC cs ns) = true)
    (by
      intro a b hl ha hb
      rw [uniqK_eq] at ha hb
      simp only [Bool.and_eq_true] at ha hb
      rw [merge_def]
      by_cases hemp : a.children.isEmpty
      · rw [if_pos hemp, uniqK_mk]
        simp only [Bool.and_eq_true]
        exact hb
      · rw [if_neg hemp, uniqK_mk]
        simp only [Bool.and_eq_true]
        exact ⟨nodup_keys_mergeListC _ ha.1, hl ha.2 hb.2⟩)
    (by
      intro k n _ hn
      rw [mergeIntoC_nil]
      simp [hn])
    (by
      intro k' m cs k n hm hi hcs hn
      rw [mergeIntoC_cons]
      simp only [uniqKL_cons, Bool.and_eq_true] at hcs
      obtain ⟨hum, hrest⟩ := hcs
      by_cases hk : k' = k
      · rw [if_pos hk]
        simp only [uniqKL_cons, Bool.and_eq_true]
        exact ⟨hm hum hn, hrest⟩
      · rw [if_neg hk]
        simp only [uniqKL_cons, Bool.and_eq_true]
        exact ⟨hum, hi hrest hn⟩)
    (by
      intro cs h _
      rw [mergeListC_nil]
      exact h)
    (by
      intro cs k n rest hi hrest hcs hns
      rw [mergeListC_cons]
      simp only [uniqKL_cons, Bool.and_eq_true] at hns
      exact hrest _ (hi hcs hns.1) hns.2)

theorem uniqK_merge (a b : Node) (ha : uniqK a = true) (hb : uniqK b = true) :
    uniqK (Node.merge a b) = true := uniqK_merge_all.1 a b ha hb

theorem uniqKL_mergeListC (cs ns : List (Nat × Node)) (hcs : uniqKL cs = true)
    (hns : uniqKL ns = true) : uniqKL (mergeListC cs ns) = true :=
  uniqK_merge_all.2.2 cs ns hcs hns

theorem ndp_mono :
    ∀ t : Node, ∀ b1 b2 : List Nat, (∀ x, x ∈ b1 → x ∈ b2) →
      ndp b2 t = true → ndp b1 t = true := by
  apply node_size_ind (fun t => ∀ b1 b2 : List Nat, (∀ x, x ∈ b1 → x ∈ b2) →
      ndp b2 t = true → ndp b1 t = true)
  intro t ih b1 b2 hsub h
  rw [ndp_eq, ndpL_iff] at h ⊢
  intro p hp
  obtain ⟨hc, hrec⟩ := h p hp
  refine ⟨?_, ?_⟩
  · rw [containsB_false_iff] at hc ⊢
    exact fun hmem => hc (hsub _ hmem)
  · apply ih p.2 (size_snd_lt hp) (p.1 :: b1) (p.1 :: b2) _ hrec
    intro x hx
    rcases List.mem_cons.mp hx with h' | h'
    · exact h' ▸ List.mem_cons_self _ _
    · exact List.mem_cons_of_mem _ (hsub x h')

theorem ndp_banned_cFree :
    ∀ t : Node, ∀ banned : List Nat, ∀ c, c ∈ banned →
      ndp banned t = true → cFree c t = true := by
  apply node_size_ind (fun t => ∀ banned : List Nat, ∀ c, c ∈ banned →
      ndp banned t = true → cFree c t = true)
  intro t ih banned c hc h
  rw [ndp_eq, ndpL_iff] at h
  rw [cFree_eq, cFreeL_iff]
  intro p hp
  obtain ⟨hcont, hrec⟩ := h p hp
  rw [containsB_false_iff] at hcont
  have hne : p.1 ≠ c := fun hcontra => hcont (hcontra ▸ hc)
  exact ⟨hne, ih p.2 (size_snd_lt hp) (p.1 :: banned) c
    (List.mem_cons_of_mem _ hc) hrec⟩

theorem ndp_nnc (t : Node) (banned : List Nat) (c : Nat)
    (h : ndp banned t = true) : nnc c t = true := by
  induction t using node_size_ind generalizing banned with
  | _ t ih =>
    rw [ndp_eq, ndpL_iff] at h
    rw [nnc_eq, nncL_iff]
    intro p hp
    obtain ⟨hcont, hrec⟩ := h p hp
    by_cases hpc : p.1 = c
    · rw [if_pos hpc]
      exact ndp_banned_cFree p.2 (p.1 :: banned) c
        (hpc ▸ List.mem_cons_self _ _) hrec
    · rw [if_neg hpc]
      exact ih p.2 (size_snd_lt hp) (p.1 :: banned) hrec

theorem sumVals_nonneg (cs : List (Nat × Node))
    (h : ∀ p : Nat × Node, p ∈ cs → 0 ≤ p.2.value) : 0 ≤ sumVals cs := by
  induction cs with
  | nil => simp [sumVals]
  | cons p rest ih =>
      obtain ⟨k, u⟩ := p
      simp [sumVals]
      have h1 : 0 ≤ u.value := h (k, u) (List.mem_cons_self _ _)
      have h2 : 0 ≤ sumVals rest := ih (fun q hq => h q (List.mem_cons_of_mem _ hq))
      omega

theorem consV_nonneg : ∀ t : Node, consV t = true → 0 ≤ t.value := by
  apply node_size_ind (fun t => consV t = true → 0 ≤ t.value)
  intro t ih h
  rw [consV_eq] at h
  simp only [Bool.and_eq_true, decide_eq_true_eq] at h
  obtain ⟨hsum, hch⟩ := h
  rw [consVL_iff] at hch
  have hnn : 0 ≤ sumVals t.children :=
    sumVals_nonneg _ (fun p hp => ih p.2 (size_snd_lt hp) (hch p hp))
  omega

theorem consV_merge_all :
    (∀ a b : Node, consV a = true → consV b = true →
      consV (Node.merge a b) = true) ∧
    (∀ (cs : List (Nat × Node)) (k : Nat) (n : Node),
      consVL cs = true → consV n = true → consVL (mergeIntoC cs k n) = true) ∧
    (∀ cs ns : List (Nat × Node), consVL cs = true → consVL ns = true →
      consVL (mergeListC cs ns) = true) := by
  exact merge_rec
    (fun a b => consV a = true → consV b = true → consV (Node.merge a b) = true)
    (fun cs k n => consVL cs = true → consV n = true →
      consVL (mergeIntoC cs k n) = true)
    (fun cs ns => consVL cs = true → consVL ns = true →
      consVL (mergeListC cs ns) = true)
    (by
      intro a b hl ha hb
      have ha' := ha
      have hb' := hb
      rw [consV_eq] at ha hb
      simp only [Bool.and_eq_true, decide_eq_true_eq] at ha hb
      rw [merge_def]
      by_cases hemp : a.children.isEmpty
      · rw [if_pos hemp, consV_mk]
        simp only [Bool.and_eq_true, decide_eq_true_eq]
        refine ⟨?_, hb.2⟩
        have hva : 0 ≤ a.value := consV_nonneg a ha'
        omega
      · rw [if_neg hemp, consV_mk]
        simp only [Bool.and_eq_true, decide_eq_true_eq]
        refine ⟨?_, hl ha.2 hb.2⟩
        rw [sumVals_mergeListC]
        omega)
    (by
      intro k n _ hn
      rw [mergeIntoC_nil]
      simp [hn])
    (by
      intro k' m cs k n hm hi hcs hn
      rw [mergeIntoC_cons]
      simp only [consVL_cons, Bool.and_eq_true] at hcs
      obtain ⟨hum, hrest⟩ := hcs
      by_cases hk : k' = k
      · rw [if_pos hk]
        simp only [consVL_cons, Bool.and_eq_true]
        exact ⟨hm hum hn, hrest⟩
      · rw [if_neg hk]
        simp only [consVL_cons, Bool.and_eq_true]
        exact ⟨hum, hi hrest hn⟩)
    (by
      intro cs h _
      rw [mergeListC_nil]
      exact h)
    (by
      intro cs k n rest hi hrest hcs hns
      rw [mergeListC_cons]
      simp only [consVL_cons, Bool.and_eq_true] at hns
      exact hrest _ (hi hcs hns.1) hns.2)

theorem consV_merge (a b : Node) (ha : consV a = true) (hb : consV b = true) :
    consV (Node.merge a b) = true := consV_merge_all.1 a b ha hb

theorem consVL_mergeListC (cs ns : List (Nat × Node)) (hcs : consVL cs = true)
    (hns : consVL ns = true) : consVL (mergeListC cs ns) = true :=
  consV_merge_all.2.2 cs ns hcs hns

theorem pred_eraseC_cFree {cs : List (Nat × Node)} {c x : Nat}
    (h : cFreeL x cs = true) : cFreeL x (eraseC cs c) = true := by
  rw [cFreeL_iff] at h ⊢
  exact fun p hp => h p (mem_eraseC hp)

theorem pred_eraseC_nnc {cs : List (Nat × Node)} {c x : Nat}
    (h : nncL x cs = true) : nncL x (eraseC cs c) = true := by
  rw [nncL_iff] at h ⊢
  exact fun p hp => h p (mem_eraseC hp)

theorem pred_eraseC_ndp {cs : List (Nat × Node)} {c : Nat} {banned : List Nat}
    (h : ndpL banned cs = true) : ndpL banned (eraseC cs c) = true := by
  rw [ndpL_iff] at h ⊢
  exact fun p hp => h p (mem_eraseC hp)

theorem pred_eraseC_uniqK {cs : List (Nat × Node)} {c : Nat}
    (h : uniqKL cs = true) : uniqKL (eraseC cs c) = true := by
  rw [uniqKL_iff] at h ⊢
  exact fun p hp => h p (mem_eraseC hp)

theorem pred_eraseC_consV {cs : List (Nat × Node)} {c : Nat}
    (h : consVL cs = true) : consVL (eraseC cs c) = true := by
  rw [consVL_iff] at h ⊢
  exact fun p hp => h p (mem_eraseC hp)

theorem cFreeL_nncL {cs : List (Nat × Node)} {c : Nat}
    (h : cFreeL c cs = true) : nncL c cs = true := by
  rw [cFreeL_iff] at h
  rw [nncL_iff]
  intro p hp
  obtain ⟨hne, hfree⟩ := h p hp
  rw [if_neg hne]
  exact cFree_nnc p.2 c hfree

theorem keysOf_map_elim (cs : List (Nat × Node)) (c : Nat) :
    keysOf (cs.map (fun p => (p.1, p.2.eliminate c))) = keysOf cs := by
  induction cs with
  | nil => simp [keysOf]
  | cons p rest ih =>
      obtain ⟨k, u⟩ := p
      simp only [List.map_cons, keysOf] at ih ⊢
      rw [ih]

theorem mem_map_elim {cs : List (Nat × Node)} {c : Nat} {q : Nat × Node}
    (h : q ∈ cs.map (fun p => (p.1, p.2.eliminate c))) :
    ∃ u : Node, (q.1, u) ∈ cs ∧ q.2 = u.eliminate c := by
  rcases List.mem_map.mp h with ⟨⟨k, u⟩, hu, hq⟩
  exact ⟨u, by rw [← hq]; exact hu, by rw [← hq]⟩

theorem sumVals_map_eliminate (cs : List (Nat × Node)) (c : Nat) :
    sumVals (cs.map (fun p => (p.1, p.2.eliminate c))) = sumVals cs := by
  induction cs with
  | nil => simp [sumVals]
  | cons p rest ih =>
      obtain ⟨k, u⟩ := p
      simp [sumVals, ih, eliminate_value]

theorem merged_size_lt {t : Node} {c : Nat} {child : Node}
    (hlk : lookupC t.children c = some child) :
    ∀ p : Nat × Node, p ∈ mergeListC (eraseC t.children c) child.children →
      p.2.size < t.size := by
  intro p hp
  have h1 : p.2.size ≤ sizeL (mergeListC (eraseC t.children c) child.children) := by
    obtain ⟨k, u⟩ := p
    exact size_mem_le hp
  have h2 := mergeListC_size (eraseC t.children c) child.children
  have h3 := lookupC_eraseC_size hlk
  have h4 := size_eq child
  have h5 := size_eq t
  omega

theorem ndp_merge_all :
    (∀ a b : Node, ∀ banned, ndp banned a = true → ndp banned b = true →
      ndp banned (Node.merge a b) = true) ∧
    (∀ (cs : List (Nat × Node)) (k : Nat) (n : Node), ∀ banned,
      banned.contains k = false → ndp (k :: banned) n = true →
      ndpL banned cs = true → ndpL banned (mergeIntoC cs k n) = true) ∧
    (∀ cs ns : List (Nat × Node), ∀ banned, ndpL banned cs = true →
      ndpL banned ns = true → ndpL banned (mergeListC cs ns) = true) := by
  exact merge_rec
    (fun a b => ∀ banned, ndp banned a = true → ndp banned b = true →
      ndp banned (Node.merge a b) = true)
    (fun cs k n => ∀ banned,
      banned.contains k = false → ndp (k :: banned) n = true →
      ndpL banned cs = true → ndpL banned (mergeIntoC cs k n) = true)
    (fun cs ns => ∀ banned, ndpL banned cs = true →
      ndpL banned ns = true → ndpL banned (mergeListC cs ns) = true)
    (by
      intro a b hl banned ha hb
      rw [merge_def]
      by_cases hemp : a.children.isEmpty
      · rw [if_pos hemp, ndp_mk, ← ndp_eq]
        exact hb
      · rw [if_neg hemp, ndp_mk]
        exact hl banned (by rw [← ndp_eq]; exact ha) (by rw [← ndp_eq]; exact hb))
    (by
      intro k n banned hc hn _
      rw [mergeIntoC_nil]
      simp only [ndpL_cons, ndpL_nil, Bool.and_true, Bool.and_eq_true,
        Bool.not_eq_true']
      exact ⟨hc, hn⟩)
    (by
      intro k' m cs k n hm hi banned hc hn hcs
      rw [mergeIntoC_cons]
      simp only [ndpL_cons, Bool.and_eq_true] at hcs
      obtain ⟨⟨hck', hm'⟩, hrest⟩ := hcs
      by_cases hk : k' = k
      · subst hk
        rw [if_pos rfl]
        simp only [ndpL_cons, Bool.and_eq_true]
        exact ⟨⟨hck', hm (k' :: banned) hm' hn⟩, hrest⟩
      · rw [if_neg hk]
        simp only [ndpL_cons, Bool.and_eq_true]
        exact ⟨⟨hck', hm'⟩, hi banned hc hn hrest⟩)
    (by
      intro cs banned h _
      rw [mergeListC_nil]
      exact h)
    (by
      intro cs k n rest hi hrest banned hcs hns
      rw [mergeListC_cons]
      simp only [ndpL_cons, Bool.and_eq_true, Bool.not_eq_true'] at hns
      obtain ⟨⟨hck, hn⟩, hrest'⟩ := hns
      exact hrest _ banned (hi banned hck hn hcs) hrest')

theorem ndp_merge (a b : Node) (banned : List Nat) (ha : ndp banned a = true)
    (hb : ndp banned b = true) : ndp banned (Node.merge a b) = true :=
  ndp_merge_all.1 a b banned ha hb

theorem ndpL_mergeListC (cs ns : List (Nat × Node)) (banned : List Nat)
    (hcs : ndpL banned cs = true) (hns : ndpL banned ns = true) :
    ndpL banned (mergeListC cs ns) = true :=
  ndp_merge_all.2.2 cs ns banned hcs hns

theorem ndp_child_drop {banned : List Nat} {c : Nat} {child : Node}
    (h : ndp (c :: banned) child = true) : ndpL banned child.children = true := by
  rw [ndp_eq, ndpL_iff] at h
  rw [ndpL_iff]
  intro p hp
  obtain ⟨hcont, hrec⟩ := h p hp
  rw [containsB_false_iff] at hcont
  refine ⟨?_, ?_⟩
  · rw [containsB_false_iff]
    exact fun hmem => hcont (List.mem_cons_of_mem _ hmem)
  · apply ndp_mono p.2 (p.1 :: banned) (p.1 :: c :: banned) _ hrec
    intro x hx
    rcases List.mem_cons.mp hx with h' | h'
    · exact h' ▸ List.mem_cons_self _ _
    · exact List.mem_cons_of_mem _ (List.mem_cons_of_mem _ h')

theorem eliminate_cFree :
    ∀ t : Node, ∀ c, nnc c t = true → uniqK t = true →
      cFree c (t.eliminate c) = true := by
  apply node_size_ind (fun t => ∀ c, nnc c t = true → uniqK t = true →
    cFree c (t.eliminate c) = true)
  intro t ih c hn hu
  rw [nnc_eq] at hn
  rw [uniqK_eq] at hu
  simp only [Bool.and_eq_true] at hu
  obtain ⟨hnodup, huL⟩ := hu
  rw [eliminate_def]
  cases hlk : lookupC t.children c with
  | none =>
      rw [cFree_mk, cFreeL_iff]
      intro q hq
      rcases mem_map_elim hq with ⟨u, hmem, hval⟩
      have hkne : q.1 ≠ c := by
        intro hcontra
        have : (lookupC t.children c).isSome = true := by
          rw [lookupC_isSome_iff]
          exact mem_keysOf.mpr ⟨u, hcontra ▸ hmem⟩
        rw [hlk] at this
        simp at this
      refine ⟨hkne, ?_⟩
      rw [hval]
      apply ih u (size_snd_lt hmem) c
      · rw [nncL_iff] at hn
        have := hn (q.1, u) hmem
        rw [if_neg hkne] at this
        exact this
      · rw [uniqKL_iff] at huL
        exact huL (q.1, u) hmem
  | some child =>
      have hchild_mem := lookupC_mem hlk
      have hchild_cfree : cFree c child = true := by
        rw [nncL_iff] at hn
        have := hn (c, child) hchild_mem
        rw [if_pos rfl] at this
        exact this
      have hchild_uniq : uniqK child = true := by
        rw [uniqKL_iff] at huL
        exact huL (c, child) hchild_mem
      have herase_nnc : nncL c (eraseC t.children c) = true := pred_eraseC_nnc hn
      have hchild_nncL : nncL c child.children = true := by
        apply cFreeL_nncL
        rw [cFree_eq] at hchild_cfree
        exact hchild_cfree
      have hmerged_nnc : nncL c (mergeListC (eraseC t.children c) child.children) =
          true := nnc_mergeListC _ _ c herase_nnc hchild_nncL
      have herase_uniq : uniqKL (eraseC t.children c) = true := pred_eraseC_uniqK huL
      have hchild_uniqL : uniqKL child.children = true := by
        rw [uniqK_eq] at hchild_uniq
        simp only [Bool.and_eq_true] at hchild_uniq
        exact hchild_uniq.2
      have hmerged_uniq : uniqKL (mergeListC (eraseC t.children c) child.children) =
          true := uniqKL_mergeListC _ _ herase_uniq hchild_uniqL
      rw [cFree_mk, cFreeL_iff]
      intro q hq
      rcases mem_map_elim hq with ⟨u, hmem, hval⟩
      have hkne : q.1 ≠ c := by
        intro hcontra
        have hqmem : q.1 ∈ keysOf (mergeListC (eraseC t.children c) child.children) :=
          mem_keysOf.mpr ⟨u, hmem⟩
        rw [mem_keys_mergeListC] at hqmem
        rcases hqmem with hq1 | hq1
        · exact keysOf_eraseC_not_mem hnodup (hcontra ▸ hq1)
        · rcases mem_keysOf.mp hq1 with ⟨w, hw⟩
          rw [cFree_eq, cFreeL_iff] at hchild_cfree
          exact (hchild_cfree (q.1, w) hw).1 hcontra
      refine ⟨hkne, ?_⟩
      rw [hval]
      apply ih u (merged_size_lt hlk (q.1, u) hmem) c
      · rw [nncL_iff] at hmerged_nnc
        have := hmerged_nnc (q.1, u) hmem
        rw [if_neg hkne] at this
        exact this
      · rw [uniqKL_iff] at hmerged_uniq
        exact hmerged_uniq (q.1, u) hmem

theorem eliminate_uniqK :
    ∀ t : Node, ∀ c, uniqK t = true → uniqK (t.eliminate c) = true := by
  apply node_size_ind (fun t => ∀ c, uniqK t = true → uniqK (t.eliminate c) = true)
  intro t ih c hu
  rw [uniqK_eq] at hu
  simp only [Bool.and_eq_true] at hu
  obtain ⟨hnodup, huL⟩ := hu
  rw [eliminate_def]
  cases hlk : lookupC t.children c with
  | none =>
      rw [uniqK_mk]
      simp only [Bool.and_eq_true]
      constructor
      · rw [keysOf_map_elim]
        exact hnodup
      · rw [uniqKL_iff]
        intro q hq
        rcases mem_map_elim hq with ⟨u, hmem, hval⟩
        rw [hval]
        apply ih u (size_snd_lt hmem) c
        rw [uniqKL_iff] at huL
        exact huL (q.1, u) hmem
  | some child =>
      have hchild_mem := lookupC_mem hlk
      have hchild_uniq : uniqK child = true := by
        rw [uniqKL_iff] at huL
        exact huL (c, child) hchild_mem
      have herase_uniq : uniqKL (eraseC t.children c) = true := pred_eraseC_uniqK huL
      have hchild_uniqL : uniqKL child.children = true := by
        rw [uniqK_eq] at hchild_uniq
        simp only [Bool.and_eq_true] at hchild_uniq
        exact hchild_uniq.2
      have hmerged_uniq : uniqKL (mergeListC (eraseC t.children c) child.children) =
          true := uniqKL_mergeListC _ _ herase_uniq hchild_uniqL
      rw [uniqK_mk]
      simp only [Bool.and_eq_true]
      constructor
      · rw [keysOf_map_elim]
        exact nodup_keys_mergeListC _ (nodupB_eraseC hnodup)
      · rw [uniqKL_iff]
        intro q hq
        rcases mem_map_elim hq with ⟨u, hmem, hval⟩
        rw [hval]
        apply ih u (merged_size_lt hlk (q.1, u) hmem) c
        rw [uniqKL_iff] at hmerged_uniq
        exact hmerged_uniq (q.1, u) hmem

theorem eliminate_ndp :
    ∀ t : Node, ∀ c banned, ndp banned t = true →
      ndp banned (t.eliminate c) = true := by
  apply node_size_ind (fun t => ∀ c banned, ndp banned t = true →
    ndp banned (t.eliminate c) = true)
  intro t ih c banned h
  rw [ndp_eq] at h
  rw [eliminate_def]
  cases hlk : lookupC t.children c with
  | none =>
      rw [ndp_mk, ndpL_iff]
      intro q hq
      rcases mem_map_elim hq with ⟨u, hmem, hval⟩
      rw [ndpL_iff] at h
      obtain ⟨hcont, hrec⟩ := h (q.1, u) hmem
      exact ⟨hcont, hval ▸ ih u (size_snd_lt hmem) c (q.1 :: banned) hrec⟩
  | some child =>
      have hchild_mem := lookupC_mem hlk
      have hchild_ndp : ndp (c :: banned) child = true := by
        rw [ndpL_iff] at h
        exact (h (c, child) hchild_mem).2
      have herase_ndp : ndpL banned (eraseC t.children c) = true := pred_eraseC_ndp h
      have hchild_drop : ndpL banned child.children = true := ndp_child_drop hchild_ndp
      have hmerged_ndp : ndpL banned (mergeListC (eraseC t.children c) child.children) =
          true := ndpL_mergeListC _ _ banned herase_ndp hchild_drop
      rw [ndp_mk, ndpL_iff]
      intro q hq
      rcases mem_map_elim hq with ⟨u, hmem, hval⟩
      rw [ndpL_iff] at hmerged_ndp
      obtain ⟨hcont, hrec⟩ := hmerged_ndp (q.1, u) hmem
      exact ⟨hcont, hval ▸ ih u (merged_size_lt hlk (q.1, u) hmem) c (q.1 :: banned) hrec⟩

theorem eliminate_consV :
    ∀ t : Node, ∀ c, consV t = true → consV (t.eliminate c) = true := by
  apply node_size_ind (fun t => ∀ c, consV t = true → consV (t.eliminate c) = true)
  intro t ih c h
  rw [consV_eq] at h
  simp only [Bool.and_eq_true, decide_eq_true_eq] at h
  obtain ⟨hsum, hch⟩ := h
  rw [eliminate_def]
  cases hlk : lookupC t.children c with
  | none =>
      rw [consV_mk]
      simp only [Bool.and_eq_true, decide_eq_true_eq]
      constructor
      · rw [sumVals_map_eliminate]
        exact hsum
      · rw [consVL_iff]
        intro q hq
        rcases mem_map_elim hq with ⟨u, hmem, hval⟩
        rw [hval]
        apply ih u (size_snd_lt hmem) c
        rw [consVL_iff] at hch
        exact hch (q.1, u) hmem
  | some child =>
      have hchild_mem := lookupC_mem hlk
      have hchild_cons : consV child = true := by
        rw [consVL_iff] at hch
        exact hch (c, child) hchild_mem
      have herase_cons : consVL (eraseC t.children c) = true := pred_eraseC_consV hch
      have hchild_consL : consVL child.children = true := by
        rw [consV_eq] at hchild_cons
        simp only [Bool.and_eq_true, decide_eq_true_eq] at hchild_cons
        exact hchild_cons.2
      have hchild_le : sumVals child.children ≤ child.value := by
        rw [consV_eq] at hchild_cons
        simp only [Bool.and_eq_true, decide_eq_true_eq] at hchild_cons
        exact hchild_cons.1
      have hmerged_cons : consVL (mergeListC (eraseC t.children c) child.children) =
          true := consVL_mergeListC _ _ herase_cons hchild_consL
      rw [consV_mk]
      simp only [Bool.and_eq_true, decide_eq_true_eq]
      constructor
      · rw [sumVals_map_eliminate, sumVals_mergeListC]
        have := sumVals_eraseC hlk
        omega
      · rw [consVL_iff]
        intro q hq
        rcases mem_map_elim hq with ⟨u, hmem, hval⟩
        rw [hval]
        apply ih u (merged_size_lt hlk (q.1, u) hmem) c
        rw [consVL_iff] at hmerged_cons
        exact hmerged_cons (q.1, u) hmem

theorem cFree_eliminate_id :
    ∀ t : Node, ∀ c, cFree c t = true → t.eliminate c = t := by
  apply node_size_ind (fun t => ∀ c, cFree c t = true → t.eliminate c = t)
  intro t ih c h
  rw [cFree_eq] at h
  have hnone : lookupC t.children c = none := by
    rw [lookupC_none_iff]
    intro hmem
    rcases mem_keysOf.mp hmem with ⟨u, hu⟩
    rw [cFreeL_iff] at h
    exact (h (c, u) hu).1 rfl
  rw [eliminate_def, hnone]
  have hmap : t.children.map (fun p => (p.1, p.2.eliminate c)) = t.children := by
    have : ∀ p : Nat × Node, p ∈ t.children → (p.1, p.2.eliminate c) = p := by
      intro p hp
      rw [cFreeL_iff] at h
      have := ih p.2 (size_snd_lt hp) c (h p hp).2
      rw [this]
    rw [List.map_congr_left this]
    exact List.map_id _
  rw [hmap, Node.eta]

@[simp] theorem residSum_mk (v : Int) (cs : List (Nat × Node)) :
    residSum (Node.mk v cs) = (v - sumVals cs) + residSumL cs := rfl

@[simp] theorem residSumL_nil : residSumL [] = 0 := rfl

@[simp] theorem residSumL_cons (k : Nat) (u : Node) (rest : List (Nat × Node)) :
    residSumL ((k, u) :: rest) = residSum u + residSumL rest := rfl

theorem residSumL_eq_sumVals (cs : List (Nat × Node))
    (h : ∀ p : Nat × Node, p ∈ cs → residSum p.2 = p.2.value) :
    residSumL cs = sumVals cs := by
  induction cs with
  | nil => simp [sumVals]
  | cons p rest ih =>
      obtain ⟨k, u⟩ := p
      simp only [residSumL_cons, sumVals]
      rw [h (k, u) (List.mem_cons_self _ _),
        ih (fun q hq => h q (List.mem_cons_of_mem _ hq))]

theorem residSum_eq_value : ∀ t : Node, residSum t = t.value := by
  apply node_size_ind (fun t => residSum t = t.value)
  intro t ih
  cases t with
  | mk v cs =>
      simp only [residSum_mk, Node.value_mk]
      rw [residSumL_eq_sumVals cs (fun p hp => ih p.2 (size_snd_lt hp))]
      ring

/-- Claim C3 is stated for every node and candidate; this tree refutes the
containment part: after `eliminate 1` the root still has a child keyed 1. -/
theorem C3_counterexample :
    ¬ (cFree 1 (cexNested.eliminate 1) = true ∧
       (cexNested.eliminate 1).value = cexNested.value ∧
       residSum (cexNested.eliminate 1) = residSum cexNested) := by
  intro h
  have hfalse : cFree 1 (cexNested.eliminate 1) = false := rfl
  rw [h.1] at hfalse
  simp at hfalse

/-- Claim C3, amended: for every node whose subtree never repeats the
candidate `c` along a downward path (`nnc`) and whose nodes all have
duplicate-free child keys (`uniqK`, automatic for Python dictionaries),
`eliminate c` removes every child keyed `c` from the subtree, leaves the
node's value unchanged, and preserves the total count of represented
ballots (sum over all nodes of value minus children's values). -/
theorem C3_eliminate_spec (t : Node) (c : Nat)
    (hn : nnc c t = true) (hu : uniqK t = true) :
    cFree c (t.eliminate c) = true ∧
    (t.eliminate c).value = t.value ∧
    residSum (t.eliminate c) = residSum t := by
  refine ⟨eliminate_cFree t c hn hu, eliminate_value t c, ?_⟩
  rw [residSum_eq_value, residSum_eq_value, eliminate_value]

/-- Witness: a concrete two-ballot tree satisfying the hypotheses of the
amended claim C3. -/
theorem C3_eliminate_spec_witness :
    (nnc 1 (Node.mk 3 [(1, Node.mk 2 [(2, Node.mk 1 [])]), (2, Node.mk 1 [])]) = true)
    ∧ (cFree 1 ((Node.mk 3 [(1, Node.mk 2 [(2, Node.mk 1 [])]), (2, Node.mk 1 [])]).eliminate 1) = true ∧
       ((Node.mk 3 [(1, Node.mk 2 [(2, Node.mk 1 [])]), (2, Node.mk 1 [])]).eliminate 1).value =
         (Node.mk 3 [(1, Node.mk 2 [(2, Node.mk 1 [])]), (2, Node.mk 1 [])]).value ∧
       residSum ((Node.mk 3 [(1, Node.mk 2 [(2, Node.mk 1 [])]), (2, Node.mk 1 [])]).eliminate 1) =
         residSum (Node.mk 3 [(1, Node.mk 2 [(2, Node.mk 1 [])]), (2, Node.mk 1 [])])) :=
  ⟨rfl, C3_eliminate_spec (Node.mk 3 [(1, Node.mk 2 [(2, Node.mk 1 [])]), (2, Node.mk 1 [])]) 1 rfl rfl⟩

theorem elimRange_size (t : Node) (order : List Nat) (start idx : Nat) :
    (elimRange t order start idx).size ≤ t.size := by
  rw [elimRange]
  generalize List.range' start (idx - start) = l
  induction l generalizing t with
  | nil => simp
  | cons i rest ih =>
      simp only [List.foldl_cons]
      exact le_trans (ih (t.eliminate (order.getD i 0))) (eliminate_size t _)

theorem eliminate_preserves_cFree :
    ∀ t : Node, ∀ x c, cFree x t = true → cFree x (t.eliminate c) = true := by
  apply node_size_ind (fun t => ∀ x c, cFree x t = true →
    cFree x (t.eliminate c) = true)
  intro t ih x c h
  rw [cFree_eq] at h
  rw [eliminate_def]
  cases hlk : lookupC t.children c with
  | none =>
      rw [cFree_mk, cFreeL_iff]
      intro q hq
      rcases mem_map_elim hq with ⟨u, hmem, hval⟩
      rw [cFreeL_iff] at h
      obtain ⟨hne, hfree⟩ := h (q.1, u) hmem
      exact ⟨hne, hval ▸ ih u (size_snd_lt hmem) x c hfree⟩
  | some child =>
      have hchild_mem := lookupC_mem hlk
      rw [cFreeL_iff] at h
      have hchild_cfree : cFree x child = true := (h (c, child) hchild_mem).2
      have herase : cFreeL x (eraseC t.children c) = true := by
        rw [cFreeL_iff]
        exact fun p hp => h p (mem_eraseC hp)
      have hchildL : cFreeL x child.children = true := by
        rw [cFree_eq] at hchild_cfree
        exact hchild_cfree
      have hmerged : cFreeL x (mergeListC (eraseC t.children c) child.children) =
          true := cFree_mergeListC _ _ x herase hchildL
      rw [cFree_mk, cFreeL_iff]
      intro q hq
      rcases mem_map_elim hq with ⟨u, hmem, hval⟩
      rw [cFreeL_iff] at hmerged
      obtain ⟨hne, hfree⟩ := hmerged (q.1, u) hmem
      exact ⟨hne, hval ▸ ih u (merged_size_lt hlk (q.1, u) hmem) x c hfree⟩

theorem elimRange_eq_foldElim (t : Node) (order : List Nat) (start idx : Nat) :
    elimRange t order start idx =
      foldElim t ((List.range' start (idx - start)).map (fun i => order.getD i 0)) := by
  rw [elimRange, foldElim, List.foldl_map]

theorem foldElim_cFree_preserved {t : Node} {x : Nat} (cands : List Nat)
    (h : cFree x t = true) : cFree x (foldElim t cands) = true := by
  induction cands generalizing t with
  | nil => exact h
  | cons c rest ih =>
      rw [foldElim, List.foldl_cons]
      exact ih (eliminate_preserves_cFree t x c h)

theorem foldElim_ndp {t : Node} {banned : List Nat} (cands : List Nat)
    (h : ndp banned t = true) : ndp banned (foldElim t cands) = true := by
  induction cands generalizing t with
  | nil => exact h
  | cons c rest ih =>
      rw [foldElim, List.foldl_cons]
      exact ih (eliminate_ndp t c banned h)

theorem foldElim_uniqK {t : Node} (cands : List Nat)
    (h : uniqK t = true) : uniqK (foldElim t cands) = true := by
  induction cands generalizing t with
  | nil => exact h
  | cons c rest ih =>
      rw [foldElim, List.foldl_cons]
      exact ih (eliminate_uniqK t c h)

theorem foldElim_consV {t : Node} (cands : List Nat)
    (h : consV t = true) : consV (foldElim t cands) = true := by
  induction cands generalizing t with
  | nil => exact h
  | cons c rest ih =>
      rw [foldElim, List.foldl_cons]
      exact ih (eliminate_consV t c h)

theorem foldElim_value {t : Node} (cands : List Nat) :
    (foldElim t cands).value = t.value := by
  induction cands generalizing t with
  | nil => rfl
  | cons c rest ih =>
      rw [foldElim, List.foldl_cons]
      rw [show List.foldl (fun acc c => acc.eliminate c) (t.eliminate c) rest =
        foldElim (t.eliminate c) rest from rfl]
      rw [ih, eliminate_value]

theorem foldElim_cFree_each {t : Node} (cands : List Nat)
    (hndp : ndp [] t = true) (hu : uniqK t = true) :
    ∀ x ∈ cands, cFree x (foldElim t cands) = true := by
  induction cands generalizing t with
  | nil => simp
  | cons c rest ih =>
      intro x hx
      rw [foldElim, List.foldl_cons]
      rw [show List.foldl (fun acc c => acc.eliminate c) (t.eliminate c) rest =
        foldElim (t.eliminate c) rest from rfl]
      rcases List.mem_cons.mp hx with rfl | hx'
      · apply foldElim_cFree_preserved
        exact eliminate_cFree t x (ndp_nnc t [] x hndp) hu
      · exact ih (eliminate_ndp t c [] hndp) (eliminate_uniqK t c hu) x hx'

theorem foldElim_id_of_cFree {t : Node} (cands : List Nat)
    (h : ∀ x ∈ cands, cFree x t = true) : foldElim t cands = t := by
  induction cands with
  | nil => rfl
  | cons c rest ih =>
      rw [foldElim, List.foldl_cons]
      rw [cFree_eliminate_id t c (h c (List.mem_cons_self _ _))]
      exact ih (fun x hx => h x (List.mem_cons_of_mem _ hx))

theorem mem_map_pair {cs : List (Nat × Node)} (f : Nat → Node → Node)
    {q : Nat × Node} (h : q ∈ cs.map (fun p => (p.1, f p.1 p.2))) :
    ∃ u : Node, (q.1, u) ∈ cs ∧ q.2 = f q.1 u := by
  rcases List.mem_map.mp h with ⟨⟨k, u⟩, hu, hq⟩
  exact ⟨u, by rw [← hq]; exact hu, by rw [← hq]⟩

theorem roundScan_fst_general (cs : List (Nat × Node)) :
    ∀ acc : Int × Nat × Int,
      ((cs.foldl (fun acc p =>
        if p.2.value > acc.2.2 then (acc.1 + p.2.value, p.1, p.2.value)
        else (acc.1 + p.2.value, acc.2.1, acc.2.2)) acc)).1 =
      acc.1 + sumVals cs := by
  induction cs with
  | nil => intro acc; simp [sumVals]
  | cons p rest ih =>
      intro acc
      obtain ⟨k, u⟩ := p
      simp only [List.foldl_cons, sumVals]
      by_cases hgt : u.value > acc.2.2
      · rw [if_pos hgt, ih]
        simp
        ring
      · rw [if_neg hgt, ih]
        simp
        ring

theorem roundScan_fst (cs : List (Nat × Node)) : (roundScan cs).1 = sumVals cs := by
  rw [roundScan, roundScan_fst_general]
  simp

theorem roundScan_high_general (cs : List (Nat × Node)) :
    ∀ acc : Int × Nat × Int,
      ((cs.foldl (fun acc p =>
        if p.2.value > acc.2.2 then (acc.1 + p.2.value, p.1, p.2.value)
        else (acc.1 + p.2.value, acc.2.1, acc.2.2)) acc)).2.2 =
      cs.foldl (fun m p => max m p.2.value) acc.2.2 := by
  induction cs with
  | nil => intro acc; simp
  | cons p rest ih =>
      intro acc
      obtain ⟨k, u⟩ := p
      simp only [List.foldl_cons]
      by_cases hgt : u.value > acc.2.2
      · rw [if_pos hgt, ih]
        have : max acc.2.2 u.value = u.value := by omega
        rw [this]
      · rw [if_neg hgt, ih]
        have : max acc.2.2 u.value = acc.2.2 := by omega
        rw [this]

theorem roundScan_high (cs : List (Nat × Node)) :
    (roundScan cs).2.2 = leadVotes cs := by
  rw [roundScan, leadVotes, roundScan_high_general]

/-- Claim C8: with BASE_IRV or SF_RCV rules, a leader holding exactly
half of the continuing votes with more than two candidates remaining does
not win the round; the round instead computes the rules' elimination set
and applies it. -/
theorem C8_half_no_winner (root : Node) (rules : Rules)
    (hr : rules = Rules.baseIrv ∨ rules = Rules.sfRcv)
    (hlen : 3 ≤ root.children.length)
    (hhalf : leadVotes root.children * 2 = sumVals root.children) :
    ∃ counts : List (Nat × List Int), irvRound root 1 rules =
      some ⟨none, counts, [(eliminationSet root rules).1],
        foldElim root (eliminationSet root rules).1⟩ := by
  have hany : (root.children.any (fun p => ([] : List Nat).contains p.1)) = false := by
    simp
  have hcond : ¬ ((rules ≠ Rules.completeIrv ∧
      (roundScan root.children).2.2 * 2 > (roundScan root.children).1) ∨
      root.children.length ≤ 2) := by
    rw [roundScan_high, roundScan_fst]
    rintro (⟨_, hgt⟩ | hle)
    · omega
    · omega
  refine ⟨updateCounts ((keysOf root.children).map
    (fun c => (c, List.replicate 1 (0 : Int)))) root.children 1, ?_⟩
  rw [irvRound]
  simp only [irvLoop, hany, Bool.false_eq_true, if_false, if_neg hcond]
  rfl

/-- Witness: three candidates with votes 2, 1, 1; the leader has exactly
half of the four votes and the round eliminates instead of declaring. -/
theorem C8_half_no_winner_witness :
    (3 ≤ (Node.mk 4 [(1, Node.mk 2 []), (2, Node.mk 1 []),
        (3, Node.mk 1 [])]).children.length) ∧
    (leadVotes (Node.mk 4 [(1, Node.mk 2 []), (2, Node.mk 1 []),
        (3, Node.mk 1 [])]).children * 2 =
      sumVals (Node.mk 4 [(1, Node.mk 2 []), (2, Node.mk 1 []),
        (3, Node.mk 1 [])]).children) ∧
    (∃ counts : List (Nat × List Int),
      irvRound (Node.mk 4 [(1, Node.mk 2 []), (2, Node.mk 1 []),
        (3, Node.mk 1 [])]) 1 Rules.baseIrv =
      some ⟨none, counts,
        [(eliminationSet (Node.mk 4 [(1, Node.mk 2 []), (2, Node.mk 1 []),
          (3, Node.mk 1 [])]) Rules.baseIrv).1],
        foldElim (Node.mk 4 [(1, Node.mk 2 []), (2, Node.mk 1 []),
          (3, Node.mk 1 [])])
          (eliminationSet (Node.mk 4 [(1, Node.mk 2 []), (2, Node.mk 1 []),
            (3, Node.mk 1 [])]) Rules.baseIrv).1⟩) :=
  ⟨by decide, by decide,
    C8_half_no_winner (Node.mk 4 [(1, Node.mk 2 []), (2, Node.mk 1 []),
      (3, Node.mk 1 [])]) Rules.baseIrv (Or.inl rfl) (by decide) (by decide)⟩

theorem gp_eq_nil_iff (val : Nat → Int) (l : List Nat) :
    groupPairs val l = [] ↔ l = [] := by
  cases l with
  | nil => simp [groupPairs]
  | cons c rest =>
      simp only [groupPairs]
      constructor
      · intro h
        rcases hgp : groupPairs val rest with _ | ⟨⟨k, num⟩, gs⟩
        · rw [hgp] at h
          simp at h
        · rw [hgp] at h
          by_cases hk : val c = k
          · simp [hk] at h
          · simp [hk] at h
      · intro h
        simp at h

theorem gp_cons_eq (val : Nat → Int) (c : Nat) (rest : List Nat) :
    groupPairs val (c :: rest) =
      match groupPairs val rest with
      | [] => [(val c, 1)]
      | (k, num) :: gs =>
          if val c = k then (k, num + 1) :: gs else (val c, 1) :: (k, num) :: gs := rfl

theorem gp_cons_of_nil (val : Nat → Int) (c : Nat) (rest : List Nat)
    (h : groupPairs val rest = []) :
    groupPairs val (c :: rest) = [(val c, 1)] := by
  rw [gp_cons_eq, h]

theorem gp_cons_of_eq (val : Nat → Int) (c : Nat) (rest : List Nat) (k : Int)
    (num : Nat) (gs : List (Int × Nat)) (h : groupPairs val rest = (k, num) :: gs)
    (hk : val c = k) : groupPairs val (c :: rest) = (k, num + 1) :: gs := by
  rw [gp_cons_eq, h]
  simp [hk]

theorem gp_cons_of_ne (val : Nat → Int) (c : Nat) (rest : List Nat) (k : Int)
    (num : Nat) (gs : List (Int × Nat)) (h : groupPairs val rest = (k, num) :: gs)
    (hk : ¬ val c = k) :
    groupPairs val (c :: rest) = (val c, 1) :: (k, num) :: gs := by
  rw [gp_cons_eq, h]
  simp [hk]

theorem gp_flat (val : Nat → Int) (l : List Nat) :
    gflat (groupPairs val l) = l.map val := by
  induction l with
  | nil => simp [groupPairs, gflat]
  | cons c rest ih =>
      rcases hgp : groupPairs val rest with _ | ⟨⟨k, num⟩, gs⟩
      · have hrest : rest = [] := (gp_eq_nil_iff val rest).mp hgp
        subst hrest
        rw [gp_cons_of_nil val c [] hgp]
        simp [gflat]
      · rw [hgp] at ih
        by_cases hk : val c = k
        · rw [gp_cons_of_eq val c rest k num gs hgp hk]
          simp only [gflat, List.cons_bind] at ih ⊢
          rw [List.map_cons, ← ih, hk]
          simp [List.replicate_succ]
        · rw [gp_cons_of_ne val c rest k num gs hgp hk]
          simp only [gflat, List.cons_bind] at ih ⊢
          rw [List.map_cons, ← ih]
          simp [List.replicate_succ]

theorem gp_num_pos (val : Nat → Int) (l : List Nat) :
    ∀ g ∈ groupPairs val l, 1 ≤ g.2 := by
  induction l with
  | nil => simp [groupPairs]
  | cons c rest ih =>
      rcases hgp : groupPairs val rest with _ | ⟨⟨k, num⟩, gs⟩
      · rw [gp_cons_of_nil val c rest hgp]
        simp
      · rw [hgp] at ih
        by_cases hk : val c = k
        · rw [gp_cons_of_eq val c rest k num gs hgp hk]
          intro g hg
          rcases List.mem_cons.mp hg with rfl | hg'
          · simp
          · exact ih g (List.mem_cons_of_mem _ hg')
        · rw [gp_cons_of_ne val c rest k num gs hgp hk]
          intro g hg
          rcases List.mem_cons.mp hg with rfl | hg'
          · simp
          · exact ih g hg'

@[simp] theorem gflat_nil : gflat [] = [] := rfl

@[simp] theorem gflat_cons (k : Int) (num : Nat) (gs : List (Int × Nat)) :
    gflat ((k, num) :: gs) = List.replicate num k ++ gflat gs := rfl

theorem sfFold_cons_eq (s : List Nat) (k : Int) (num : Nat)
    (gs : List (Int × Nat)) (n : Int) (i j : Nat) :
    sfFold s ((k, num) :: gs) n i j =
      if n < k then
        ((sfFold s gs (n + k * num) j (j + num)).1,
          (if 0 < j then [s.take j] else []) ++
            (sfFold s gs (n + k * num) j (j + num)).2)
      else sfFold s gs (n + k * num) i (j + num) := rfl

theorem sfFold_fst_spec (s : List Nat) (V : List Int)
    (hnn : ∀ x ∈ V, 0 ≤ x) (hsort : List.Pairwise (· ≤ ·) V) :
    ∀ gs : List (Int × Nat), ∀ n : Int, ∀ i j : Nat,
      V.drop j = gflat gs →
      (∀ g ∈ gs, 1 ≤ g.2) →
      n = (V.take j).sum →
      j ≤ V.length →
      i ≤ j →
      (i = 0 ∨ validAtV V i) →
      (∀ j', validAtV V j' → j' < j → j' ≤ i) →
      (((sfFold s gs n i j).1 = 0 ∨ validAtV V (sfFold s gs n i j).1) ∧
        ∀ j', validAtV V j' → j' ≤ (sfFold s gs n i j).1) := by
  intro gs
  induction gs with
  | nil =>
      intro n i j hdrop _ hn hj hij hi hmax
      have hjlen : j = V.length := by
        have hlen := congrArg List.length hdrop
        simp only [gflat_nil, List.length_nil, List.length_drop] at hlen
        omega
      simp only [sfFold]
      refine ⟨hi, ?_⟩
      intro j' hv
      exact hmax j' hv (by rw [hjlen]; exact hv.2.1)
  | cons g gs ih =>
      obtain ⟨k, num⟩ := g
      intro n i j hdrop hpos hn hj hij hi hmax
      have hnum : 1 ≤ num := hpos (k, num) (List.mem_cons_self _ _)
      rw [gflat_cons] at hdrop
      have hlen : V.length - j = num + (gflat gs).length := by
        have hl := congrArg List.length hdrop
        simp only [List.length_drop, List.length_append, List.length_replicate] at hl
        omega
      have hjnum : j + num ≤ V.length := by omega
      have htake : ∀ d : Nat, d ≤ num →
          V.take (j + d) = V.take j ++ List.replicate d k := by
        intro d hd
        rw [List.take_add, hdrop, List.take_append_of_le_length
          (by simp [List.length_replicate]; omega), List.take_replicate]
        rw [show d ⊓ num = d from by omega]
      have hsum : ∀ d : Nat, d ≤ num →
          (V.take (j + d)).sum = n + d * k := by
        intro d hd
        rw [htake d hd, List.sum_append, List.sum_replicate, hn, nsmul_eq_mul]
      have hdropd : ∀ d : Nat, d ≤ num →
          V.drop (j + d) = List.replicate (num - d) k ++ gflat gs := by
        intro d hd
        rw [← List.drop_drop, hdrop, List.drop_append_of_le_length
          (by simp [List.length_replicate]; omega), List.drop_replicate]
      have hknn : 0 ≤ k := by
        apply hnn
        have hkdrop : k ∈ V.drop j := by
          rw [hdrop]
          apply List.mem_append_left
          exact List.mem_replicate.mpr ⟨by omega, rfl⟩
        exact List.mem_of_mem_drop hkdrop
      have hnnn : 0 ≤ n := by
        rw [hn]
        apply List.sum_nonneg
        intro x hx
        exact hnn x (List.mem_of_mem_take hx)
      have hge : ∀ x ∈ V.drop j, k ≤ x := by
        have hPW : List.Pairwise (fun a b : Int => a ≤ b) (V.drop j) :=
          List.Pairwise.sublist (List.drop_sublist j V) hsort
        rw [hdrop] at hPW ⊢
        obtain ⟨m, rfl⟩ : ∃ m, num = m + 1 := ⟨num - 1, by omega⟩
        rw [List.replicate_succ, List.cons_append] at hPW ⊢
        rw [List.pairwise_cons] at hPW
        intro x hx
        rcases List.mem_cons.mp hx with rfl | hx'
        · exact le_refl x
        · exact hPW.1 x hx'
      have hvbj : 0 < j → (validAtV V j ↔ n < k) := by
        intro hjpos
        constructor
        · intro hv
          have hk_mem : k ∈ V.drop j := by
            rw [hdrop]
            apply List.mem_append_left
            exact List.mem_replicate.mpr ⟨by omega, rfl⟩
          have := hv.2.2 k hk_mem
          omega
        · intro hnk
          refine ⟨hjpos, by omega, ?_⟩
          intro x hx
          have := hge x hx
          rw [← hn] at *
          omega
      have hmid : ∀ d : Nat, 0 < d → d < num → ¬ validAtV V (j + d) := by
        intro d hd1 hd2 hv
        have hk_mem : k ∈ V.drop (j + d) := by
          rw [hdropd d (by omega)]
          apply List.mem_append_left
          exact List.mem_replicate.mpr ⟨by omega, rfl⟩
        have h1 := hv.2.2 k hk_mem
        rw [hsum d (by omega)] at h1
        have h2 : k ≤ (d : Int) * k := le_mul_of_one_le_left hknn (by exact_mod_cast hd1)
        omega
      by_cases hlt : n < k
      · rw [sfFold_cons_eq, if_pos hlt]
        have hres := ih (n + k * num) j (j + num)
          (by rw [hdropd num (le_refl _)]; simp)
          (fun g hg => hpos g (List.mem_cons_of_mem _ hg))
          (by rw [hsum num (le_refl _)]; ring)
          hjnum (by omega)
          (by
            by_cases hj0 : j = 0
            · exact Or.inl hj0
            · exact Or.inr ((hvbj (by omega)).mpr hlt))
          (by
            intro j' hv hjd
            by_cases hcase : j' < j
            · exact le_trans (hmax j' hv hcase) hij
            · by_cases hcase2 : j' = j
              · omega
              · exfalso
                exact hmid (j' - j) (by omega) (by omega)
                  (by rw [show j + (j' - j) = j' by omega]; exact hv))
        simpa using hres
      · rw [sfFold_cons_eq, if_neg hlt]
        exact ih (n + k * num) i (j + num)
          (by rw [hdropd num (le_refl _)]; simp)
          (fun g hg => hpos g (List.mem_cons_of_mem _ hg))
          (by rw [hsum num (le_refl _)]; ring)
          hjnum (by omega) hi
          (by
            intro j' hv hjd
            by_cases hcase : j' < j
            · exact hmax j' hv hcase
            · by_cases hcase2 : j' = j
              · exfalso
                subst hcase2
                have hjpos : 0 < j' := hv.1
                exact hlt ((hvbj hjpos).mp hv)
              · exfalso
                exact hmid (j' - j) (by omega) (by omega)
                  (by rw [show j + (j' - j) = j' by omega]; exact hv))

theorem lookupC_of_mem_nodup {cs : List (Nat × Node)} {k : Nat} {u : Node}
    (hu : nodupB (keysOf cs) = true) (h : (k, u) ∈ cs) :
    lookupC cs k = some u := by
  induction cs with
  | nil => cases h
  | cons p rest ih =>
      obtain ⟨k', u'⟩ := p
      rw [nodupB_iff] at hu
      simp only [keysOf, List.map_cons, List.nodup_cons] at hu
      rcases List.mem_cons.mp h with heq | hmem
      · injection heq with h1 h2
        subst h1
        subst h2
        simp [lookupC]
      · by_cases hk : k' = k
        · exfalso
          subst hk
          exact hu.1 (List.mem_map.mpr ⟨(k', u), hmem, rfl⟩)
        · simp only [lookupC, hk, if_false]
          exact ih (by rw [nodupB_iff]; exact hu.2) hmem

theorem sortedCandidates_perm (root : Node) :
    (sortedCandidates root).Perm (keysOf root.children) :=
  List.perm_insertionSort _ _

theorem sortedCandidates_sorted (root : Node) :
    List.Pairwise (fun a b => childVal root.children a ≤ childVal root.children b)
      (sortedCandidates root) := by
  haveI hT : IsTotal Nat
      (fun a b => childVal root.children a ≤ childVal root.children b) :=
    ⟨fun a b => le_total _ _⟩
  haveI hR : IsTrans Nat
      (fun a b => childVal root.children a ≤ childVal root.children b) :=
    ⟨fun a b c h1 h2 => le_trans h1 h2⟩
  exact List.sorted_insertionSort _ _

theorem sortedCandidates_length (root : Node) :
    (sortedCandidates root).length = root.children.length := by
  rw [(sortedCandidates_perm root).length_eq]
  simp [keysOf]

theorem validPrefix_iff (root : Node) (j : Nat) :
    validPrefix root j ↔
      validAtV ((sortedCandidates root).map (fun c => childVal root.children c)) j := by
  rw [validPrefix, validAtV]
  have hlen : ((sortedCandidates root).map
      (fun c => childVal root.children c)).length = (sortedCandidates root).length := by
    simp
  rw [hlen]
  have htake : (((sortedCandidates root).map (fun c => childVal root.children c)).take j) =
      ((sortedCandidates root).take j).map (fun c => childVal root.children c) := by
    rw [List.map_take]
  have hdrop : (((sortedCandidates root).map (fun c => childVal root.children c)).drop j) =
      ((sortedCandidates root).drop j).map (fun c => childVal root.children c) := by
    rw [List.map_drop]
  rw [htake, hdrop]
  constructor
  · rintro ⟨h1, h2, h3⟩
    refine ⟨h1, h2, ?_⟩
    intro x hx
    rcases List.mem_map.mp hx with ⟨c, hc, rfl⟩
    exact h3 c hc
  · rintro ⟨h1, h2, h3⟩
    refine ⟨h1, h2, ?_⟩
    intro c hc
    exact h3 _ (List.mem_map.mpr ⟨c, hc, rfl⟩)

/-- Core facts about the SF-rule elimination set, shared by several
claims: it is the largest valid prefix of the votes-ascending candidate
order (or a minimum-vote singleton when no valid prefix exists), it is
nonempty, proper, and drawn from the root candidates. -/
theorem sfElim_facts (root : Node)
    (hlen : 2 ≤ root.children.length)
    (hu : nodupB (keysOf root.children) = true)
    (hnn : ∀ p : Nat × Node, p ∈ root.children → 0 ≤ p.2.value) :
    ((∃ j, validPrefix root j ∧
        (eliminationSet root Rules.sfRcv).1 = (sortedCandidates root).take j ∧
        ∀ j', validPrefix root j' → j' ≤ j) ∨
      ((¬ ∃ j, validPrefix root j) ∧
        ∃ c, (eliminationSet root Rules.sfRcv).1 = [c] ∧
          c ∈ keysOf root.children ∧
          ∀ p : Nat × Node, p ∈ root.children →
            childVal root.children c ≤ p.2.value)) ∧
    (eliminationSet root Rules.sfRcv).1 ≠ [] ∧
    (eliminationSet root Rules.sfRcv).1.length < root.children.length ∧
    ∀ x ∈ (eliminationSet root Rules.sfRcv).1, x ∈ keysOf root.children := by
  have hslen := sortedCandidates_length root
  have hperm := sortedCandidates_perm root
  have hVnn : ∀ x ∈ (sortedCandidates root).map (fun c => childVal root.children c),
      0 ≤ x := by
    intro x hx
    rcases List.mem_map.mp hx with ⟨c, hc, rfl⟩
    have hck : c ∈ keysOf root.children := hperm.subset hc
    rcases hlk : lookupC root.children c with _ | u
    · rw [lookupC_none_iff] at hlk
      exact absurd hck hlk
    · have : childVal root.children c = u.value := by
        rw [childVal, hlk]
      rw [this]
      exact hnn (c, u) (lookupC_mem hlk)
  have hVsort : List.Pairwise (fun a b : Int => a ≤ b)
      ((sortedCandidates root).map (fun c => childVal root.children c)) :=
    List.Pairwise.map _ (fun a b h => h) (sortedCandidates_sorted root)
  have hspec := sfFold_fst_spec (sortedCandidates root)
    ((sortedCandidates root).map (fun c => childVal root.children c)) hVnn hVsort
    (groupPairs (fun c => childVal root.children c) (sortedCandidates root))
    0 0 0
    (by rw [List.drop_zero, gp_flat])
    (gp_num_pos _ _)
    (by simp)
    (by simp)
    (le_refl 0)
    (Or.inl rfl)
    (by omega)
  set W := sfFold (sortedCandidates root)
    (groupPairs (fun c => childVal root.children c) (sortedCandidates root))
    0 0 0 with hWdef
  have heq : eliminationSet root Rules.sfRcv =
      (if W.1 = 0 then ((sortedCandidates root).take 1, W.2)
       else ((sortedCandidates root).take W.1, W.2)) := rfl
  obtain ⟨hval, hmax⟩ := hspec
  by_cases hW0 : W.1 = 0
  · have hnone : ¬ ∃ j, validPrefix root j := by
      rintro ⟨j, hj⟩
      have := hmax j ((validPrefix_iff root j).mp hj)
      rw [hW0] at this
      have := hj.1
      omega
    have hsne : sortedCandidates root ≠ [] := by
      intro hcon
      rw [hcon] at hslen
      simp at hslen
      omega
    obtain ⟨c, rest, hcons⟩ := List.exists_cons_of_ne_nil hsne
    have hE : (eliminationSet root Rules.sfRcv).1 = [c] := by
      rw [heq, if_pos hW0, hcons]
      rfl
    have hcmem : c ∈ keysOf root.children := by
      apply hperm.subset
      rw [hcons]
      exact List.mem_cons_self _ _
    have hmin : ∀ p : Nat × Node, p ∈ root.children →
        childVal root.children c ≤ p.2.value := by
      intro p hp
      obtain ⟨k, u⟩ := p
      have hkmem : k ∈ sortedCandidates root := by
        rw [hperm.mem_iff]
        exact mem_keysOf.mpr ⟨u, hp⟩
      have hle : childVal root.children c ≤ childVal root.children k := by
        have hsorted := sortedCandidates_sorted root
        rw [hcons] at hkmem hsorted
        rw [List.pairwise_cons] at hsorted
        rcases List.mem_cons.mp hkmem with rfl | hk'
        · exact le_refl _
        · exact hsorted.1 k hk'
      have : childVal root.children k = u.value := by
        rw [childVal, lookupC_of_mem_nodup hu hp]
      rw [← this]
      exact hle
    refine ⟨Or.inr ⟨hnone, c, hE, hcmem, hmin⟩, ?_, ?_, ?_⟩
    · rw [hE]
      simp
    · rw [hE]
      simpa using hlen
    · intro x hx
      rw [hE] at hx
      rcases List.mem_singleton.mp hx with rfl
      exact hcmem
  · have hvalW : validPrefix root W.1 := by
      rcases hval with h | h
      · exact absurd h hW0
      · exact (validPrefix_iff root W.1).mpr h
    have hE : (eliminationSet root Rules.sfRcv).1 =
        (sortedCandidates root).take W.1 := by
      rw [heq, if_neg hW0]
    refine ⟨Or.inl ⟨W.1, hvalW, hE, ?_⟩, ?_, ?_, ?_⟩
    · intro j' hj'
      exact hmax j' ((validPrefix_iff root j').mp hj')
    · rw [hE]
      apply List.ne_nil_of_length_pos
      rw [List.length_take]
      have h1 := hvalW.1
      have h2 := hvalW.2.1
      omega
    · rw [hE]
      have h1 := hvalW.2.1
      simp only [List.length_take]
      omega
    · intro x hx
      rw [hE] at hx
      apply hperm.subset
      exact List.mem_of_mem_take hx

/-- Claim C2: under SF_RCV rules, with at least two children (and the
children of a dictionary necessarily carrying distinct keys and, for a
ballot trie, nonnegative vote counts), `_elimination_set` returns the
largest valid prefix of the votes-ascending candidate order, or, when no
nonempty valid prefix exists, a singleton holding a candidate with the
fewest top-choice votes; the result is always a nonempty proper subset of
the continuing candidates. -/
theorem C2_elimination_set_spec (root : Node)
    (hlen : 2 ≤ root.children.length)
    (hu : nodupB (keysOf root.children) = true)
    (hnn : ∀ p : Nat × Node, p ∈ root.children → 0 ≤ p.2.value) :
    ((∃ j, validPrefix root j ∧
        (eliminationSet root Rules.sfRcv).1 = (sortedCandidates root).take j ∧
        ∀ j', validPrefix root j' → j' ≤ j) ∨
      ((¬ ∃ j, validPrefix root j) ∧
        ∃ c, (eliminationSet root Rules.sfRcv).1 = [c] ∧
          c ∈ keysOf root.children ∧
          ∀ p : Nat × Node, p ∈ root.children →
            childVal root.children c ≤ p.2.value)) ∧
    (eliminationSet root Rules.sfRcv).1 ≠ [] ∧
    (eliminationSet root Rules.sfRcv).1.length < root.children.length ∧
    ∀ x ∈ (eliminationSet root Rules.sfRcv).1, x ∈ keysOf root.children :=
  sfElim_facts root hlen hu hnn

/-- Witness: three candidates with votes 1, 1, 3; the SF batch rule
eliminates the pair with 2 < 3 total votes. -/
theorem C2_elimination_set_spec_witness :
    (2 ≤ (Node.mk 5 [(1, Node.mk 1 []), (2, Node.mk 1 []),
        (3, Node.mk 3 [])]).children.length) ∧
    (nodupB (keysOf (Node.mk 5 [(1, Node.mk 1 []), (2, Node.mk 1 []),
        (3, Node.mk 3 [])]).children) = true) ∧
    (((∃ j, validPrefix (Node.mk 5 [(1, Node.mk 1 []), (2, Node.mk 1 []),
          (3, Node.mk 3 [])]) j ∧
        (eliminationSet (Node.mk 5 [(1, Node.mk 1 []), (2, Node.mk 1 []),
          (3, Node.mk 3 [])]) Rules.sfRcv).1 =
          (sortedCandidates (Node.mk 5 [(1, Node.mk 1 []), (2, Node.mk 1 []),
            (3, Node.mk 3 [])])).take j ∧
        ∀ j', validPrefix (Node.mk 5 [(1, Node.mk 1 []), (2, Node.mk 1 []),
          (3, Node.mk 3 [])]) j' → j' ≤ j) ∨
      ((¬ ∃ j, validPrefix (Node.mk 5 [(1, Node.mk 1 []), (2, Node.mk 1 []),
          (3, Node.mk 3 [])]) j) ∧
        ∃ c, (eliminationSet (Node.mk 5 [(1, Node.mk 1 []), (2, Node.mk 1 []),
            (3, Node.mk 3 [])]) Rules.sfRcv).1 = [c] ∧
          c ∈ keysOf (Node.mk 5 [(1, Node.mk 1 []), (2, Node.mk 1 []),
            (3, Node.mk 3 [])]).children ∧
          ∀ p : Nat × Node, p ∈ (Node.mk 5 [(1, Node.mk 1 []), (2, Node.mk 1 []),
            (3, Node.mk 3 [])]).children →
            childVal (Node.mk 5 [(1, Node.mk 1 []), (2, Node.mk 1 []),
              (3, Node.mk 3 [])]).children c ≤ p.2.value)) ∧
    (eliminationSet (Node.mk 5 [(1, Node.mk 1 []), (2, Node.mk 1 []),
      (3, Node.mk 3 [])]) Rules.sfRcv).1 ≠ [] ∧
    (eliminationSet (Node.mk 5 [(1, Node.mk 1 []), (2, Node.mk 1 []),
      (3, Node.mk 3 [])]) Rules.sfRcv).1.length <
      (Node.mk 5 [(1, Node.mk 1 []), (2, Node.mk 1 []),
        (3, Node.mk 3 [])]).children.length ∧
    ∀ x ∈ (eliminationSet (Node.mk 5 [(1, Node.mk 1 []), (2, Node.mk 1 []),
      (3, Node.mk 3 [])]) Rules.sfRcv).1,
      x ∈ keysOf (Node.mk 5 [(1, Node.mk 1 []), (2, Node.mk 1 []),
        (3, Node.mk 3 [])]).children) :=
  ⟨by decide, rfl,
    C2_elimination_set_spec (Node.mk 5 [(1, Node.mk 1 []), (2, Node.mk 1 []),
      (3, Node.mk 3 [])]) (by decide) rfl (by decide)⟩

/-- Claim C10: with fewer than two candidates in the target elimination
order, `distance_to` returns 0 for every solver (so no problem is built
and the solver is never invoked) and, being pure here as in the source,
it leaves the ballot tree untouched. -/
theorem C10_distance_to_short (solver : IlpInput → Int → Int) (root : Node)
    (ranks : Nat) (elimOrder : List Nat) (timeout : Int)
    (h : elimOrder.length < 2) :
    distanceTo solver root ranks elimOrder timeout = some 0 := by
  rw [distanceTo]
  simp only [if_pos h]

/-- Witness: a two-ballot tree, a singleton elimination order, and a
solver that would answer 77 everywhere is never consulted. -/
theorem C10_distance_to_short_witness :
    (([5] : List Nat).length < 2) ∧
    distanceTo (fun _ _ => 77) (Node.mk 2 [(1, Node.mk 1 []), (2, Node.mk 1 [])])
      3 [5] 10 = some 0 :=
  ⟨by decide,
    C10_distance_to_short (fun _ _ => 77)
      (Node.mk 2 [(1, Node.mk 1 []), (2, Node.mk 1 [])]) 3 [5] 10 (by decide)⟩

@[simp] theorem vnn_mk (v : Int) (cs : List (Nat × Node)) :
    vnn (Node.mk v cs) = (decide (0 ≤ v) && vnnL cs) := rfl

@[simp] theorem vnnL_nil : vnnL [] = true := rfl

@[simp] theorem vnnL_cons (k : Nat) (u : Node) (rest : List (Nat × Node)) :
    vnnL ((k, u) :: rest) = (vnn u && vnnL rest) := rfl

theorem vnn_eq (t : Node) :
    vnn t = (decide (0 ≤ t.value) && vnnL t.children) := by
  cases t
  rfl

theorem vnnL_iff (cs : List (Nat × Node)) :
    vnnL cs = true ↔ ∀ p : Nat × Node, p ∈ cs → vnn p.2 = true := by
  induction cs with
  | nil => simp
  | cons p rest ih =>
      obtain ⟨k, u⟩ := p
      simp [ih]

theorem consV_vnn : ∀ t : Node, consV t = true → vnn t = true := by
  apply node_size_ind (fun t => consV t = true → vnn t = true)
  intro t ih h
  have hv : 0 ≤ t.value := consV_nonneg t h
  rw [consV_eq] at h
  simp only [Bool.and_eq_true, decide_eq_true_eq] at h
  obtain ⟨hsum, hch⟩ := h
  rw [consVL_iff] at hch
  rw [vnn_eq]
  simp only [Bool.and_eq_true, decide_eq_true_eq]
  refine ⟨hv, ?_⟩
  rw [vnnL_iff]
  intro p hp
  exact ih p.2 (size_snd_lt hp) (hch p hp)

theorem consVL_lookup {cs : List (Nat × Node)} {c : Nat} {u : Node}
    (hall : consVL cs = true) (h : lookupC cs c = some u) : consV u = true := by
  rw [consVL_iff] at hall
  exact hall _ (lookupC_mem h)

theorem lookupC_replaceC_ne {cs : List (Nat × Node)} {c c' : Nat} (n' : Node)
    (h : c' ≠ c) : lookupC (replaceC cs c n') c' = lookupC cs c' := by
  induction cs with
  | nil => rfl
  | cons p rest ih =>
      obtain ⟨k, u⟩ := p
      by_cases hk : k = c
      · have hkc : ¬ (k = c') := fun hkc => h (hkc.symm.trans hk)
        simp only [replaceC, if_pos hk, lookupC, if_neg hkc]
      · by_cases hk' : k = c'
        · simp only [replaceC, if_neg hk, lookupC, if_pos hk']
        · simp only [replaceC, if_neg hk, lookupC, if_neg hk', ih]

theorem lookupC_eraseC_ne {cs : List (Nat × Node)} {c c' : Nat}
    (h : c' ≠ c) : lookupC (eraseC cs c) c' = lookupC cs c' := by
  induction cs with
  | nil => rfl
  | cons p rest ih =>
      obtain ⟨k, u⟩ := p
      by_cases hk : k = c
      · have hkc : ¬ (k = c') := fun hkc => h (hkc.symm.trans hk)
        simp only [eraseC, if_pos hk, lookupC, if_neg hkc]
      · by_cases hk' : k = c'
        · simp only [eraseC, if_neg hk, lookupC, if_pos hk']
        · simp only [eraseC, if_neg hk, lookupC, if_neg hk', ih]

theorem eraseC_lookup_none {cs : List (Nat × Node)} {c : Nat}
    (h : lookupC cs c = none) : eraseC cs c = cs := by
  induction cs with
  | nil => rfl
  | cons p rest ih =>
      obtain ⟨k, u⟩ := p
      simp only [lookupC] at h
      by_cases hk : k = c
      · rw [if_pos hk] at h
        exact absurd h (by simp)
      · rw [if_neg hk] at h
        simp only [eraseC, if_neg hk]
        rw [ih h]

theorem vnnL_replaceC {cs : List (Nat × Node)} {c : Nat} {n' : Node}
    (hall : vnnL cs = true) (hn' : vnn n' = true) :
    vnnL (replaceC cs c n') = true := by
  induction cs with
  | nil => rfl
  | cons p rest ih =>
      obtain ⟨k, u⟩ := p
      simp only [vnnL_cons, Bool.and_eq_true] at hall
      by_cases hk : k = c
      · simp only [replaceC, if_pos hk, vnnL_cons, Bool.and_eq_true]
        exact ⟨hn', hall.2⟩
      · simp only [replaceC, if_neg hk, vnnL_cons, Bool.and_eq_true]
        exact ⟨hall.1, ih hall.2⟩

theorem vnnL_eraseC {cs : List (Nat × Node)} {c : Nat}
    (hall : vnnL cs = true) : vnnL (eraseC cs c) = true := by
  induction cs with
  | nil => rfl
  | cons p rest ih =>
      obtain ⟨k, u⟩ := p
      simp only [vnnL_cons, Bool.and_eq_true] at hall
      by_cases hk : k = c
      · simp only [eraseC, if_pos hk]
        exact hall.2
      · simp only [eraseC, if_neg hk, vnnL_cons, Bool.and_eq_true]
        exact ⟨hall.1, ih hall.2⟩

theorem sizeL_replaceC_le {cs : List (Nat × Node)} {c : Nat} {u n' : Node}
    (h : lookupC cs c = some u) (hsz : n'.size ≤ u.size) :
    sizeL (replaceC cs c n') ≤ sizeL cs := by
  induction cs with
  | nil => simp [lookupC] at h
  | cons p rest ih =>
      obtain ⟨k, v⟩ := p
      simp only [lookupC] at h
      by_cases hk : k = c
      · rw [if_pos hk] at h
        injection h with h
        subst h
        simp only [replaceC, if_pos hk, sizeL]
        omega
      · rw [if_neg hk] at h
        simp only [replaceC, if_neg hk, sizeL]
        have := ih h
        omega

theorem sizeL_eraseC_le (cs : List (Nat × Node)) (c : Nat) :
    sizeL (eraseC cs c) ≤ sizeL cs := by
  induction cs with
  | nil => simp [eraseC]
  | cons p rest ih =>
      obtain ⟨k, u⟩ := p
      by_cases hk : k = c
      · simp only [eraseC, if_pos hk, sizeL]
        have := size_pos u
        omega
      · simp only [eraseC, if_neg hk, sizeL]
        omega

theorem childVal_nonneg {cs : List (Nat × Node)} (c : Nat)
    (hall : vnnL cs = true) : 0 ≤ childVal cs c := by
  rw [childVal]
  cases hl : lookupC cs c with
  | none => simp
  | some u =>
      rw [vnnL_iff] at hall
      have := hall _ (lookupC_mem hl)
      rw [vnn_eq] at this
      simp only [Bool.and_eq_true, decide_eq_true_eq] at this
      exact this.1

theorem sumOver_nonneg {cs : List (Nat × Node)} (pending : List Nat)
    (hall : vnnL cs = true) : 0 ≤ sumOver cs pending := by
  induction pending with
  | nil => simp [sumOver]
  | cons c rest ih =>
      have := childVal_nonneg c hall
      simp only [sumOver]
      omega

theorem sumOver_congr {cs ds : List (Nat × Node)} (pending : List Nat)
    (h : ∀ c ∈ pending, lookupC ds c = lookupC cs c) :
    sumOver ds pending = sumOver cs pending := by
  induction pending with
  | nil => rfl
  | cons c rest ih =>
      simp only [sumOver]
      rw [childVal, childVal, h c (List.mem_cons_self _ _),
        ih (fun c' hc' => h c' (List.mem_cons_of_mem _ hc'))]

theorem sumOver_le_sumVals : ∀ (pending : List Nat) (cs : List (Nat × Node)),
    pending.Nodup → vnnL cs = true → sumOver cs pending ≤ sumVals cs := by
  intro pending
  induction pending with
  | nil =>
      intro cs _ hall
      have : 0 ≤ sumVals cs := by
        apply sumVals_nonneg
        intro p hp
        rw [vnnL_iff] at hall
        have := hall p hp
        rw [vnn_eq] at this
        simp only [Bool.and_eq_true, decide_eq_true_eq] at this
        exact this.1
      simpa [sumOver] using this
  | cons c rest ih =>
      intro cs hnd hall
      have hnd' : rest.Nodup := hnd.of_cons
      have hc : c ∉ rest := by
        have := List.nodup_cons.mp hnd
        exact this.1
      simp only [sumOver]
      cases hl : lookupC cs c with
      | none =>
          simp only [childVal, hl]
          have := ih cs hnd' hall
          omega
      | some u =>
          simp only [childVal, hl]
          have he : sumOver (eraseC cs c) rest = sumOver cs rest :=
            sumOver_congr rest (fun c' hc' =>
              lookupC_eraseC_ne (fun hcc => hc (hcc ▸ hc')))
          have h1 : sumOver (eraseC cs c) rest ≤ sumVals (eraseC cs c) :=
            ih (eraseC cs c) hnd' (vnnL_eraseC hall)
          have h2 : sumVals (eraseC cs c) + u.value = sumVals cs :=
            sumVals_eraseC hl
          omega

theorem stealStep_nil (recur : Node → Int → Option (Node × Int × Int))
    (node : Node) (m changed : Int) :
    stealStep recur [] node m changed =
      (if 0 < node.value then
        (if min node.value (m / 2 + 1) ≤ 0 then none
         else some (Node.mk (node.value - min node.value (m / 2 + 1)) node.children,
           changed + min node.value (m / 2 + 1),
           m - 2 * min node.value (m / 2 + 1)))
       else some (node, changed, m)) := rfl

theorem stealStep_cons_none (recur : Node → Int → Option (Node × Int × Int))
    (c : Nat) (cs : List Nat) (node : Node) (m changed : Int)
    (h : lookupC node.children c = none) :
    stealStep recur (c :: cs) node m changed = stealStep recur cs node m changed := by
  simp only [stealStep, h]

theorem stealStep_cons_some (recur : Node → Int → Option (Node × Int × Int))
    (c : Nat) (cs : List Nat) (node : Node) (m changed : Int)
    (child child' : Node) (sub m' : Int)
    (h : lookupC node.children c = some child)
    (hr : recur child m = some (child', sub, m'))
    (hge : ¬ child'.value < 0) :
    stealStep recur (c :: cs) node m changed =
      (if m' < 0 then
        some (Node.mk (node.value - sub)
          (if child'.value = 0 then eraseC node.children c
           else replaceC node.children c child'), changed + sub, m')
       else stealStep recur cs
         (Node.mk (node.value - sub)
           (if child'.value = 0 then eraseC node.children c
            else replaceC node.children c child')) m' (changed + sub)) := by
  simp only [stealStep, h, hr, if_neg hge]

theorem stealStep_spec (recur : Node → Int → Option (Node × Int × Int))
    (fuelGuard : Nat)
    (IH : ∀ child m2, child.size ≤ fuelGuard → consV child = true → 0 ≤ m2 →
      StealOut child m2 0 (recur child m2)) :
    ∀ (pending : List Nat) (node : Node) (m changed : Int),
      pending.Nodup →
      (∀ c ∈ pending, ∀ ch, lookupC node.children c = some ch → consV ch = true) →
      (∀ c ∈ pending, ∀ ch, lookupC node.children c = some ch → ch.size ≤ fuelGuard) →
      sumOver node.children pending ≤ node.value →
      vnn node = true →
      0 ≤ m →
      StealOut node m changed (stealStep recur pending node m changed) := by
  intro pending
  induction pending with
  | nil =>
      intro node m changed _ _ _ hsum hvnn hm
      have hv0 : 0 ≤ node.value := by
        simpa [sumOver] using hsum
      have hvL : vnnL node.children = true := by
        rw [vnn_eq] at hvnn
        simp only [Bool.and_eq_true, decide_eq_true_eq] at hvnn
        exact hvnn.2
      rw [stealStep_nil]
      by_cases hpos : 0 < node.value
      · rw [if_pos hpos, if_neg (by omega)]
        refine ⟨_, min node.value (m / 2 + 1), _, rfl, by omega, by simp, ?_, ?_, ?_,
          by omega, ?_⟩
        · simp only [Node.value_mk]
          omega
        · simp only [vnn_mk, Bool.and_eq_true, decide_eq_true_eq]
          exact ⟨by omega, hvL⟩
        · rw [size_eq, size_eq]
          simp
        · simp only [Node.value_mk]
          omega
      · rw [if_neg hpos]
        exact ⟨node, 0, m, by simp, le_refl 0, by omega, by omega, hvnn,
          le_refl _, by omega, Or.inr (by omega)⟩
  | cons c cs ih =>
      intro node m changed hnd hconsv hszv hsum hvnn hm
      have hcnotin : c ∉ cs := (List.nodup_cons.mp hnd).1
      have hnd' : cs.Nodup := (List.nodup_cons.mp hnd).2
      have hvL : vnnL node.children = true := by
        rw [vnn_eq] at hvnn
        simp only [Bool.and_eq_true, decide_eq_true_eq] at hvnn
        exact hvnn.2
      have hv0 : 0 ≤ node.value := by
        rw [vnn_eq] at hvnn
        simp only [Bool.and_eq_true, decide_eq_true_eq] at hvnn
        exact hvnn.1
      have hsumcs : childVal node.children c + sumOver node.children cs ≤ node.value := by
        simpa [sumOver] using hsum
      cases hl : lookupC node.children c with
      | none =>
          rw [stealStep_cons_none recur c cs node m changed hl]
          refine ih node m changed hnd'
            (fun c' hc' ch hch => hconsv c' (List.mem_cons_of_mem _ hc') ch hch)
            (fun c' hc' ch hch => hszv c' (List.mem_cons_of_mem _ hc') ch hch)
            ?_ hvnn hm
          have : childVal node.children c = 0 := by
            simp [childVal, hl]
          omega
      | some child =>
          have hchildv : childVal node.children c = child.value := by
            simp [childVal, hl]
          have hso : StealOut child m 0 (recur child m) :=
            IH child m (hszv c (List.mem_cons_self _ _) child hl)
              (hconsv c (List.mem_cons_self _ _) child hl) hm
          obtain ⟨child', sub, m', hres, hsub0, hval, hval0, hvnnc, hszc, hm', _⟩ := hso
          rw [zero_add] at hres
          have hge : ¬ child'.value < 0 := by omega
          have hsub_le : sub ≤ child.value := by omega
          have hsOcs : 0 ≤ sumOver node.children cs := sumOver_nonneg cs hvL
          rw [stealStep_cons_some recur c cs node m changed child child' sub m' hl hres hge]
          have hlooks : ∀ c' ∈ cs,
              lookupC (if child'.value = 0 then eraseC node.children c
                else replaceC node.children c child') c' = lookupC node.children c' := by
            intro c' hc'
            have hne : c' ≠ c := fun hcc => hcnotin (hcc ▸ hc')
            by_cases hz : child'.value = 0
            · rw [if_pos hz]
              exact lookupC_eraseC_ne hne
            · rw [if_neg hz]
              exact lookupC_replaceC_ne child' hne
          have hvnnL' : vnnL (if child'.value = 0 then eraseC node.children c
              else replaceC node.children c child') = true := by
            by_cases hz : child'.value = 0
            · rw [if_pos hz]
              exact vnnL_eraseC hvL
            · rw [if_neg hz]
              exact vnnL_replaceC hvL hvnnc
          have hszL' : sizeL (if child'.value = 0 then eraseC node.children c
              else replaceC node.children c child') ≤ sizeL node.children := by
            by_cases hz : child'.value = 0
            · rw [if_pos hz]
              exact sizeL_eraseC_le _ _
            · rw [if_neg hz]
              exact sizeL_replaceC_le hl hszc
          by_cases hm'neg : m' < 0
          · rw [if_pos hm'neg]
            refine ⟨_, sub, m', rfl, hsub0, by simp, ?_, ?_, ?_, hm', Or.inl hm'neg⟩
            · simp only [Node.value_mk]
              omega
            · simp only [vnn_mk, Bool.and_eq_true, decide_eq_true_eq]
              exact ⟨by omega, hvnnL'⟩
            · rw [size_eq, size_eq]
              simp only [Node.children_mk]
              omega
          · rw [if_neg hm'neg]
            have hrec := ih (Node.mk (node.value - sub)
                (if child'.value = 0 then eraseC node.children c
                 else replaceC node.children c child')) m' (changed + sub) hnd'
              (fun c' hc' ch hch => by
                rw [Node.children_mk, hlooks c' hc'] at hch
                exact hconsv c' (List.mem_cons_of_mem _ hc') ch hch)
              (fun c' hc' ch hch => by
                rw [Node.children_mk, hlooks c' hc'] at hch
                exact hszv c' (List.mem_cons_of_mem _ hc') ch hch)
              (by
                rw [Node.children_mk, Node.value_mk, sumOver_congr cs hlooks]
                omega)
              (by
                simp only [vnn_mk, Bool.and_eq_true, decide_eq_true_eq]
                exact ⟨by omega, hvnnL'⟩)
              (by omega)
            obtain ⟨n'', d2, m'', hres2, hd2, hval2, hval02, hvnn2, hsz2, hm2, hdi2⟩ := hrec
            refine ⟨n'', sub + d2, m'', ?_, by omega, ?_, hval02, hvnn2, ?_, by omega, hdi2⟩
            · rw [add_assoc] at hres2
              exact hres2
            · rw [Node.value_mk] at hval2
              omega
            · refine le_trans hsz2 ?_
              rw [size_eq, size_eq]
              simp only [Node.children_mk]
              omega

/-- The fueled `_steal_votes` meets its frame postcondition whenever the
fuel covers the subtree size, the subtree is consistent, the steal order
has no duplicates, and the margin is nonnegative. -/
theorem stealVotesF_spec (order : List Nat) (hord : order.Nodup) :
    ∀ (fuel : Nat) (node : Node) (m : Int), node.size ≤ fuel →
      consV node = true → 0 ≤ m →
      StealOut node m 0 (stealVotesF order fuel node m) := by
  intro fuel
  induction fuel with
  | zero =>
      intro node m hsz
      have := size_pos node
      omega
  | succ fuel ihf =>
      intro node m hsz hcons hm
      have hvnn : vnn node = true := consV_vnn node hcons
      have hvL : vnnL node.children = true := by
        rw [vnn_eq] at hvnn
        simp only [Bool.and_eq_true, decide_eq_true_eq] at hvnn
        exact hvnn.2
      have hcsv : consVL node.children = true := by
        rw [consV_eq] at hcons
        simp only [Bool.and_eq_true, decide_eq_true_eq] at hcons
        exact hcons.2
      have hsumv : sumVals node.children ≤ node.value := by
        rw [consV_eq] at hcons
        simp only [Bool.and_eq_true, decide_eq_true_eq] at hcons
        exact hcons.1
      show StealOut node m 0 (stealStep (stealVotesF order fuel) order node m 0)
      refine stealStep_spec (stealVotesF order fuel) fuel
        (fun child m2 hsc hcc hm2 => ihf child m2 hsc hcc hm2)
        order node m 0 hord
        (fun c _ ch hch => consVL_lookup hcsv hch)
        (fun c _ ch hch => ?_)
        (le_trans (sumOver_le_sumVals order node.children hord hvL) hsumv)
        hvnn hm
      have h1 : ch.size < node.size := size_snd_lt (lookupC_mem hch)
      omega

theorem lookupC_append_left {cs : List (Nat × Node)} {c : Nat} {u : Node}
    (ds : List (Nat × Node)) (h : lookupC cs c = some u) :
    lookupC (cs ++ ds) c = some u := by
  induction cs with
  | nil => simp [lookupC] at h
  | cons p rest ih =>
      obtain ⟨a, b⟩ := p
      simp only [lookupC] at h ⊢
      by_cases ha : a = c
      · rwa [if_pos ha] at h ⊢
      · rw [if_neg ha] at h ⊢
        exact ih h

theorem lookupC_append_none {cs : List (Nat × Node)} {c : Nat}
    (ds : List (Nat × Node)) (h : lookupC cs c = none) :
    lookupC (cs ++ ds) c = lookupC ds c := by
  induction cs with
  | nil => simp
  | cons p rest ih =>
      obtain ⟨a, b⟩ := p
      simp only [lookupC] at h ⊢
      by_cases ha : a = c
      · rw [if_pos ha] at h
        exact absurd h (by simp)
      · rw [if_neg ha] at h ⊢
        exact ih h

theorem lookupC_replaceC_self {cs : List (Nat × Node)} {c : Nat} {u : Node}
    (n' : Node) (h : lookupC cs c = some u) :
    lookupC (replaceC cs c n') c = some n' := by
  induction cs with
  | nil => simp [lookupC] at h
  | cons p rest ih =>
      obtain ⟨a, b⟩ := p
      simp only [lookupC] at h
      by_cases ha : a = c
      · simp only [replaceC, if_pos ha, lookupC, if_pos ha]
      · rw [if_neg ha] at h
        simp only [replaceC, if_neg ha, lookupC, if_neg ha]
        exact ih h

theorem vnnL_append {cs ds : List (Nat × Node)} (hcs : vnnL cs = true)
    (hds : vnnL ds = true) : vnnL (cs ++ ds) = true := by
  rw [vnnL_iff] at hcs hds ⊢
  intro p hp
  rcases List.mem_append.mp hp with h | h
  · exact hcs p h
  · exact hds p h

/-- The relation between `get_child` and the updated parent: the child is
found in the parent, the parent's value is unchanged, other keys look up
unchanged, and nonnegativity and consistency transfer. -/
theorem getChildIns_spec (t : Node) (c : Nat) :
    lookupC (getChildIns t c).2.children c = some (getChildIns t c).1 ∧
    (getChildIns t c).2.value = t.value ∧
    (∀ c', c' ≠ c → lookupC (getChildIns t c).2.children c' = lookupC t.children c') ∧
    (vnn t = true → vnn (getChildIns t c).2 = true) ∧
    (consV t = true → consV (getChildIns t c).1 = true) := by
  cases hl : lookupC t.children c with
  | some ch =>
      have hg : getChildIns t c = (ch, t) := by
        simp [getChildIns, hl]
      rw [hg]
      refine ⟨hl, rfl, fun c' _ => rfl, fun h => h, fun h => ?_⟩
      rw [consV_eq] at h
      simp only [Bool.and_eq_true, decide_eq_true_eq] at h
      exact consVL_lookup h.2 hl
  | none =>
      have hg : getChildIns t c =
          (Node.mk 0 [], Node.mk t.value (t.children ++ [(c, Node.mk 0 [])])) := by
        simp [getChildIns, hl]
      rw [hg]
      refine ⟨?_, rfl, fun c' hc' => ?_, fun h => ?_, fun _ => rfl⟩
      · simp only [Node.children_mk]
        rw [lookupC_append_none _ hl]
        simp [lookupC]
      · simp only [Node.children_mk]
        cases hl' : lookupC t.children c' with
        | some u => exact lookupC_append_left _ hl'
        | none =>
            rw [lookupC_append_none _ hl']
            simp only [lookupC]
            rw [if_neg (fun hcc => hc' hcc.symm)]
      · rw [vnn_eq] at h
        simp only [Bool.and_eq_true, decide_eq_true_eq] at h
        simp only [vnn_mk, Node.children_mk, Bool.and_eq_true, decide_eq_true_eq]
        exact ⟨h.1, vnnL_append h.2 rfl⟩

theorem getChildIns_fst_value (t : Node) (c : Nat) :
    (getChildIns t c).1.value = childVal t.children c := by
  cases hl : lookupC t.children c with
  | some ch => simp [getChildIns, childVal, hl]
  | none => simp [getChildIns, childVal, hl]

theorem getChildIns_fst_vnn (t : Node) (c : Nat) (h : vnn t = true) :
    vnn (getChildIns t c).1 = true := by
  cases hl : lookupC t.children c with
  | some ch =>
      simp only [getChildIns, hl]
      rw [vnn_eq] at h
      simp only [Bool.and_eq_true] at h
      rw [vnnL_iff] at *
      exact h.2 _ (lookupC_mem hl)
  | none => simp [getChildIns, hl]

/-- Claim C7 (amended): with a consistent ballot tree, a nonnegative
margin, `j` in the first elimination set, `k` present in the steal order
(as at every call site), no duplicates in the steal order, and `j ≠ k`,
`_modify_margin` succeeds — its assertions never fire — returning
`changed ≥ 0`; all node values stay nonnegative, `j`'s first-round tally
grows by exactly `changed` (a net margin shift of `2·changed`), and the
shift strictly exceeds `m` unless `k`'s subtree was drained (its child's
value reaching 0), in which case it may fall short. -/
theorem C7_modify_margin (root : Node) (m : Int) (j k w : Nat)
    (e0 : List Nat) (rest : List (List Nat))
    (hcons : consV root = true)
    (hj : j ∈ e0) (hm : 0 ≤ m) (hjk : j ≠ k)
    (hkpre : k ∈ stealPre e0 rest j w)
    (hnd : (stealPre e0 rest j w).Nodup) :
    ∃ (root2 : Node) (changed : Int),
      modifyMargin root m j k (e0 :: rest) w = some (root2, changed) ∧
      0 ≤ changed ∧ vnn root2 = true ∧
      childVal root2.children j = childVal root.children j + changed ∧
      (m < 2 * changed ∨ childVal root2.children k = 0) := by
  obtain ⟨hk1, hv1, hothers1, hvnn1, hconskc⟩ := getChildIns_spec root k
  have hvnnroot : vnn root = true := consV_vnn root hcons
  have hordnd : ((stealPre e0 rest j w).erase k).Nodup := hnd.erase k
  have hso := stealVotesF_spec ((stealPre e0 rest j w).erase k) hordnd
    (getChildIns root k).1.size (getChildIns root k).1 m (le_refl _)
    (hconskc hcons) hm
  obtain ⟨kc', d, m', hres, hd0, hval, hval0, hvnnkc, hszkc, hm', hdi⟩ := hso
  rw [zero_add] at hres
  have hkj : k ≠ j := fun h => hjk h.symm
  set root1 := (getChildIns root k).2 with hr1
  have hvnn1' : vnn root1 = true := hvnn1 hvnnroot
  have hv1nn : 0 ≤ root1.value := by
    rw [hv1]
    exact consV_nonneg root hcons
  have hvnnL1 : vnnL root1.children = true := by
    rw [vnn_eq] at hvnn1'
    simp only [Bool.and_eq_true, decide_eq_true_eq] at hvnn1'
    exact hvnn1'.2
  simp only [modifyMargin, hj, hm, hkpre, if_true, hres]
  set root2 := Node.mk root1.value (replaceC root1.children k kc') with hr2
  have hvnn2 : vnn root2 = true := by
    rw [hr2]
    simp only [vnn_mk, Bool.and_eq_true, decide_eq_true_eq]
    exact ⟨hv1nn, vnnL_replaceC hvnnL1 hvnnkc⟩
  have hlookup2k : lookupC root2.children k = some kc' := by
    rw [hr2]
    simp only [Node.children_mk]
    exact lookupC_replaceC_self _ hk1
  have hchild2j : childVal root2.children j = childVal root.children j := by
    rw [hr2]
    simp only [Node.children_mk, childVal]
    rw [lookupC_replaceC_ne _ hjk, hothers1 j hjk]
  by_cases hdpos : 0 < d
  · simp only [if_pos hdpos]
    obtain ⟨hk2, hv2, hothers2, hvnn2t, _⟩ := getChildIns_spec root2 j
    set jc := (getChildIns root2 j).1 with hjc
    set root3 := (getChildIns root2 j).2 with hr3
    have hjcval : jc.value = childVal root2.children j := getChildIns_fst_value root2 j
    have hvnnjc : vnn jc = true := getChildIns_fst_vnn root2 j hvnn2
    have hjcv0 : 0 ≤ jc.value := by
      rw [vnn_eq] at hvnnjc
      simp only [Bool.and_eq_true, decide_eq_true_eq] at hvnnjc
      exact hvnnjc.1
    have hjcL : vnnL jc.children = true := by
      rw [vnn_eq] at hvnnjc
      simp only [Bool.and_eq_true, decide_eq_true_eq] at hvnnjc
      exact hvnnjc.2
    have hvnn3 : vnn root3 = true := hvnn2t hvnn2
    have hv3nn : 0 ≤ root3.value := by
      rw [vnn_eq] at hvnn3
      simp only [Bool.and_eq_true, decide_eq_true_eq] at hvnn3
      exact hvnn3.1
    have hvnnL3 : vnnL root3.children = true := by
      rw [vnn_eq] at hvnn3
      simp only [Bool.and_eq_true, decide_eq_true_eq] at hvnn3
      exact hvnn3.2
    refine ⟨_, d, rfl, hd0, ?_, ?_, ?_⟩
    · simp only [vnn_mk, Bool.and_eq_true, decide_eq_true_eq]
      refine ⟨hv3nn, vnnL_replaceC hvnnL3 ?_⟩
      simp only [vnn_mk, Bool.and_eq_true, decide_eq_true_eq]
      exact ⟨by omega, hjcL⟩
    · simp only [Node.children_mk, childVal]
      rw [lookupC_replaceC_self _ hk2]
      simp only [Node.value_mk]
      rw [hjcval]
      rw [hchild2j] at *
      simp [childVal]
    · rcases hdi with hlt | hzero
      · exact Or.inl (by omega)
      · refine Or.inr ?_
        simp only [Node.children_mk, childVal]
        rw [lookupC_replaceC_ne _ hkj, hothers2 k hkj, hlookup2k]
        exact hzero
  · simp only [if_neg hdpos]
    have hd_eq : d = 0 := by omega
    subst hd_eq
    refine ⟨root2, 0, rfl, le_refl 0, hvnn2, by rw [hchild2j]; omega, ?_⟩
    refine Or.inr ?_
    rcases hdi with hlt | hzero
    · omega
    · simp only [childVal]
      rw [hlookup2k]
      exact hzero

/-- Counterexample to claim C7: with both preconditions satisfied
(`j = 1` lies in the first elimination set and `m = 10 ≥ 0`), stealing
from candidate `k = 2`, whose subtree holds no ballots, changes 0
ballots, so the net margin shift `2·changed = 0` does not strictly
exceed `m = 10`. -/
theorem C7_counterexample :
    (1 ∈ ([1] : List Nat)) ∧ ((0 : Int) ≤ 10) ∧
    modifyMargin (Node.mk 3 [(1, Node.mk 3 []), (2, Node.mk 0 [])]) 10 1 2 [[1]] 2 =
      some (Node.mk 3 [(1, Node.mk 3 []), (2, Node.mk 0 [])], 0) ∧
    ¬ ((10 : Int) < 2 * 0) :=
  ⟨by decide, by decide, rfl, by decide⟩

/-- Witness for C7: one ballot is stolen from `k = 2` and credited to
`j = 1`, overshooting the margin `m = 1`. -/
theorem C7_modify_margin_witness :
    consV (Node.mk 3 [(1, Node.mk 1 []), (2, Node.mk 2 [])]) = true ∧
    (stealPre [1] [] 1 2).Nodup ∧
    (∃ (root2 : Node) (changed : Int),
      modifyMargin (Node.mk 3 [(1, Node.mk 1 []), (2, Node.mk 2 [])]) 1 1 2 [[1]] 2 =
        some (root2, changed) ∧
      0 ≤ changed ∧ vnn root2 = true ∧
      childVal root2.children 1 =
        childVal (Node.mk 3 [(1, Node.mk 1 []), (2, Node.mk 2 [])]).children 1 + changed ∧
      ((1 : Int) < 2 * changed ∨ childVal root2.children 2 = 0)) :=
  ⟨by decide, by decide,
    C7_modify_margin (Node.mk 3 [(1, Node.mk 1 []), (2, Node.mk 2 [])]) 1 1 2 2 [1] []
      (by decide) (by decide) (by decide) (by decide) (by decide) (by decide)⟩

@[simp] theorem scopedB_mk (cs : List Nat) (v : Int) (chs : List (Nat × Node)) :
    scopedB cs (Node.mk v chs) = scopedL cs chs := rfl

@[simp] theorem scopedL_nil (cs : List Nat) : scopedL cs [] = true := rfl

@[simp] theorem scopedL_cons (cs : List Nat) (k : Nat) (u : Node)
    (rest : List (Nat × Node)) :
    scopedL cs ((k, u) :: rest) =
      (cs.contains k && scopedB (cs.erase k) u && scopedL cs rest) := rfl

@[simp] theorem avoidT_mk (a b : Nat) (v : Int) (chs : List (Nat × Node)) :
    avoidT a b (Node.mk v chs) = (v - sumVals chs) + avoidTL a b chs := rfl

@[simp] theorem avoidTL_nil (a b : Nat) : avoidTL a b [] = 0 := rfl

@[simp] theorem avoidTL_cons (a b k : Nat) (u : Node) (rest : List (Nat × Node)) :
    avoidTL a b ((k, u) :: rest) =
      (if k = a ∨ k = b then 0 else avoidT a b u) + avoidTL a b rest := rfl

@[simp] theorem keysIn_mk (allowed : List Nat) (v : Int) (chs : List (Nat × Node)) :
    keysIn allowed (Node.mk v chs) = keysInL allowed chs := rfl

@[simp] theorem keysInL_nil (allowed : List Nat) : keysInL allowed [] = true := rfl

@[simp] theorem keysInL_cons (allowed : List Nat) (k : Nat) (u : Node)
    (rest : List (Nat × Node)) :
    keysInL allowed ((k, u) :: rest) =
      (allowed.contains k && keysIn allowed u && keysInL allowed rest) := rfl

theorem scopedB_eq (cs : List Nat) (t : Node) :
    scopedB cs t = scopedL cs t.children := by
  cases t
  rfl

theorem avoidT_eq (a b : Nat) (t : Node) :
    avoidT a b t = (t.value - sumVals t.children) + avoidTL a b t.children := by
  cases t
  rfl

theorem keysIn_eq (allowed : List Nat) (t : Node) :
    keysIn allowed t = keysInL allowed t.children := by
  cases t
  rfl

theorem scopedL_iff (cs : List Nat) (chs : List (Nat × Node)) :
    scopedL cs chs = true ↔
      ∀ p : Nat × Node, p ∈ chs → p.1 ∈ cs ∧ scopedB (cs.erase p.1) p.2 = true := by
  induction chs with
  | nil => simp
  | cons p rest ih =>
      obtain ⟨k, u⟩ := p
      simp only [scopedL_cons, Bool.and_eq_true, List.mem_cons, containsB_iff, ih]
      constructor
      · rintro ⟨⟨hk, hu⟩, hrest⟩ q (hq | hq)
        · subst hq
          exact ⟨hk, hu⟩
        · exact hrest q hq
      · intro h
        exact ⟨⟨(h (k, u) (Or.inl rfl)).1, (h (k, u) (Or.inl rfl)).2⟩,
          fun q hq => h q (Or.inr hq)⟩

theorem keysInL_iff (allowed : List Nat) (chs : List (Nat × Node)) :
    keysInL allowed chs = true ↔
      ∀ p : Nat × Node, p ∈ chs → p.1 ∈ allowed ∧ keysIn allowed p.2 = true := by
  induction chs with
  | nil => simp
  | cons p rest ih =>
      obtain ⟨k, u⟩ := p
      simp only [keysInL_cons, Bool.and_eq_true, List.mem_cons, containsB_iff, ih]
      constructor
      · rintro ⟨⟨hk, hu⟩, hrest⟩ q (hq | hq)
        · subst hq
          exact ⟨hk, hu⟩
        · exact hrest q hq
      · intro h
        exact ⟨⟨(h (k, u) (Or.inl rfl)).1, (h (k, u) (Or.inl rfl)).2⟩,
          fun q hq => h q (Or.inr hq)⟩

theorem scopedL_lookup {cs : List Nat} {chs : List (Nat × Node)} {c : Nat} {ch : Node}
    (h : scopedL cs chs = true) (hl : lookupC chs c = some ch) :
    c ∈ cs ∧ scopedB (cs.erase c) ch = true := by
  rw [scopedL_iff] at h
  exact h _ (lookupC_mem hl)

theorem avoidT_nonneg (a b : Nat) : ∀ t : Node, consV t = true → 0 ≤ avoidT a b t := by
  apply node_size_ind (fun t => consV t = true → 0 ≤ avoidT a b t)
  intro t ih hc
  rw [consV_eq] at hc
  simp only [Bool.and_eq_true, decide_eq_true_eq] at hc
  obtain ⟨hsum, hch⟩ := hc
  rw [consVL_iff] at hch
  rw [avoidT_eq]
  have hl : 0 ≤ avoidTL a b t.children := by
    have : ∀ chs : List (Nat × Node),
        (∀ p : Nat × Node, p ∈ chs → consV p.2 = true ∧ p.2.size < t.size) →
        0 ≤ avoidTL a b chs := by
      intro chs
      induction chs with
      | nil => simp
      | cons p rest ihc =>
          obtain ⟨k, u⟩ := p
          intro hall
          simp only [avoidTL_cons]
          have h1 : 0 ≤ if k = a ∨ k = b then 0 else avoidT a b u := by
            by_cases hk : k = a ∨ k = b
            · rw [if_pos hk]
            · rw [if_neg hk]
              have := hall (k, u) (List.mem_cons_self _ _)
              exact ih u this.2 this.1
          have h2 := ihc (fun q hq => hall q (List.mem_cons_of_mem _ hq))
          omega
    exact this t.children
      (fun p hp => ⟨hch p hp, size_snd_lt hp⟩)
  omega

theorem scoped_of_keysIn_ndp :
    ∀ (t : Node) (cs banned full : List Nat), keysIn full t = true →
      ndp banned t = true → cs.Nodup →
      (∀ x, x ∈ cs ↔ x ∈ full ∧ x ∉ banned) → scopedB cs t = true := by
  apply node_size_ind (fun t => ∀ (cs banned full : List Nat), keysIn full t = true →
    ndp banned t = true → cs.Nodup →
    (∀ x, x ∈ cs ↔ x ∈ full ∧ x ∉ banned) → scopedB cs t = true)
  intro t ih cs banned full hkeys hndp hnd hiff
  rw [keysIn_eq, keysInL_iff] at hkeys
  rw [ndp_eq, ndpL_iff] at hndp
  rw [scopedB_eq, scopedL_iff]
  intro p hp
  obtain ⟨hkfull, hkin⟩ := hkeys p hp
  obtain ⟨hkban, hkndp⟩ := hndp p hp
  have hkban' : p.1 ∉ banned := (containsB_false_iff _ _).mp hkban
  have hmem : p.1 ∈ cs := (hiff p.1).mpr ⟨hkfull, hkban'⟩
  refine ⟨hmem, ih p.2 (size_snd_lt hp) (cs.erase p.1) (p.1 :: banned) full hkin hkndp
    (hnd.erase _) ?_⟩
  intro x
  rw [hnd.mem_erase_iff, hiff x, List.mem_cons]
  constructor
  · rintro ⟨hxne, hxf, hxb⟩
    exact ⟨hxf, fun h => h.elim hxne hxb⟩
  · rintro ⟨hxf, hxb⟩
    exact ⟨fun h => hxb (Or.inl h), hxf, fun h => hxb (Or.inr h)⟩

@[simp] theorem treeToMapN_mk (v : Int) (cs : List (Nat × Node)) (pfx : List Nat) :
    treeToMapN (Node.mk v cs) pfx =
      treeToMapL cs pfx ++ (if sumVals cs < v then [(pfx, v - sumVals cs)] else []) := rfl

@[simp] theorem treeToMapL_nil (pfx : List Nat) : treeToMapL [] pfx = [] := rfl

@[simp] theorem treeToMapL_cons (c : Nat) (n : Node) (rest : List (Nat × Node))
    (pfx : List Nat) :
    treeToMapL ((c, n) :: rest) pfx =
      treeToMapN n (pfx ++ [c]) ++ treeToMapL rest pfx := rfl

@[simp] theorem avoidSum_nil (a b : Nat) : avoidSum a b [] = 0 := rfl

theorem avoidSum_append (a b : Nat) (l1 l2 : List (List Nat × Int)) :
    avoidSum a b (l1 ++ l2) = avoidSum a b l1 + avoidSum a b l2 := by
  simp [avoidSum]

theorem avoidSum_cons (a b : Nat) (p : List Nat × Int) (l : List (List Nat × Int)) :
    avoidSum a b (p :: l) =
      (if a ∈ p.1 ∨ b ∈ p.1 then 0 else p.2) + avoidSum a b l := by
  simp [avoidSum]

theorem treeToMap_pos :
    ∀ (t : Node) (pfx : List Nat) (p : List Nat × Int),
      p ∈ treeToMapN t pfx → 0 < p.2 := by
  apply node_size_ind (fun t => ∀ (pfx : List Nat) (p : List Nat × Int),
    p ∈ treeToMapN t pfx → 0 < p.2)
  intro t ih pfx p hp
  obtain ⟨v, cs⟩ := t
  simp only [treeToMapN_mk, List.mem_append] at hp
  rcases hp with hp | hp
  · have hlist : ∀ (cs' : List (Nat × Node)) (pfx' : List Nat),
        (∀ q : Nat × Node, q ∈ cs' → q.2.size < (Node.mk v cs).size) →
        ∀ p' : List Nat × Int, p' ∈ treeToMapL cs' pfx' → 0 < p'.2 := by
      intro cs'
      induction cs' with
      | nil => simp
      | cons q rest ihc =>
          obtain ⟨c, n⟩ := q
          intro pfx' hsz p' hp'
          simp only [treeToMapL_cons, List.mem_append] at hp'
          rcases hp' with hp' | hp'
          · exact ih n (hsz (c, n) (List.mem_cons_self _ _)) _ p' hp'
          · exact ihc pfx' (fun q hq => hsz q (List.mem_cons_of_mem _ hq)) p' hp'
    exact hlist cs pfx (fun q hq => size_snd_lt hq) p hp
  · by_cases hres : sumVals cs < v
    · rw [if_pos hres] at hp
      simp only [List.mem_singleton] at hp
      subst hp
      simp only []
      omega
    · rw [if_neg hres] at hp
      simp at hp

theorem treeToMap_prefix_mem :
    ∀ (t : Node) (pfx : List Nat) (p : List Nat × Int),
      p ∈ treeToMapN t pfx → ∀ x ∈ pfx, x ∈ p.1 := by
  apply node_size_ind (fun t => ∀ (pfx : List Nat) (p : List Nat × Int),
    p ∈ treeToMapN t pfx → ∀ x ∈ pfx, x ∈ p.1)
  intro t ih pfx p hp x hx
  obtain ⟨v, cs⟩ := t
  simp only [treeToMapN_mk, List.mem_append] at hp
  rcases hp with hp | hp
  · have hlist : ∀ (cs' : List (Nat × Node)) (pfx' : List Nat),
        (∀ q : Nat × Node, q ∈ cs' → q.2.size < (Node.mk v cs).size) →
        ∀ p' : List Nat × Int, p' ∈ treeToMapL cs' pfx' →
        ∀ x' ∈ pfx', x' ∈ p'.1 := by
      intro cs'
      induction cs' with
      | nil => simp
      | cons q rest ihc =>
          obtain ⟨c, n⟩ := q
          intro pfx' hsz p' hp' x' hx'
          simp only [treeToMapL_cons, List.mem_append] at hp'
          rcases hp' with hp' | hp'
          · exact ih n (hsz (c, n) (List.mem_cons_self _ _)) _ p' hp' x'
              (List.mem_append.mpr (Or.inl hx'))
          · exact ihc pfx' (fun q hq => hsz q (List.mem_cons_of_mem _ hq)) p' hp' x' hx'
    exact hlist cs pfx (fun q hq => size_snd_lt hq) p hp x hx
  · by_cases hres : sumVals cs < v
    · rw [if_pos hres] at hp
      simp only [List.mem_singleton] at hp
      subst hp
      exact hx
    · rw [if_neg hres] at hp
      simp at hp

theorem avoidSum_zero_of_all (a b : Nat) (l : List (List Nat × Int))
    (h : ∀ p ∈ l, a ∈ p.1 ∨ b ∈ p.1) : avoidSum a b l = 0 := by
  induction l with
  | nil => rfl
  | cons p rest ih =>
      rw [avoidSum_cons, if_pos (h p (List.mem_cons_self _ _)),
        ih (fun q hq => h q (List.mem_cons_of_mem _ hq))]
      omega

theorem avoidSum_eq_zero_iff (a b : Nat) (l : List (List Nat × Int))
    (hpos : ∀ p ∈ l, 0 < p.2) :
    avoidSum a b l = 0 ↔ ∀ p ∈ l, a ∈ p.1 ∨ b ∈ p.1 := by
  induction l with
  | nil => simp
  | cons p rest ih =>
      rw [avoidSum_cons]
      have hrest := ih (fun q hq => hpos q (List.mem_cons_of_mem _ hq))
      have hrnn : 0 ≤ avoidSum a b rest := by
        have : ∀ l' : List (List Nat × Int), (∀ p' ∈ l', 0 ≤ p'.2) →
            0 ≤ avoidSum a b l' := by
          intro l'
          induction l' with
          | nil => simp
          | cons q qr ihq =>
              intro h
              rw [avoidSum_cons]
              have h1 : 0 ≤ if a ∈ q.1 ∨ b ∈ q.1 then 0 else q.2 := by
                by_cases hq : a ∈ q.1 ∨ b ∈ q.1
                · rw [if_pos hq]
                · rw [if_neg hq]
                  exact h q (List.mem_cons_self _ _)
              have h2 := ihq (fun q' hq' => h q' (List.mem_cons_of_mem _ hq'))
              omega
        exact this rest (fun q hq => le_of_lt (hpos q (List.mem_cons_of_mem _ hq)))
      constructor
      · intro h0
        by_cases hp : a ∈ p.1 ∨ b ∈ p.1
        · rw [if_pos hp] at h0
          intro q hq
          rcases List.mem_cons.mp hq with hq' | hq'
          · exact hq' ▸ hp
          · exact hrest.mp (by omega) q hq'
        · rw [if_neg hp] at h0
          have := hpos p (List.mem_cons_self _ _)
          omega
      · intro hall
        rw [if_pos (hall p (List.mem_cons_self _ _)),
          hrest.mpr (fun q hq => hall q (List.mem_cons_of_mem _ hq))]
        omega

theorem avoidSum_treeToMap (a b : Nat) :
    ∀ (t : Node) (pfx : List Nat), consV t = true → a ∉ pfx → b ∉ pfx →
      avoidSum a b (treeToMapN t pfx) = avoidT a b t := by
  apply node_size_ind (fun t => ∀ (pfx : List Nat), consV t = true →
    a ∉ pfx → b ∉ pfx → avoidSum a b (treeToMapN t pfx) = avoidT a b t)
  intro t ih pfx hcons ha hb
  obtain ⟨v, cs⟩ := t
  simp only [consV_mk, Bool.and_eq_true, decide_eq_true_eq] at hcons
  obtain ⟨hsum, hch⟩ := hcons
  rw [consVL_iff] at hch
  simp only [treeToMapN_mk, avoidT_mk]
  rw [avoidSum_append]
  have hres : avoidSum a b (if sumVals cs < v then [(pfx, v - sumVals cs)] else []) =
      v - sumVals cs := by
    by_cases h : sumVals cs < v
    · rw [if_pos h, avoidSum_cons]
      simp only [avoidSum_nil]
      rw [if_neg (fun hor => hor.elim ha hb)]
      omega
    · rw [if_neg h]
      simp only [avoidSum_nil]
      omega
  rw [hres]
  have hlist : ∀ (cs' : List (Nat × Node)) (pfx' : List Nat),
      (∀ q : Nat × Node, q ∈ cs' → q.2.size < (Node.mk v cs).size ∧ consV q.2 = true) →
      a ∉ pfx' → b ∉ pfx' →
      avoidSum a b (treeToMapL cs' pfx') = avoidTL a b cs' := by
    intro cs'
    induction cs' with
    | nil => simp
    | cons q rest ihc =>
        obtain ⟨c, n⟩ := q
        intro pfx' hprops ha' hb'
        simp only [treeToMapL_cons, avoidTL_cons]
        rw [avoidSum_append]
        have hrest := ihc pfx' (fun q hq => hprops q (List.mem_cons_of_mem _ hq)) ha' hb'
        rw [hrest]
        by_cases hc : c = a ∨ c = b
        · rw [if_pos hc]
          have hcmem : ∀ p ∈ treeToMapN n (pfx' ++ [c]), c ∈ p.1 := fun p hp =>
            treeToMap_prefix_mem n _ p hp c
              (List.mem_append.mpr (Or.inr (List.mem_singleton.mpr rfl)))
          have hzero : avoidSum a b (treeToMapN n (pfx' ++ [c])) = 0 := by
            apply avoidSum_zero_of_all
            intro p hp
            rcases hc with hc | hc
            · exact Or.inl (hc ▸ hcmem p hp)
            · exact Or.inr (hc ▸ hcmem p hp)
          omega
        · rw [if_neg hc]
          push_neg at hc
          have hprop := hprops (c, n) (List.mem_cons_self _ _)
          have hna : a ∉ pfx' ++ [c] := by
            intro hmem
            rcases List.mem_append.mp hmem with h | h
            · exact ha' h
            · exact hc.1 (List.mem_singleton.mp h).symm
          have hnb : b ∉ pfx' ++ [c] := by
            intro hmem
            rcases List.mem_append.mp hmem with h | h
            · exact hb' h
            · exact hc.2 (List.mem_singleton.mp h).symm
          rw [ih n hprop.1 _ hprop.2 hna hnb]
  rw [hlist cs pfx (fun q hq => ⟨size_snd_lt hq, hch q hq⟩) ha hb]
  omega

theorem addChildF_zero (n : Node) (who : Nat) (cs : List Nat) (m : CMat) :
    addChildF 0 n who cs m = m := rfl

theorem addChildF_succ (fuel : Nat) (n : Node) (who : Nat) (cs : List Nat) (m : CMat) :
    addChildF (fuel + 1) n who cs m =
      ((if who ∈ cs then cs.erase who else cs).filter
          (fun c => (keysOf n.children).contains c)).foldl
        (addChildGo (addChildF fuel) n.children
          (if who ∈ cs then cs.erase who else cs))
        (addRow m (who - 1)
          ((if who ∈ cs then cs.erase who else cs).map (fun c => c - 1)) n.value) := rfl

theorem addChildGo_none (recur : Node → Nat → List Nat → CMat → CMat)
    (chs : List (Nat × Node)) (cs1 : List Nat) (acc : CMat) (c : Nat)
    (h : lookupC chs c = none) : addChildGo recur chs cs1 acc c = acc := by
  simp [addChildGo, h]

theorem addChildGo_some (recur : Node → Nat → List Nat → CMat → CMat)
    (chs : List (Nat × Node)) (cs1 : List Nat) (acc : CMat) (c : Nat) (ch : Node)
    (h : lookupC chs c = some ch) : addChildGo recur chs cs1 acc c = recur ch c cs1 acc := by
  simp [addChildGo, h]

theorem mem_map_sub1 {x : Nat} {l : List Nat} (hx : 1 ≤ x)
    (hl : ∀ y ∈ l, 1 ≤ y) :
    (x - 1) ∈ l.map (fun c => c - 1) ↔ x ∈ l := by
  constructor
  · intro h
    obtain ⟨y, hy, hyx⟩ := List.mem_map.mp h
    have := hl y hy
    have : y = x := by omega
    exact this ▸ hy
  · intro h
    exact List.mem_map.mpr ⟨x, h, rfl⟩

theorem pairAt_addRow (a b who : Nat) (ha : 1 ≤ a) (hb : 1 ≤ b) (hab : a ≠ b)
    (hwho : 1 ≤ who) (cs1 : List Nat) (hcs : ∀ x ∈ cs1, 1 ≤ x) (m : CMat) (v : Int) :
    pairAt a b (addRow m (who - 1) (cs1.map (fun c => c - 1)) v) =
      pairAt a b m + (if who = a ∧ b ∈ cs1 then v else 0) +
        (if who = b ∧ a ∈ cs1 then v else 0) := by
  have hmb := mem_map_sub1 hb hcs
  have hma := mem_map_sub1 ha hcs
  simp only [pairAt, addRow]
  by_cases h1 : who = a
  · have hidx1 : a - 1 = who - 1 := by omega
    have hne2 : ¬ (b - 1 = who - 1) := by omega
    have hne3 : ¬ (who = b ∧ a ∈ cs1) := fun hcon => hab (h1.symm.trans hcon.1)
    by_cases hbm : b ∈ cs1
    · rw [if_pos ⟨hidx1, hmb.mpr hbm⟩, if_neg (fun hcon => hne2 hcon.1),
        if_pos ⟨h1, hbm⟩, if_neg hne3]
      omega
    · rw [if_neg (fun hcon => hbm (hmb.mp hcon.2)), if_neg (fun hcon => hne2 hcon.1),
        if_neg (fun hcon => hbm hcon.2), if_neg hne3]
      omega
  · by_cases h2 : who = b
    · have hidx2 : b - 1 = who - 1 := by omega
      have hne1 : ¬ (a - 1 = who - 1) := by omega
      by_cases ham : a ∈ cs1
      · rw [if_neg (fun hcon => hne1 hcon.1), if_pos ⟨hidx2, hma.mpr ham⟩,
          if_neg (fun hcon => h1 hcon.1), if_pos ⟨h2, ham⟩]
        omega
      · rw [if_neg (fun hcon => hne1 hcon.1), if_neg (fun hcon => ham (hma.mp hcon.2)),
          if_neg (fun hcon => h1 hcon.1), if_neg (fun hcon => ham hcon.2)]
        omega
    · have hne1 : ¬ (a - 1 = who - 1) := by omega
      have hne2 : ¬ (b - 1 = who - 1) := by omega
      rw [if_neg (fun hcon => hne1 hcon.1), if_neg (fun hcon => hne2 hcon.1),
        if_neg (fun hcon => h1 hcon.1), if_neg (fun hcon => h2 hcon.1)]
      omega

theorem uniqKL_lookup {chs : List (Nat × Node)} {c : Nat} {ch : Node}
    (hall : uniqKL chs = true) (h : lookupC chs c = some ch) : uniqK ch = true := by
  rw [uniqKL_iff] at hall
  exact hall _ (lookupC_mem h)

theorem sum_delta_keys (a b : Nat) :
    ∀ chs : List (Nat × Node), nodupB (keysOf chs) = true →
      ((keysOf chs).map (fun c => match lookupC chs c with
        | some ch => if c = a ∨ c = b then ch.value else ch.value - avoidT a b ch
        | none => 0)).sum = sumVals chs - avoidTL a b chs := by
  intro chs
  induction chs with
  | nil => intro _; simp [sumVals, keysOf]
  | cons p rest ih =>
      obtain ⟨k, u⟩ := p
      intro hnd
      have hnd' : (k :: keysOf rest).Nodup := by
        rw [← nodupB_iff]
        exact hnd
      have hknot : k ∉ keysOf rest := (List.nodup_cons.mp hnd').1
      have hndrest : nodupB (keysOf rest) = true := by
        rw [nodupB_iff]
        exact (List.nodup_cons.mp hnd').2
      have hkeys : keysOf ((k, u) :: rest) = k :: keysOf rest := rfl
      rw [hkeys]
      simp only [List.map_cons, List.sum_cons]
      have hheadlook : lookupC ((k, u) :: rest) k = some u := by
        simp [lookupC]
      rw [hheadlook]
      have hmapeq : (keysOf rest).map (fun c => match lookupC ((k, u) :: rest) c with
          | some ch => if c = a ∨ c = b then ch.value else ch.value - avoidT a b ch
          | none => 0) =
        (keysOf rest).map (fun c => match lookupC rest c with
          | some ch => if c = a ∨ c = b then ch.value else ch.value - avoidT a b ch
          | none => 0) := by
        apply List.map_congr_left
        intro c hc
        have hck : ¬ (k = c) := fun h => hknot (h ▸ hc)
        simp only [lookupC, if_neg hck]
      rw [hmapeq, ih hndrest]
      simp only [sumVals, avoidTL_cons]
      by_cases hk : k = a ∨ k = b
      · rw [if_pos hk, if_pos hk]
        omega
      · rw [if_neg hk, if_neg hk]
        omega

/-- Contribution of one `_add_child_to_matrix` call to the symmetric
entry pair of two candidates `a` and `b`: the subtree count when the
call's candidate is one of the pair (and the other is still in the set),
the subtree count minus its avoiders when neither has been reached, and
nothing once one of the pair has left the set. -/
theorem addChildF_pair (a b : Nat) (ha : 1 ≤ a) (hb : 1 ≤ b) (hab : a ≠ b) :
    ∀ (fuel : Nat) (n : Node) (who : Nat) (cs : List Nat) (m : CMat),
      n.size ≤ fuel → consV n = true → uniqK n = true →
      cs.Nodup → (∀ x ∈ cs, 1 ≤ x) → 1 ≤ who →
      scopedB (if who ∈ cs then cs.erase who else cs) n = true →
      ((who = a → b ∈ (if who ∈ cs then cs.erase who else cs) →
          pairAt a b (addChildF fuel n who cs m) = pairAt a b m + n.value) ∧
       (who = b → a ∈ (if who ∈ cs then cs.erase who else cs) →
          pairAt a b (addChildF fuel n who cs m) = pairAt a b m + n.value) ∧
       (who ≠ a → who ≠ b → a ∈ (if who ∈ cs then cs.erase who else cs) →
          b ∈ (if who ∈ cs then cs.erase who else cs) →
          pairAt a b (addChildF fuel n who cs m) =
            pairAt a b m + n.value - avoidT a b n) ∧
       ((a ∉ (if who ∈ cs then cs.erase who else cs) ∧ who ≠ a) ∨
        (b ∉ (if who ∈ cs then cs.erase who else cs) ∧ who ≠ b) →
          pairAt a b (addChildF fuel n who cs m) = pairAt a b m)) := by
  intro fuel
  induction fuel with
  | zero =>
      intro n who cs m hsz _ _ _ _ _ _
      exact absurd hsz (by have := size_pos n; omega)
  | succ fuel ihf =>
      intro n who cs m hsz hcons huniq hnd hpos hwho hscoped
      set cs1 := if who ∈ cs then cs.erase who else cs with hcs1
      have hnd1 : cs1.Nodup := by
        rw [hcs1]
        by_cases h : who ∈ cs
        · rw [if_pos h]
          exact hnd.erase _
        · rw [if_neg h]
          exact hnd
      have hpos1 : ∀ x ∈ cs1, 1 ≤ x := by
        intro x hx
        rw [hcs1] at hx
        by_cases h : who ∈ cs
        · rw [if_pos h] at hx
          exact hpos x (List.mem_of_mem_erase hx)
        · rw [if_neg h] at hx
          exact hpos x hx
      have hwnotin : who ∉ cs1 := by
        rw [hcs1]
        by_cases h : who ∈ cs
        · rw [if_pos h]
          exact hnd.not_mem_erase
        · rw [if_neg h]
          exact h
      have hconsL : consVL n.children = true := by
        rw [consV_eq] at hcons
        simp only [Bool.and_eq_true, decide_eq_true_eq] at hcons
        exact hcons.2
      have hsumv : sumVals n.children ≤ n.value := by
        rw [consV_eq] at hcons
        simp only [Bool.and_eq_true, decide_eq_true_eq] at hcons
        exact hcons.1
      have huniqKeys : nodupB (keysOf n.children) = true := by
        rw [uniqK_eq] at huniq
        simp only [Bool.and_eq_true] at huniq
        exact huniq.1
      have huniqL : uniqKL n.children = true := by
        rw [uniqK_eq] at huniq
        simp only [Bool.and_eq_true] at huniq
        exact huniq.2
      have hscopedL : scopedL cs1 n.children = true := by
        rw [scopedB_eq] at hscoped
        exact hscoped
      have hchild : ∀ c ∈ cs1, ∀ ch, lookupC n.children c = some ch →
          ch.size ≤ fuel ∧ consV ch = true ∧ uniqK ch = true ∧
          scopedB (if c ∈ cs1 then cs1.erase c else cs1) ch = true := by
        intro c hc ch hl
        have h1 : ch.size < n.size := size_snd_lt (lookupC_mem hl)
        refine ⟨by omega, consVL_lookup hconsL hl, uniqKL_lookup huniqL hl, ?_⟩
        rw [if_pos hc]
        exact (scopedL_lookup hscopedL hl).2
      have hfold_zero : ∀ (L : List Nat) (m' : CMat),
          (∀ c ∈ L, c ∈ cs1) → (a ∉ cs1 ∨ b ∉ cs1) →
          pairAt a b (L.foldl (addChildGo (addChildF fuel) n.children cs1) m') =
            pairAt a b m' := by
        intro L
        induction L with
        | nil =>
            intro m' _ _
            rfl
        | cons c rest ihL =>
            intro m' hLin hmiss
            simp only [List.foldl_cons]
            rw [ihL _ (fun c' h => hLin c' (List.mem_cons_of_mem _ h)) hmiss]
            cases hl : lookupC n.children c with
            | none => rw [addChildGo_none _ _ _ _ _ hl]
            | some ch =>
                rw [addChildGo_some _ _ _ _ _ ch hl]
                have hcin := hLin c (List.mem_cons_self _ _)
                obtain ⟨hf, hc2, hc3, hc4⟩ := hchild c hcin ch hl
                refine (ihf ch c cs1 m' hf hc2 hc3 hnd1 hpos1 (hpos1 c hcin) hc4).2.2.2 ?_
                rcases hmiss with hm | hm
                · refine Or.inl ⟨?_, fun hca => hm (hca ▸ hcin)⟩
                  rw [if_pos hcin]
                  exact fun hmem => hm (List.mem_of_mem_erase hmem)
                · refine Or.inr ⟨?_, fun hcb => hm (hcb ▸ hcin)⟩
                  rw [if_pos hcin]
                  exact fun hmem => hm (List.mem_of_mem_erase hmem)
      have hfold_C : ∀ (L : List Nat) (m' : CMat), a ∈ cs1 → b ∈ cs1 →
          (∀ c ∈ L, c ∈ cs1) →
          pairAt a b (L.foldl (addChildGo (addChildF fuel) n.children cs1) m') =
            pairAt a b m' + (L.map (fun c => match lookupC n.children c with
              | some ch => if c = a ∨ c = b then ch.value else ch.value - avoidT a b ch
              | none => 0)).sum := by
        intro L
        induction L with
        | nil =>
            intro m' _ _ _
            simp only [List.foldl_nil, List.map_nil, List.sum_nil]
            omega
        | cons c rest ihL =>
            intro m' hain hbin hLin
            have hcin := hLin c (List.mem_cons_self _ _)
            simp only [List.foldl_cons, List.map_cons, List.sum_cons]
            rw [ihL _ hain hbin (fun c' h => hLin c' (List.mem_cons_of_mem _ h))]
            cases hl : lookupC n.children c with
            | none =>
                rw [addChildGo_none _ _ _ _ _ hl]
                simp only [hl]
                omega
            | some ch =>
                rw [addChildGo_some _ _ _ _ _ ch hl]
                obtain ⟨hf, hc2, hc3, hc4⟩ := hchild c hcin ch hl
                have hihf := ihf ch c cs1 m' hf hc2 hc3 hnd1 hpos1 (hpos1 c hcin) hc4
                simp only [hl]
                by_cases hca : c = a
                · have hbc : b ≠ c := fun h => hab ((h.trans hca).symm)
                  have hstep := hihf.1 hca (by
                    rw [if_pos hcin]
                    exact (List.mem_erase_of_ne hbc).mpr hbin)
                  rw [hstep, if_pos (Or.inl hca)]
                  omega
                · by_cases hcb : c = b
                  · have hac : a ≠ c := fun h => hab (h.trans hcb)
                    have hstep := hihf.2.1 hcb (by
                      rw [if_pos hcin]
                      exact (List.mem_erase_of_ne hac).mpr hain)
                    rw [hstep, if_pos (Or.inr hcb)]
                    omega
                  · have hac : a ≠ c := fun h => hca h.symm
                    have hbc : b ≠ c := fun h => hcb h.symm
                    have hstep := hihf.2.2.1 hca hcb (by
                        rw [if_pos hcin]
                        exact (List.mem_erase_of_ne hac).mpr hain) (by
                        rw [if_pos hcin]
                        exact (List.mem_erase_of_ne hbc).mpr hbin)
                    rw [hstep, if_neg (fun hor => hor.elim hca hcb)]
                    omega
      have hrow := pairAt_addRow a b who ha hb hab hwho cs1 hpos1 m n.value
      have hfiltin : ∀ c ∈ cs1.filter (fun c => (keysOf n.children).contains c), c ∈ cs1 :=
        fun c hc => (List.mem_filter.mp hc).1
      rw [show addChildF (fuel + 1) n who cs m =
          (cs1.filter (fun c => (keysOf n.children).contains c)).foldl
            (addChildGo (addChildF fuel) n.children cs1)
            (addRow m (who - 1) (cs1.map (fun c => c - 1)) n.value) from rfl]
      refine ⟨?_, ?_, ?_, ?_⟩
      · intro hwa hbin
        rw [hfold_zero _ _ hfiltin (Or.inl (hwa ▸ hwnotin))]
        rw [hrow, if_pos ⟨hwa, hbin⟩, if_neg (fun hcon => hab (hwa.symm.trans hcon.1))]
        omega
      · intro hwb hain
        rw [hfold_zero _ _ hfiltin (Or.inr (hwb ▸ hwnotin))]
        rw [hrow, if_neg (fun hcon => hab (hcon.1.symm.trans hwb)), if_pos ⟨hwb, hain⟩]
        omega
      · intro hna hnb hain hbin
        rw [hfold_C _ _ hain hbin hfiltin]
        rw [hrow, if_neg (fun hcon => hna hcon.1), if_neg (fun hcon => hnb hcon.1)]
        have hperm : (cs1.filter (fun c => (keysOf n.children).contains c)).Perm
            (keysOf n.children) := by
          refine (List.perm_ext_iff_of_nodup (hnd1.filter _)
            ((nodupB_iff _).mp huniqKeys)).mpr ?_
          intro x
          rw [List.mem_filter]
          constructor
          · rintro ⟨_, hxk⟩
            exact (containsB_iff _ _).mp hxk
          · intro hxk
            refine ⟨?_, (containsB_iff _ _).mpr hxk⟩
            obtain ⟨u, hu⟩ := mem_keysOf.mp hxk
            exact ((scopedL_iff _ _).mp hscopedL (x, u) hu).1
        have hsum1 := (hperm.map (fun c => match lookupC n.children c with
          | some ch => if c = a ∨ c = b then ch.value else ch.value - avoidT a b ch
          | none => 0)).sum_eq
        rw [hsum1, sum_delta_keys a b n.children huniqKeys, avoidT_eq]
        omega
      · intro hz
        rw [hfold_zero _ _ hfiltin (hz.elim (fun h => Or.inl h.1) (fun h => Or.inr h.1))]
        rw [hrow]
        rcases hz with ⟨hnotin, hne⟩ | ⟨hnotin, hne⟩
        · rw [if_neg (fun hcon => hne hcon.1), if_neg (fun hcon => hnotin hcon.2)]
          omega
        · rw [if_neg (fun hcon => hnotin hcon.2), if_neg (fun hcon => hne hcon.1)]
          omega

theorem sum_entry_delta (a b : Nat) :
    ∀ chs : List (Nat × Node),
      ((chs.map (fun p : Nat × Node => if p.1 = a ∨ p.1 = b then p.2.value
        else p.2.value - avoidT a b p.2)).sum) = sumVals chs - avoidTL a b chs := by
  intro chs
  induction chs with
  | nil => simp [sumVals]
  | cons p rest ih =>
      obtain ⟨k, u⟩ := p
      simp only [List.map_cons, List.sum_cons, sumVals, avoidTL_cons, ih]
      by_cases hk : k = a ∨ k = b
      · rw [if_pos hk, if_pos hk]
        omega
      · rw [if_neg hk, if_neg hk]
        omega

theorem buildCondorcet_fold_pair (a b : Nat) (ha : 1 ≤ a) (hb : 1 ≤ b) (hab : a ≠ b)
    (cands : List Nat) (hcnd : cands.Nodup) (hcpos : ∀ x ∈ cands, 1 ≤ x)
    (hamem : a ∈ cands) (hbmem : b ∈ cands) :
    ∀ (chs : List (Nat × Node)) (m' : CMat),
      (∀ p : Nat × Node, p ∈ chs → p.1 ∈ cands ∧
        scopedB (cands.erase p.1) p.2 = true ∧ consV p.2 = true ∧ uniqK p.2 = true) →
      pairAt a b (chs.foldl
          (fun acc p => addChildF p.2.size p.2 p.1 cands acc) m') =
        pairAt a b m' + (chs.map (fun p : Nat × Node =>
          if p.1 = a ∨ p.1 = b then p.2.value
          else p.2.value - avoidT a b p.2)).sum := by
  intro chs
  induction chs with
  | nil =>
      intro m' _
      simp only [List.foldl_nil, List.map_nil, List.sum_nil]
      omega
  | cons p rest ih =>
      obtain ⟨c, ch⟩ := p
      intro m' hprops
      obtain ⟨hcin, hcscoped, hccons, hcuniq⟩ := hprops (c, ch) (List.mem_cons_self _ _)
      simp only [List.foldl_cons, List.map_cons, List.sum_cons]
      rw [ih _ (fun q hq => hprops q (List.mem_cons_of_mem _ hq))]
      have hscoped' : scopedB (if c ∈ cands then cands.erase c else cands) ch = true := by
        rw [if_pos hcin]
        exact hcscoped
      have hmain := addChildF_pair a b ha hb hab ch.size ch c cands m' (le_refl _)
        hccons hcuniq hcnd hcpos (hcpos c hcin) hscoped'
      by_cases hca : c = a
      · have hbc : b ≠ c := fun h => hab ((h.trans hca).symm)
        rw [hmain.1 hca (by
          rw [if_pos hcin]
          exact (List.mem_erase_of_ne hbc).mpr hbmem), if_pos (Or.inl hca)]
        omega
      · by_cases hcb : c = b
        · have hac : a ≠ c := fun h => hab (h.trans hcb)
          rw [hmain.2.1 hcb (by
            rw [if_pos hcin]
            exact (List.mem_erase_of_ne hac).mpr hamem), if_pos (Or.inr hcb)]
          omega
        · have hac : a ≠ c := fun h => hca h.symm
          have hbc : b ≠ c := fun h => hcb h.symm
          rw [hmain.2.2.1 hca hcb (by
              rw [if_pos hcin]
              exact (List.mem_erase_of_ne hac).mpr hamem) (by
              rw [if_pos hcin]
              exact (List.mem_erase_of_ne hbc).mpr hbmem),
            if_neg (fun hor => hor.elim hca hcb)]
          omega

/-- Claim C6 (amended): for a well-formed profile — consistent counts, no
path repeating a candidate, duplicate-free child keys, all keys in the
root candidate set, 1-based candidates — and distinct candidates `a` and
`b` of the election, the Condorcet matrix satisfies
`M[a-1][b-1] + M[b-1][a-1] ≤ total ballots represented below the root`,
with equality iff every represented ballot ranks at least one of `a`
and `b` (not both, as the claim said: a ballot ranking exactly one of
the two is counted once in the pair sum). -/
theorem C6_condorcet_pair (e : Election) (a b : Nat)
    (ha : 1 ≤ a) (hb : 1 ≤ b) (hab : a ≠ b)
    (hcons : consV e.profile = true) (huniq : uniqK e.profile = true)
    (hkeys : keysIn (keysOf e.profile.children) e.profile = true)
    (hndp : ndp [] e.profile = true)
    (hpos : ∀ x ∈ keysOf e.profile.children, 1 ≤ x)
    (hamem : a ∈ keysOf e.profile.children) (hbmem : b ∈ keysOf e.profile.children) :
    buildCondorcet e (a - 1) (b - 1) + buildCondorcet e (b - 1) (a - 1) ≤
      e.profile.value ∧
    (buildCondorcet e (a - 1) (b - 1) + buildCondorcet e (b - 1) (a - 1) =
        e.profile.value ↔
      ∀ p ∈ treeToMap e.profile, a ∈ p.1 ∨ b ∈ p.1) := by
  have hcandnd : (keysOf e.profile.children).Nodup := by
    rw [uniqK_eq] at huniq
    simp only [Bool.and_eq_true] at huniq
    exact (nodupB_iff _).mp huniq.1
  have huniqL : uniqKL e.profile.children = true := by
    rw [uniqK_eq] at huniq
    simp only [Bool.and_eq_true] at huniq
    exact huniq.2
  have hconsL : consVL e.profile.children = true := by
    rw [consV_eq] at hcons
    simp only [Bool.and_eq_true, decide_eq_true_eq] at hcons
    exact hcons.2
  have hsumv : sumVals e.profile.children ≤ e.profile.value := by
    rw [consV_eq] at hcons
    simp only [Bool.and_eq_true, decide_eq_true_eq] at hcons
    exact hcons.1
  have hscoped : scopedB (keysOf e.profile.children) e.profile = true :=
    scoped_of_keysIn_ndp e.profile _ [] _ hkeys hndp hcandnd (by simp)
  have hscopedL : scopedL (keysOf e.profile.children) e.profile.children = true := by
    rw [scopedB_eq] at hscoped
    exact hscoped
  have hfold := buildCondorcet_fold_pair a b ha hb hab _ hcandnd hpos hamem hbmem
    e.profile.children (fun _ _ => 0)
    (fun q hq => ⟨((scopedL_iff _ _).mp hscopedL q hq).1,
      ((scopedL_iff _ _).mp hscopedL q hq).2,
      (consVL_iff _).mp hconsL q hq,
      (uniqKL_iff _).mp huniqL q hq⟩)
  have hpair : pairAt a b (buildCondorcet e) =
      sumVals e.profile.children - avoidTL a b e.profile.children := by
    show pairAt a b (e.profile.children.foldl
      (fun acc p => addChildF p.2.size p.2 p.1 (keysOf e.profile.children) acc)
      (fun _ _ => 0)) = _
    rw [hfold, sum_entry_delta]
    show (0 : Int) + 0 + _ = _
    omega
  have hpair' : buildCondorcet e (a - 1) (b - 1) + buildCondorcet e (b - 1) (a - 1) =
      sumVals e.profile.children - avoidTL a b e.profile.children := hpair
  have havoid : avoidT a b e.profile =
      (e.profile.value - sumVals e.profile.children) + avoidTL a b e.profile.children :=
    avoidT_eq a b e.profile
  have havoidnn : 0 ≤ avoidT a b e.profile := avoidT_nonneg a b e.profile hcons
  refine ⟨by omega, ?_⟩
  have hbridge : avoidSum a b (treeToMapN e.profile []) = avoidT a b e.profile :=
    avoidSum_treeToMap a b e.profile [] hcons (by simp) (by simp)
  have hiff := avoidSum_eq_zero_iff a b (treeToMapN e.profile [])
    (fun p hp => treeToMap_pos e.profile [] p hp)
  constructor
  · intro heq
    refine hiff.mp ?_
    rw [hbridge]
    omega
  · intro hall
    have h0 : avoidSum a b (treeToMapN e.profile []) = 0 := hiff.mpr hall
    rw [hbridge] at h0
    omega

/-- Counterexample to claim C6: in a one-ballot election whose ballot
ranks only candidate 1, the pair sum `M[0][1] + M[1][0]` equals the
total number of ballots although the ballot does not rank both
candidates — the claimed "equality iff every ballot ranks both" fails
(the correct condition is "at least one"). -/
theorem C6_counterexample :
    buildCondorcet cexCondorcet 0 1 + buildCondorcet cexCondorcet 1 0 =
      cexCondorcet.profile.value ∧
    treeToMap cexCondorcet.profile = [([1], 1)] ∧
    ¬ (∀ p ∈ treeToMap cexCondorcet.profile, 1 ∈ p.1 ∧ 2 ∈ p.1) :=
  ⟨by decide, by decide, by decide⟩

/-- Witness for C6: a three-ballot election on two candidates where one
ballot ranks nobody, so the pair sum is strictly below the ballot count
and the equality condition correctly fails. -/
theorem C6_condorcet_pair_witness :
    consV (Node.mk 3 [(1, Node.mk 1 []), (2, Node.mk 1 [])]) = true ∧
    (buildCondorcet ⟨["A", "B"], Node.mk 3 [(1, Node.mk 1 []), (2, Node.mk 1 [])], 1, 1, ""⟩ 0 1 +
      buildCondorcet ⟨["A", "B"], Node.mk 3 [(1, Node.mk 1 []), (2, Node.mk 1 [])], 1, 1, ""⟩ 1 0 ≤ 3) ∧
    ((buildCondorcet ⟨["A", "B"], Node.mk 3 [(1, Node.mk 1 []), (2, Node.mk 1 [])], 1, 1, ""⟩ 0 1 +
      buildCondorcet ⟨["A", "B"], Node.mk 3 [(1, Node.mk 1 []), (2, Node.mk 1 [])], 1, 1, ""⟩ 1 0 = 3) ↔
      ∀ p ∈ treeToMap (Node.mk 3 [(1, Node.mk 1 []), (2, Node.mk 1 [])]),
        1 ∈ p.1 ∨ 2 ∈ p.1) :=
  ⟨by decide,
    (C6_condorcet_pair ⟨["A", "B"], Node.mk 3 [(1, Node.mk 1 []), (2, Node.mk 1 [])], 1, 1, ""⟩
      1 2 (by decide) (by decide) (by decide) (by decide) (by decide) (by decide)
      (by decide) (by decide) (by decide) (by decide)).1,
    (C6_condorcet_pair ⟨["A", "B"], Node.mk 3 [(1, Node.mk 1 []), (2, Node.mk 1 [])], 1, 1, ""⟩
      1 2 (by decide) (by decide) (by decide) (by decide) (by decide) (by decide)
      (by decide) (by decide) (by decide) (by decide)).2⟩

theorem argmin_fold (cs : List (Nat × Node)) :
    ∀ acc : Nat × Int,
      (cs.foldl (fun acc p => if p.2.value < acc.2 then (p.1, p.2.value) else acc)
        acc).2 ≤ acc.2 ∧
      (∀ p ∈ cs,
        (cs.foldl (fun acc p => if p.2.value < acc.2 then (p.1, p.2.value) else acc)
          acc).2 ≤ p.2.value) ∧
      ((cs.foldl (fun acc p => if p.2.value < acc.2 then (p.1, p.2.value) else acc)
          acc) = acc ∨
        ∃ p ∈ cs,
          (cs.foldl (fun acc p => if p.2.value < acc.2 then (p.1, p.2.value) else acc)
            acc) = (p.1, p.2.value)) := by
  induction cs with
  | nil =>
      intro acc
      exact ⟨le_refl _, by simp, Or.inl rfl⟩
  | cons q rest ih =>
      intro acc
      obtain ⟨k, u⟩ := q
      simp only [List.foldl_cons]
      by_cases hlt : u.value < acc.2
      · rw [if_pos hlt]
        obtain ⟨h1, h2, h3⟩ := ih (k, u.value)
        refine ⟨by simp at h1 ⊢; omega, ?_, ?_⟩
        · intro p hp
          rcases List.mem_cons.mp hp with rfl | hp'
          · simpa using h1
          · exact h2 p hp'
        · rcases h3 with h | ⟨p, hp, hres⟩
          · exact Or.inr ⟨(k, u), List.mem_cons_self _ _, h⟩
          · exact Or.inr ⟨p, List.mem_cons_of_mem _ hp, hres⟩
      · rw [if_neg hlt]
        obtain ⟨h1, h2, h3⟩ := ih acc
        refine ⟨h1, ?_, ?_⟩
        · intro p hp
          rcases List.mem_cons.mp hp with rfl | hp'
          · have hval : (k, u).2.value = u.value := rfl
            omega
          · exact h2 p hp'
        · rcases h3 with h | ⟨p, hp, hres⟩
          · exact Or.inl h
          · exact Or.inr ⟨p, List.mem_cons_of_mem _ hp, hres⟩

theorem argminChild_spec (cs : List (Nat × Node)) (hne : cs ≠ [])
    (hub : ∀ p ∈ cs, p.2.value < maxint) :
    ∃ p0 : Nat × Node, p0 ∈ cs ∧ argminChild cs = p0.1 ∧
      ∀ p ∈ cs, p0.2.value ≤ p.2.value := by
  obtain ⟨h1, h2, h3⟩ := argmin_fold cs (0, maxint)
  rcases h3 with h | ⟨p, hp, hres⟩
  · exfalso
    obtain ⟨q, hq⟩ := List.exists_mem_of_ne_nil cs hne
    have hle := h2 q hq
    have hlt := hub q hq
    rw [h] at hle
    have hmax : maxint ≤ q.2.value := by simpa using hle
    omega
  · refine ⟨p, hp, ?_, ?_⟩
    · rw [argminChild, hres]
    · intro q hq
      have := h2 q hq
      rw [hres] at this
      simpa using this

theorem lead_fold (cs : List (Nat × Node)) :
    ∀ m0 : Int,
      m0 ≤ cs.foldl (fun m p => max m p.2.value) m0 ∧
      (∀ p ∈ cs, p.2.value ≤ cs.foldl (fun m p => max m p.2.value) m0) ∧
      (cs.foldl (fun m p => max m p.2.value) m0 = m0 ∨
        ∃ p ∈ cs, cs.foldl (fun m p => max m p.2.value) m0 = p.2.value) := by
  induction cs with
  | nil =>
      intro m0
      exact ⟨le_refl _, by simp, Or.inl rfl⟩
  | cons q rest ih =>
      intro m0
      obtain ⟨k, u⟩ := q
      simp only [List.foldl_cons]
      obtain ⟨h1, h2, h3⟩ := ih (max m0 u.value)
      refine ⟨by omega, ?_, ?_⟩
      · intro p hp
        rcases List.mem_cons.mp hp with rfl | hp'
        · simp only []
          omega
        · exact h2 p hp'
      · rcases h3 with h | ⟨p, hp, hres⟩
        · by_cases hm : u.value ≤ m0
          · refine Or.inl ?_
            rw [h]
            omega
          · refine Or.inr ⟨(k, u), List.mem_cons_self _ _, ?_⟩
            rw [h]
            simp only []
            omega
        · exact Or.inr ⟨p, List.mem_cons_of_mem _ hp, hres⟩

theorem leadVotes_ge (cs : List (Nat × Node)) :
    ∀ p ∈ cs, p.2.value ≤ leadVotes cs :=
  (lead_fold cs 0).2.1

theorem leadVotes_nonneg (cs : List (Nat × Node)) : 0 ≤ leadVotes cs :=
  (lead_fold cs 0).1

theorem leadVotes_mem (cs : List (Nat × Node)) (h : 0 < leadVotes cs) :
    ∃ p ∈ cs, p.2.value = leadVotes cs := by
  rcases (lead_fold cs 0).2.2 with h0 | ⟨p, hp, hres⟩
  · rw [leadVotes] at h
    omega
  · exact ⟨p, hp, hres.symm⟩

theorem roundScan_pair (cs : List (Nat × Node)) :
    ∀ acc : Int × Nat × Int,
      ((cs.foldl (fun acc p =>
          if p.2.value > acc.2.2 then (acc.1 + p.2.value, p.1, p.2.value)
          else (acc.1 + p.2.value, acc.2.1, acc.2.2)) acc)).2 = acc.2 ∨
      ∃ p ∈ cs,
        ((cs.foldl (fun acc p =>
          if p.2.value > acc.2.2 then (acc.1 + p.2.value, p.1, p.2.value)
          else (acc.1 + p.2.value, acc.2.1, acc.2.2)) acc)).2 = (p.1, p.2.value) := by
  induction cs with
  | nil =>
      intro acc
      exact Or.inl rfl
  | cons q rest ih =>
      intro acc
      obtain ⟨k, u⟩ := q
      simp only [List.foldl_cons]
      by_cases hgt : u.value > acc.2.2
      · rw [if_pos hgt]
        rcases ih (acc.1 + u.value, k, u.value) with h | ⟨p, hp, hres⟩
        · exact Or.inr ⟨(k, u), List.mem_cons_self _ _, h⟩
        · exact Or.inr ⟨p, List.mem_cons_of_mem _ hp, hres⟩
      · rw [if_neg hgt]
        rcases ih (acc.1 + u.value, acc.2.1, acc.2.2) with h | ⟨p, hp, hres⟩
        · exact Or.inl h
        · exact Or.inr ⟨p, List.mem_cons_of_mem _ hp, hres⟩

theorem roundScan_mem (cs : List (Nat × Node)) (h : 0 < (roundScan cs).2.2) :
    (roundScan cs).2.1 ∈ keysOf cs := by
  rcases roundScan_pair cs (0, 0, 0) with h0 | ⟨p, hp, hres⟩
  · rw [roundScan] at h
    rw [h0] at h
    simp at h
  · rw [roundScan] at h ⊢
    rw [hres]
    exact mem_keysOf.mpr ⟨p.2, by simpa using hp⟩

@[simp] theorem keyedSum_nil (c : Nat) : keyedSum c [] = 0 := rfl

@[simp] theorem keyedSum_cons (c k : Nat) (n : Node) (rest : List (Nat × Node)) :
    keyedSum c ((k, n) :: rest) = (if k = c then n.value else 0) + keyedSum c rest := rfl

theorem keyedSum_nonneg {c : Nat} {ns : List (Nat × Node)}
    (h : vnnL ns = true) : 0 ≤ keyedSum c ns := by
  induction ns with
  | nil => simp
  | cons p rest ih =>
      obtain ⟨k, u⟩ := p
      simp only [vnnL_cons, Bool.and_eq_true] at h
      have h1 : 0 ≤ u.value := by
        rw [vnn_eq] at h
        simp only [Bool.and_eq_true, decide_eq_true_eq] at h
        exact h.1.1
      have h2 := ih h.2
      simp only [keyedSum_cons]
      by_cases hk : k = c
      · rw [if_pos hk]
        omega
      · rw [if_neg hk]
        omega

theorem childVal_eraseC_ne {cs : List (Nat × Node)} {c c' : Nat} (h : c' ≠ c) :
    childVal (eraseC cs c) c' = childVal cs c' := by
  rw [childVal, childVal, lookupC_eraseC_ne h]

theorem childVal_cons (k : Nat) (n : Node) (rest : List (Nat × Node)) (c : Nat) :
    childVal ((k, n) :: rest) c = if k = c then n.value else childVal rest c := by
  by_cases hk : k = c
  · simp [childVal, lookupC, hk]
  · simp [childVal, lookupC, hk]

theorem childVal_mergeIntoC (cs : List (Nat × Node)) (k : Nat) (n : Node) (c' : Nat) :
    childVal (mergeIntoC cs k n) c' =
      childVal cs c' + (if k = c' then n.value else 0) := by
  induction cs with
  | nil =>
      rw [mergeIntoC_nil, childVal_cons]
      by_cases hk : k = c'
      · rw [if_pos hk, if_pos hk]
        simp [childVal, lookupC]
      · rw [if_neg hk, if_neg hk]
        simp [childVal, lookupC]
  | cons p rest ih =>
      obtain ⟨k', m⟩ := p
      rw [mergeIntoC_cons]
      by_cases hk : k' = k
      · rw [if_pos hk, childVal_cons, childVal_cons]
        by_cases hkc : k' = c'
        · rw [if_pos hkc, if_pos hkc, merge_value, if_pos (hk.symm.trans hkc)]
        · rw [if_neg hkc, if_neg hkc, if_neg (fun h : k = c' => hkc (hk.trans h))]
          omega
      · rw [if_neg hk, childVal_cons, childVal_cons]
        by_cases hkc : k' = c'
        · rw [if_pos hkc, if_pos hkc,
            if_neg (fun h : k = c' => hk (hkc.trans h.symm))]
          omega
        · rw [if_neg hkc, if_neg hkc, ih]

theorem childVal_mergeListC (ns : List (Nat × Node)) :
    ∀ (cs : List (Nat × Node)) (c' : Nat),
      childVal (mergeListC cs ns) c' = childVal cs c' + keyedSum c' ns := by
  induction ns with
  | nil =>
      intro cs c'
      rw [mergeListC_nil]
      simp
  | cons p rest ih =>
      obtain ⟨k, n⟩ := p
      intro cs c'
      rw [mergeListC_cons, ih, childVal_mergeIntoC]
      simp only [keyedSum_cons]
      omega

theorem lookupC_map_elim (cs : List (Nat × Node)) (c x : Nat) :
    lookupC (cs.map (fun p => (p.1, p.2.eliminate c))) x =
      (lookupC cs x).map (fun n => n.eliminate c) := by
  induction cs with
  | nil => rfl
  | cons p rest ih =>
      obtain ⟨k, u⟩ := p
      simp only [List.map_cons, lookupC]
      by_cases hk : k = x
      · rw [if_pos hk, if_pos hk]
        rfl
      · rw [if_neg hk, if_neg hk, ih]

theorem childVal_map_elim (cs : List (Nat × Node)) (c x : Nat) :
    childVal (cs.map (fun p => (p.1, p.2.eliminate c))) x = childVal cs x := by
  rw [childVal, childVal, lookupC_map_elim]
  cases lookupC cs x with
  | none => rfl
  | some u =>
      simp only [Option.map_some]
      exact eliminate_value u c

theorem childVal_eliminate_ge (t : Node) (c c' : Nat) (hne : c' ≠ c)
    (hv : vnn t = true) :
    childVal t.children c' ≤ childVal (t.eliminate c).children c' := by
  rw [eliminate_def]
  cases hlk : lookupC t.children c with
  | none =>
      simp only [Node.children_mk]
      rw [childVal_map_elim]
  | some child =>
      simp only [Node.children_mk]
      rw [childVal_map_elim, childVal_mergeListC, childVal_eraseC_ne hne]
      have hvch : vnn child = true := by
        rw [vnn_eq] at hv
        simp only [Bool.and_eq_true, decide_eq_true_eq] at hv
        rw [vnnL_iff] at hv
        exact hv.2 _ (lookupC_mem hlk)
      have : vnnL child.children = true := by
        rw [vnn_eq] at hvch
        simp only [Bool.and_eq_true, decide_eq_true_eq] at hvch
        exact hvch.2
      have := keyedSum_nonneg (c := c') this
      omega

theorem childVal_foldElim_ge (S : List Nat) :
    ∀ (t : Node) (c' : Nat), c' ∉ S → consV t = true →
      childVal t.children c' ≤ childVal (foldElim t S).children c' := by
  induction S with
  | nil =>
      intro t c' _ _
      exact le_refl _
  | cons c rest ih =>
      intro t c' hnotin hcons
      rw [foldElim, List.foldl_cons]
      rw [show List.foldl (fun acc c => acc.eliminate c) (t.eliminate c) rest =
        foldElim (t.eliminate c) rest from rfl]
      have h1 : childVal t.children c' ≤ childVal (t.eliminate c).children c' :=
        childVal_eliminate_ge t c c' (fun h => hnotin (h ▸ List.mem_cons_self _ _))
          (consV_vnn t hcons)
      have h2 := ih (t.eliminate c) c' (fun h => hnotin (List.mem_cons_of_mem _ h))
        (eliminate_consV t c hcons)
      omega

theorem mem_keys_eraseC_ne {cs : List (Nat × Node)} {c x : Nat} (h : x ≠ c) :
    x ∈ keysOf (eraseC cs c) ↔ x ∈ keysOf cs := by
  induction cs with
  | nil => simp [eraseC]
  | cons p rest ih =>
      obtain ⟨k, u⟩ := p
      by_cases hk : k = c
      · simp only [eraseC, if_pos hk, keysOf, List.map_cons, List.mem_cons]
        constructor
        · intro hx
          exact Or.inr hx
        · rintro (hx | hx)
          · exact absurd (hx.trans hk) h
          · exact hx
      · simp only [eraseC, if_neg hk, keysOf, List.map_cons, List.mem_cons]
        rw [show (x ∈ List.map Prod.fst (eraseC rest c)) ↔
          (x ∈ keysOf (eraseC rest c)) from Iff.rfl] at *
        constructor
        · rintro (hx | hx)
          · exact Or.inl hx
          · exact Or.inr (ih.mp hx)
        · rintro (hx | hx)
          · exact Or.inl hx
          · exact Or.inr (ih.mpr hx)

theorem cFree_not_mem_keys {t : Node} {x : Nat} (h : cFree x t = true) :
    x ∉ keysOf t.children := by
  intro hmem
  rcases mem_keysOf.mp hmem with ⟨u, hu⟩
  rw [cFree_eq, cFreeL_iff] at h
  exact (h (x, u) hu).1 rfl

theorem keysIn_top {allowed : List Nat} {t : Node} (h : keysIn allowed t = true) :
    ∀ x ∈ keysOf t.children, x ∈ allowed := by
  intro x hx
  rcases mem_keysOf.mp hx with ⟨u, hu⟩
  rw [keysIn_eq, keysInL_iff] at h
  exact (h (x, u) hu).1

theorem keysInL_eraseC {allowed : List Nat} {cs : List (Nat × Node)} {c : Nat}
    (h : keysInL allowed cs = true) : keysInL allowed (eraseC cs c) = true := by
  rw [keysInL_iff] at h ⊢
  intro p hp
  exact h p (mem_eraseC hp)

theorem keysIn_merge_all :
    (∀ a b : Node, ∀ allowed, keysIn allowed a = true → keysIn allowed b = true →
      keysIn allowed (Node.merge a b) = true) ∧
    (∀ (cs : List (Nat × Node)) (k : Nat) (n : Node), ∀ allowed : List Nat,
      allowed.contains k = true → keysInL allowed cs = true →
      keysIn allowed n = true → keysInL allowed (mergeIntoC cs k n) = true) ∧
    (∀ cs ns : List (Nat × Node), ∀ allowed, keysInL allowed cs = true →
      keysInL allowed ns = true → keysInL allowed (mergeListC cs ns) = true) := by
  exact merge_rec
    (fun a b => ∀ allowed, keysIn allowed a = true → keysIn allowed b = true →
      keysIn allowed (Node.merge a b) = true)
    (fun cs k n => ∀ allowed : List Nat, allowed.contains k = true →
      keysInL allowed cs = true → keysIn allowed n = true →
      keysInL allowed (mergeIntoC cs k n) = true)
    (fun cs ns => ∀ allowed, keysInL allowed cs = true → keysInL allowed ns = true →
      keysInL allowed (mergeListC cs ns) = true)
    (by
      intro a b hl allowed ha hb
      rw [merge_def]
      by_cases hemp : a.children.isEmpty
      · rw [if_pos hemp, keysIn_mk, ← keysIn_eq]
        exact hb
      · rw [if_neg hemp, keysIn_mk]
        exact hl allowed (by rw [← keysIn_eq]; exact ha) (by rw [← keysIn_eq]; exact hb))
    (by
      intro k n allowed hk _ hn
      rw [mergeIntoC_nil]
      simp only [keysInL_cons, keysInL_nil, Bool.and_eq_true]
      exact ⟨⟨hk, hn⟩, trivial⟩)
    (by
      intro k' m cs k n hm hi allowed hk hcs hn
      rw [mergeIntoC_cons]
      simp only [keysInL_cons, Bool.and_eq_true] at hcs
      obtain ⟨⟨hk'mem, hm'⟩, hrest⟩ := hcs
      by_cases hkk : k' = k
      · rw [if_pos hkk]
        simp only [keysInL_cons, Bool.and_eq_true]
        exact ⟨⟨hk'mem, hm allowed hm' hn⟩, hrest⟩
      · rw [if_neg hkk]
        simp only [keysInL_cons, Bool.and_eq_true]
        exact ⟨⟨hk'mem, hm'⟩, hi allowed hk hrest hn⟩)
    (by
      intro cs allowed h _
      rw [mergeListC_nil]
      exact h)
    (by
      intro cs k n rest hi hrest allowed hcs hns
      rw [mergeListC_cons]
      simp only [keysInL_cons, Bool.and_eq_true] at hns
      obtain ⟨⟨hkmem, hn⟩, hrest'⟩ := hns
      exact hrest _ allowed (hi allowed hkmem hcs hn) hrest')

theorem keysIn_eliminate :
    ∀ (t : Node) (c : Nat) (allowed : List Nat), keysIn allowed t = true →
      keysIn allowed (t.eliminate c) = true := by
  apply node_size_ind (fun t => ∀ (c : Nat) (allowed : List Nat),
    keysIn allowed t = true → keysIn allowed (t.eliminate c) = true)
  intro t ih c allowed hk
  have hkL : keysInL allowed t.children = true := by
    rw [keysIn_eq] at hk
    exact hk
  rw [eliminate_def]
  cases hlk : lookupC t.children c with
  | none =>
      rw [keysIn_mk, keysInL_iff]
      intro q hq
      rcases mem_map_elim hq with ⟨u, hmem, hval⟩
      rw [keysInL_iff] at hkL
      have := hkL (q.1, u) hmem
      refine ⟨this.1, ?_⟩
      rw [hval]
      exact ih u (size_snd_lt hmem) c allowed this.2
  | some child =>
      have hchild : keysIn allowed child = true := by
        rw [keysInL_iff] at hkL
        exact (hkL (c, child) (lookupC_mem hlk)).2
      have hchildL : keysInL allowed child.children = true := by
        rw [keysIn_eq] at hchild
        exact hchild
      have hmerged : keysInL allowed
          (mergeListC (eraseC t.children c) child.children) = true :=
        keysIn_merge_all.2.2 _ _ allowed (keysInL_eraseC hkL) hchildL
      rw [keysIn_mk, keysInL_iff]
      intro q hq
      rcases mem_map_elim hq with ⟨u, hmem, hval⟩
      rw [keysInL_iff] at hmerged
      have := hmerged (q.1, u) hmem
      refine ⟨this.1, ?_⟩
      rw [hval]
      exact ih u (merged_size_lt hlk (q.1, u) hmem) c allowed this.2

theorem keysIn_foldElim {allowed : List Nat} (S : List Nat) :
    ∀ t : Node, keysIn allowed t = true → keysIn allowed (foldElim t S) = true := by
  induction S with
  | nil =>
      intro t h
      exact h
  | cons c rest ih =>
      intro t h
      rw [foldElim, List.foldl_cons]
      exact ih (t.eliminate c) (keysIn_eliminate t c allowed h)

theorem mem_keys_eliminate {t : Node} {c x : Nat} (hx : x ∈ keysOf t.children)
    (hne : x ≠ c) : x ∈ keysOf (t.eliminate c).children := by
  rw [eliminate_def]
  cases hlk : lookupC t.children c with
  | none =>
      simp only [Node.children_mk]
      rw [keysOf_map_elim]
      exact hx
  | some child =>
      simp only [Node.children_mk]
      rw [keysOf_map_elim, mem_keys_mergeListC]
      exact Or.inl ((mem_keys_eraseC_ne hne).mpr hx)

theorem mem_keys_foldElim (S : List Nat) :
    ∀ (t : Node) (x : Nat), x ∈ keysOf t.children → x ∉ S →
      x ∈ keysOf (foldElim t S).children := by
  induction S with
  | nil =>
      intro t x hx _
      exact hx
  | cons c rest ih =>
      intro t x hx hnotin
      rw [foldElim, List.foldl_cons]
      exact ih (t.eliminate c) x
        (mem_keys_eliminate hx (fun h => hnotin (h ▸ List.mem_cons_self _ _)))
        (fun h => hnotin (List.mem_cons_of_mem _ h))

theorem childVal_nonneg_of {cs : List (Nat × Node)}
    (hnn : ∀ p : Nat × Node, p ∈ cs → 0 ≤ p.2.value) (x : Nat) :
    0 ≤ childVal cs x := by
  rw [childVal]
  cases hl : lookupC cs x with
  | none => simp
  | some u => exact hnn (x, u) (lookupC_mem hl)

theorem childVal_le_lead (cs : List (Nat × Node)) (x : Nat)
    (hnn : ∀ p : Nat × Node, p ∈ cs → 0 ≤ p.2.value) :
    childVal cs x ≤ max 0 (leadVotes cs) := by
  rw [childVal]
  cases hl : lookupC cs x with
  | none => simp
  | some u =>
      have := leadVotes_ge cs (x, u) (lookupC_mem hl)
      simp only [] at this ⊢
      omega

theorem survivor_of_min (cs : List (Nat × Node)) (c0 : Nat)
    (hlen : 2 ≤ cs.length)
    (hu : nodupB (keysOf cs) = true)
    (hlead : 0 < leadVotes cs)
    (hmin : ∀ p : Nat × Node, p ∈ cs → childVal cs c0 ≤ p.2.value) :
    ∃ c', c' ∈ keysOf cs ∧ c' ≠ c0 ∧ 0 < childVal cs c' := by
  obtain ⟨pmax, hpmax, hpval⟩ := leadVotes_mem cs hlead
  by_cases hne : pmax.1 = c0
  · match cs, hlen with
    | p1 :: p2 :: rest, _ =>
        have hnodup : (keysOf (p1 :: p2 :: rest)).Nodup := (nodupB_iff _).mp hu
        have hk12 : p1.1 ≠ p2.1 := by
          simp only [keysOf, List.map_cons, List.nodup_cons, List.mem_cons] at hnodup
          exact fun h => hnodup.1 (Or.inl h)
        have hpick : ∃ q : Nat × Node, q ∈ p1 :: p2 :: rest ∧ q.1 ≠ c0 := by
          by_cases h1 : p1.1 = c0
          · exact ⟨p2, List.mem_cons_of_mem _ (List.mem_cons_self _ _),
              fun h => hk12 (h1.trans h.symm)⟩
          · exact ⟨p1, List.mem_cons_self _ _, h1⟩
        obtain ⟨q, hq, hqne⟩ := hpick
        refine ⟨q.1, mem_keysOf.mpr ⟨q.2, by simpa using hq⟩, hqne, ?_⟩
        have hlook : lookupC (p1 :: p2 :: rest) q.1 = some q.2 := by
          apply lookupC_of_mem_nodup hu
          simpa using hq
        have hqv : childVal (p1 :: p2 :: rest) q.1 = q.2.value := by
          rw [childVal, hlook]
        have hmax0 : childVal (p1 :: p2 :: rest) c0 = pmax.2.value := by
          rw [← hne]
          rw [childVal, lookupC_of_mem_nodup hu (show (pmax.1, pmax.2) ∈ _ by
            simpa using hpmax)]
        have := hmin q hq
        rw [hmax0] at this
        omega
  · refine ⟨pmax.1, mem_keysOf.mpr ⟨pmax.2, by simpa using hpmax⟩, hne, ?_⟩
    have hlook : lookupC cs pmax.1 = some pmax.2 := by
      apply lookupC_of_mem_nodup hu
      simpa using hpmax
    rw [childVal, hlook]
    show 0 < pmax.2.value
    omega

theorem elimSet_facts (root : Node) (rules : Rules)
    (hlen3 : 3 ≤ root.children.length)
    (hu : nodupB (keysOf root.children) = true)
    (hnn : ∀ p : Nat × Node, p ∈ root.children → 0 ≤ p.2.value)
    (hub : ∀ p : Nat × Node, p ∈ root.children → p.2.value < maxint)
    (hlead : 0 < leadVotes root.children) :
    (eliminationSet root rules).1 ≠ [] ∧
    (∀ x ∈ (eliminationSet root rules).1, x ∈ keysOf root.children) ∧
    ∃ c', c' ∈ keysOf root.children ∧ c' ∉ (eliminationSet root rules).1 ∧
      0 < childVal root.children c' := by
  have hne : root.children ≠ [] := by
    intro h
    rw [h] at hlen3
    simp at hlen3
  have hlen2 : 2 ≤ root.children.length := by omega
  cases rules with
  | baseIrv =>
      obtain ⟨p0, hp0, hmin0, hminv⟩ := argminChild_spec root.children hne hub
      have hE : (eliminationSet root Rules.baseIrv).1 = [argminChild root.children] := rfl
      have hc0v : childVal root.children (argminChild root.children) = p0.2.value := by
        rw [hmin0, childVal, lookupC_of_mem_nodup hu (show (p0.1, p0.2) ∈ _ by
          simpa using hp0)]
      obtain ⟨c', hc'm, hc'ne, hc'pos⟩ := survivor_of_min root.children
        (argminChild root.children) hlen2 hu hlead
        (fun p hp => by rw [hc0v]; exact hminv p hp)
      refine ⟨by rw [hE]; simp, ?_, c', hc'm, ?_, hc'pos⟩
      · intro x hx
        rw [hE, List.mem_singleton] at hx
        subst hx
        rw [hmin0]
        exact mem_keysOf.mpr ⟨p0.2, by simpa using hp0⟩
      · rw [hE, List.mem_singleton]
        exact hc'ne
  | completeIrv =>
      obtain ⟨p0, hp0, hmin0, hminv⟩ := argminChild_spec root.children hne hub
      have hE : (eliminationSet root Rules.completeIrv).1 =
        [argminChild root.children] := rfl
      have hc0v : childVal root.children (argminChild root.children) = p0.2.value := by
        rw [hmin0, childVal, lookupC_of_mem_nodup hu (show (p0.1, p0.2) ∈ _ by
          simpa using hp0)]
      obtain ⟨c', hc'm, hc'ne, hc'pos⟩ := survivor_of_min root.children
        (argminChild root.children) hlen2 hu hlead
        (fun p hp => by rw [hc0v]; exact hminv p hp)
      refine ⟨by rw [hE]; simp, ?_, c', hc'm, ?_, hc'pos⟩
      · intro x hx
        rw [hE, List.mem_singleton] at hx
        subst hx
        rw [hmin0]
        exact mem_keysOf.mpr ⟨p0.2, by simpa using hp0⟩
      · rw [hE, List.mem_singleton]
        exact hc'ne
  | sfRcv =>
      obtain ⟨hdisj, hne', hproper, hsub⟩ := sfElim_facts root hlen2 hu hnn
      refine ⟨hne', hsub, ?_⟩
      rcases hdisj with ⟨j, hvp, hE, _⟩ | ⟨_, c, hE, hcm, hcmin⟩
      · obtain ⟨pmax, hpmax, hpval⟩ := leadVotes_mem root.children hlead
        have hperm := sortedCandidates_perm root
        have hpmem : pmax.1 ∈ keysOf root.children :=
          mem_keysOf.mpr ⟨pmax.2, by simpa using hpmax⟩
        have hplook : lookupC root.children pmax.1 = some pmax.2 :=
          lookupC_of_mem_nodup hu (by simpa using hpmax)
        have hpcv : childVal root.children pmax.1 = pmax.2.value := by
          rw [childVal, hplook]
        refine ⟨pmax.1, hpmem, ?_, by omega⟩
        rw [hE]
        intro htake
        obtain ⟨h0j, hjlen, hout⟩ := hvp
        have hdropne : (sortedCandidates root).drop j ≠ [] := by
          intro hcon
          have := congrArg List.length hcon
          simp only [List.length_drop, List.length_nil] at this
          omega
        obtain ⟨cOut, hcOut⟩ := List.exists_mem_of_ne_nil _ hdropne
        have hsumlt := hout cOut hcOut
        have hsum_ge : childVal root.children pmax.1 ≤
            (((sortedCandidates root).take j).map
              (fun x => childVal root.children x)).sum := by
          apply List.single_le_sum
          · intro x hx
            rcases List.mem_map.mp hx with ⟨y, _, rfl⟩
            exact childVal_nonneg_of hnn y
          · exact List.mem_map.mpr ⟨pmax.1, htake, rfl⟩
        have hcOutkeys : cOut ∈ keysOf root.children := by
          apply hperm.subset
          exact List.mem_of_mem_drop hcOut
        have hcOutle : childVal root.children cOut ≤ max 0 (leadVotes root.children) :=
          childVal_le_lead root.children cOut hnn
        omega
      · have hcv : ∀ p : Nat × Node, p ∈ root.children →
            childVal root.children c ≤ p.2.value := hcmin
        obtain ⟨c', hc'm, hc'ne, hc'pos⟩ := survivor_of_min root.children c
          hlen2 hu hlead hcv
        refine ⟨c', hc'm, ?_, hc'pos⟩
        rw [hE, List.mem_singleton]
        exact hc'ne

theorem member_le_sumVals {cs : List (Nat × Node)}
    (hnn : ∀ q : Nat × Node, q ∈ cs → 0 ≤ q.2.value) :
    ∀ p : Nat × Node, p ∈ cs → p.2.value ≤ sumVals cs := by
  induction cs with
  | nil => simp
  | cons q rest ih =>
      obtain ⟨k, u⟩ := q
      intro p hp
      have h0 : 0 ≤ u.value := hnn (k, u) (List.mem_cons_self _ _)
      have hr : 0 ≤ sumVals rest := by
        apply sumVals_nonneg
        intro q hq
        exact hnn q (List.mem_cons_of_mem _ hq)
      rcases List.mem_cons.mp hp with rfl | hp'
      · have hpe : ((k, u) : Nat × Node).2.value = u.value := rfl
        simp only [sumVals]
        omega
      · have := ih (fun q hq => hnn q (List.mem_cons_of_mem _ hq)) p hp'
        simp only [sumVals]
        omega

theorem irvLoop_winner (rules : Rules) (cands : List Nat) (V0 : Int)
    (hV0 : V0 < maxint) :
    ∀ (rem r : Nat) (root : Node) (eliminated : List Nat)
      (counts : List (Nat × List Int)) (elim : List (List Nat)),
      consV root = true → uniqK root = true → ndp [] root = true →
      keysIn cands root = true →
      root.value = V0 →
      (∀ x, x ∈ keysOf root.children ↔ (x ∈ cands ∧ x ∉ eliminated)) →
      (∀ x ∈ eliminated, cFree x root = true) →
      0 < leadVotes root.children →
      1 ≤ rem → root.children.length ≤ rem + 1 →
      ∃ st : RoundState,
        irvLoop rules cands rem r root eliminated counts elim = some st ∧
        ∃ w, st.winner = some w ∧ w ∈ cands := by
  intro rem
  induction rem with
  | zero =>
      intro r root eliminated counts elim _ _ _ _ _ _ _ _ hrem _
      omega
  | succ rem ih =>
      intro r root eliminated counts elim hcons huniq hndp hkeys hval hmem helimfree
        hlead hrem hcount
      have hchne : root.children ≠ [] := by
        intro h
        rw [h] at hlead
        simp [leadVotes] at hlead
      have hnnch : ∀ p : Nat × Node, p ∈ root.children → 0 ≤ p.2.value := by
        intro p hp
        have hv := consV_vnn root hcons
        rw [vnn_eq] at hv
        simp only [Bool.and_eq_true, decide_eq_true_eq] at hv
        rw [vnnL_iff] at hv
        have := hv.2 p hp
        rw [vnn_eq] at this
        simp only [Bool.and_eq_true, decide_eq_true_eq] at this
        exact this.1
      have hukeys : nodupB (keysOf root.children) = true := by
        rw [uniqK_eq] at huniq
        simp only [Bool.and_eq_true] at huniq
        exact huniq.1
      have huL : uniqKL root.children = true := by
        rw [uniqK_eq] at huniq
        simp only [Bool.and_eq_true] at huniq
        exact huniq.2
      have hsumv : sumVals root.children ≤ root.value := by
        rw [consV_eq] at hcons
        simp only [Bool.and_eq_true, decide_eq_true_eq] at hcons
        exact hcons.1
      have hub : ∀ p : Nat × Node, p ∈ root.children → p.2.value < maxint := by
        intro p hp
        have h1 := member_le_sumVals hnnch p hp
        omega
      have hany : (root.children.any (fun p => eliminated.contains p.1)) = false := by
        rw [List.any_eq_false]
        intro p hp
        have hkey : p.1 ∈ keysOf root.children := mem_keysOf.mpr ⟨p.2, by simpa using hp⟩
        have := (hmem p.1).mp hkey
        simp only [Bool.not_eq_true]
        exact (containsB_false_iff _ _).mpr this.2
      have hshigh : (roundScan root.children).2.2 = leadVotes root.children :=
        roundScan_high root.children
      by_cases hwin : (rules ≠ Rules.completeIrv ∧
          (roundScan root.children).2.2 * 2 > (roundScan root.children).1) ∨
          root.children.length ≤ 2
      · have hsm : (roundScan root.children).2.1 ∈ keysOf root.children := by
          apply roundScan_mem
          rw [hshigh]
          exact hlead
        have hw := (hmem _).mp hsm
        have hfe : ((cands.filter (fun c => !(eliminated.contains c))).contains
            (roundScan root.children).2.1) = true := by
          rw [containsB_iff, List.mem_filter]
          refine ⟨hw.1, ?_⟩
          simp only [Bool.not_eq_true']
          exact (containsB_false_iff _ _).mpr hw.2
        have heq : irvLoop rules cands (rem + 1) r root eliminated counts elim =
            some ⟨some (roundScan root.children).2.1,
              updateCounts counts root.children (r + 1),
              elim ++ [(cands.filter (fun c => !(eliminated.contains c))).filter
                (fun c => decide (c ≠ (roundScan root.children).2.1))],
              root, r + 1⟩ := by
          simp only [irvLoop, hany, Bool.false_eq_true, if_false, if_pos hwin, hfe,
            if_true]
        exact ⟨_, heq, (roundScan root.children).2.1, rfl, hw.1⟩
      · have hlen3 : 3 ≤ root.children.length := by
          rcases Nat.lt_or_ge root.children.length 3 with h | h
          · exfalso
            exact hwin (Or.inr (by omega))
          · exact h
        obtain ⟨hSne, hSsub, c', hc'keys, hc'notS, hc'pos⟩ :=
          elimSet_facts root rules hlen3 hukeys hnnch hub hlead
        obtain ⟨s0, hs0⟩ := List.exists_mem_of_ne_nil _ hSne
        have hcons' := foldElim_consV (eliminationSet root rules).1 hcons
        have huniq' := foldElim_uniqK (eliminationSet root rules).1 huniq
        have hndp' := foldElim_ndp (eliminationSet root rules).1 hndp
        have hkeys' := keysIn_foldElim (eliminationSet root rules).1 root hkeys
        have hval' : (foldElim root (eliminationSet root rules).1).value = V0 := by
          rw [foldElim_value]
          exact hval
        have hfree' : ∀ x ∈ eliminated ++ (eliminationSet root rules).1,
            cFree x (foldElim root (eliminationSet root rules).1) = true := by
          intro x hx
          rcases List.mem_append.mp hx with hx' | hx'
          · exact foldElim_cFree_preserved _ (helimfree x hx')
          · exact foldElim_cFree_each _ hndp huniq x hx'
        have hmem' : ∀ x, x ∈ keysOf (foldElim root (eliminationSet root rules).1).children ↔
            (x ∈ cands ∧ x ∉ eliminated ++ (eliminationSet root rules).1) := by
          intro x
          constructor
          · intro hx
            refine ⟨keysIn_top hkeys' x hx, ?_⟩
            intro hxel
            exact cFree_not_mem_keys (hfree' x hxel) hx
          · rintro ⟨hxc, hxel⟩
            have hxold : x ∈ keysOf root.children := (hmem x).mpr
              ⟨hxc, fun h => hxel (List.mem_append.mpr (Or.inl h))⟩
            exact mem_keys_foldElim _ root x hxold
              (fun h => hxel (List.mem_append.mpr (Or.inr h)))
        have hc'mem' : c' ∈ keysOf (foldElim root (eliminationSet root rules).1).children := by
          apply mem_keys_foldElim _ root c' hc'keys hc'notS
        have hc'val' : 0 < childVal (foldElim root (eliminationSet root rules).1).children c' := by
          have := childVal_foldElim_ge (eliminationSet root rules).1 root c' hc'notS hcons
          omega
        have hlead' : 0 < leadVotes (foldElim root (eliminationSet root rules).1).children := by
          rcases mem_keysOf.mp hc'mem' with ⟨u, hu⟩
          have hlu : lookupC (foldElim root (eliminationSet root rules).1).children c' =
              some u := by
            apply lookupC_of_mem_nodup _ hu
            rw [uniqK_eq] at huniq'
            simp only [Bool.and_eq_true] at huniq'
            exact huniq'.1
          have hval_u : childVal (foldElim root (eliminationSet root rules).1).children c' =
              u.value := by
            rw [childVal, hlu]
          have := leadVotes_ge (foldElim root (eliminationSet root rules).1).children
            (c', u) hu
          simp only [] at this
          omega
        have hs0keys : s0 ∈ keysOf root.children := hSsub s0 hs0
        have hnodupold : (keysOf root.children).Nodup := (nodupB_iff _).mp hukeys
        have hnodupnew : (keysOf (foldElim root (eliminationSet root rules).1).children).Nodup := by
          rw [uniqK_eq] at huniq'
          simp only [Bool.and_eq_true] at huniq'
          exact (nodupB_iff _).mp huniq'.1
        have hsubnew : keysOf (foldElim root (eliminationSet root rules).1).children ⊆
            (keysOf root.children).erase s0 := by
          intro x hx
          have hxprop := (hmem' x).mp hx
          have hxold : x ∈ keysOf root.children := (hmem x).mpr
            ⟨hxprop.1, fun h => hxprop.2 (List.mem_append.mpr (Or.inl h))⟩
          have hxne : x ≠ s0 := by
            intro hxeq
            exact hxprop.2 (List.mem_append.mpr (Or.inr (hxeq ▸ hs0)))
          exact (hnodupold.mem_erase_iff).mpr ⟨hxne, hxold⟩
        have hlennew : (foldElim root (eliminationSet root rules).1).children.length <
            root.children.length := by
          have h1 : (keysOf (foldElim root (eliminationSet root rules).1).children).length ≤
              ((keysOf root.children).erase s0).length :=
            List.Subperm.length_le (List.subperm_of_subset hnodupnew hsubnew)
          have h2 : ((keysOf root.children).erase s0).length =
              (keysOf root.children).length - 1 := List.length_erase_of_mem hs0keys
          have h3 : (keysOf (foldElim root (eliminationSet root rules).1).children).length =
              (foldElim root (eliminationSet root rules).1).children.length := by
            rw [keysOf, List.length_map]
          have h4 : (keysOf root.children).length = root.children.length := by
            rw [keysOf, List.length_map]
          have h5 : 0 < (keysOf root.children).length := by
            rw [h4]
            omega
          omega
        have hrec := ih (r + 1) (foldElim root (eliminationSet root rules).1)
          (eliminated ++ (eliminationSet root rules).1)
          (updateCounts counts root.children (r + 1))
          (elim ++ [(eliminationSet root rules).1])
          hcons' huniq' hndp' hkeys' hval' hmem' hfree' hlead'
          (by omega) (by omega)
        obtain ⟨st, hst, w, hwin', hwc⟩ := hrec
        refine ⟨st, ?_, w, hwin', hwc⟩
        simp only [irvLoop, hany, Bool.false_eq_true, if_false, if_neg hwin]
        exact hst

/-- Claim C4 (amended): for every election whose profile tree is well
formed (consistent counts, duplicate-free child keys, no path repeating
a candidate, all keys among the root candidates, total below sys.maxint)
and in which at least one candidate holds a positive top-choice count,
`irv` terminates with a winner that is one of the election's candidates,
under each of the three rules variants.  (With no positive top-choice
count the sentinel candidate 0 "wins" the scan and
`final_elim.remove(winner)` raises KeyError, so K ≥ 1 alone does not
suffice.) -/
theorem C4_irv_winner (e : Election) (rules : Rules)
    (hcons : consV e.profile = true) (huniq : uniqK e.profile = true)
    (hndp : ndp [] e.profile = true)
    (hkeys : keysIn (keysOf e.profile.children) e.profile = true)
    (hval : e.profile.value < maxint)
    (hsome : ∃ p : Nat × Node, p ∈ e.profile.children ∧ 0 < p.2.value) :
    ∃ (w : Nat) (counts : List (Nat × List Int)) (elim : List (List Nat)),
      irv e rules = some (some w, counts, elim) ∧
      w ∈ keysOf e.profile.children := by
  obtain ⟨p, hp, hppos⟩ := hsome
  have hlead : 0 < leadVotes e.profile.children := by
    have := leadVotes_ge e.profile.children p hp
    omega
  have hchne : e.profile.children ≠ [] := by
    intro h
    rw [h] at hp
    exact absurd hp (List.not_mem_nil p)
  have hlen1 : 1 ≤ e.profile.children.length := List.length_pos.mpr hchne
  have hloop := irvLoop_winner rules (keysOf e.profile.children) e.profile.value hval
    e.profile.children.length 0 e.profile []
    ((keysOf e.profile.children).map
      (fun c => (c, List.replicate e.profile.children.length (0 : Int)))) []
    hcons huniq hndp hkeys rfl
    (fun x => ⟨fun h => ⟨h, by simp⟩, fun h => h.1⟩)
    (by simp)
    hlead hlen1 (by omega)
  obtain ⟨st, hst, w, hwin, hwc⟩ := hloop
  have h1 : irvRound e.profile e.profile.children.length rules =
      some ⟨st.winner,
        (if st.roundsDone < e.profile.children.length then
          st.counts.map (fun q => (q.1, q.2.take st.roundsDone)) else st.counts),
        st.elimination, st.root⟩ := by
    simp only [irvRound]
    rw [hst]
  have h2 : irv e rules = some (st.winner,
      (if st.roundsDone < e.profile.children.length then
        st.counts.map (fun q => (q.1, q.2.take st.roundsDone)) else st.counts),
      st.elimination) := by
    simp only [irv]
    rw [h1]
  rw [hwin] at h2
  exact ⟨w, _, _, h2, hwc⟩

/-- Counterexample to claim C4: an election with one candidate (K = 1)
and no votes.  The round scan never sees a positive count, so the
"winner" stays at the sentinel 0, and `final_elim.remove(0)` raises
KeyError under every rules variant: `irv` crashes instead of returning
a candidate. -/
theorem C4_counterexample :
    1 ≤ cexIrv.profile.children.length ∧
    irv cexIrv Rules.baseIrv = none ∧
    irv cexIrv Rules.sfRcv = none ∧
    irv cexIrv Rules.completeIrv = none :=
  ⟨by decide, rfl, rfl, rfl⟩

/-- Witness for C4: a four-ballot, three-candidate election under the SF
rules elects a candidate. -/
theorem C4_irv_winner_witness :
    (consV (Node.mk 4 [(1, Node.mk 2 []), (2, Node.mk 1 []), (3, Node.mk 1 [])]) = true) ∧
    ((Node.mk 4 [(1, Node.mk 2 []), (2, Node.mk 1 []), (3, Node.mk 1 [])]).value < maxint) ∧
    (∃ (w : Nat) (counts : List (Nat × List Int)) (elim : List (List Nat)),
      irv ⟨["A", "B", "C"],
          Node.mk 4 [(1, Node.mk 2 []), (2, Node.mk 1 []), (3, Node.mk 1 [])],
          1, 1, ""⟩ Rules.sfRcv = some (some w, counts, elim) ∧
      w ∈ keysOf (Node.mk 4 [(1, Node.mk 2 []), (2, Node.mk 1 []),
        (3, Node.mk 1 [])]).children) :=
  ⟨by decide, by decide,
    C4_irv_winner ⟨["A", "B", "C"],
        Node.mk 4 [(1, Node.mk 2 []), (2, Node.mk 1 []), (3, Node.mk 1 [])],
        1, 1, ""⟩ Rules.sfRcv (by decide) (by decide) (by decide) (by decide)
      (by decide) ⟨(1, Node.mk 2 []), List.mem_cons_self _ _, by decide⟩⟩

@[simp] theorem posB_mk (v : Int) (cs : List (Nat × Node)) :
    posB (Node.mk v cs) = posBL cs := rfl

@[simp] theorem posBL_nil : posBL [] = true := rfl

@[simp] theorem posBL_cons (k : Nat) (u : Node) (rest : List (Nat × Node)) :
    posBL ((k, u) :: rest) = (decide (0 < u.value) && posB u && posBL rest) := rfl

theorem posB_eq (t : Node) : posB t = posBL t.children := by
  cases t
  rfl

theorem posBL_iff (cs : List (Nat × Node)) :
    posBL cs = true ↔ ∀ p : Nat × Node, p ∈ cs → 0 < p.2.value ∧ posB p.2 = true := by
  induction cs with
  | nil => simp
  | cons p rest ih =>
      obtain ⟨k, u⟩ := p
      simp [ih]

@[simp] theorem writeBallots_mk (ranks : Nat) (v : Int) (cs : List (Nat × Node))
    (b : List Nat) :
    writeBallots ranks (Node.mk v cs) b =
      writeBallotsL ranks cs b ++
        List.replicate (v - sumVals cs).toNat
          (b.map Token.cand ++ List.replicate (ranks - b.length) Token.skip) := by
  rw [writeBallots]

@[simp] theorem writeBallotsL_nil (ranks : Nat) (b : List Nat) :
    writeBallotsL ranks [] b = [] := by
  rw [writeBallotsL]

@[simp] theorem writeBallotsL_cons (ranks : Nat) (c : Nat) (n : Node)
    (rest : List (Nat × Node)) (b : List Nat) :
    writeBallotsL ranks ((c, n) :: rest) b =
      writeBallots ranks n (b ++ [c]) ++ writeBallotsL ranks rest b := by
  rw [writeBallotsL]

@[simp] theorem insertTok_nil (node : Node) (seen : List Nat) :
    insertTok node [] seen = node := rfl

@[simp] theorem insertTok_skip (node : Node) (rest : List Token) (seen : List Nat) :
    insertTok node (Token.skip :: rest) seen = insertTok node rest seen := rfl

@[simp] theorem insertTok_equal (node : Node) (rest : List Token) (seen : List Nat) :
    insertTok node (Token.equal :: rest) seen = node := rfl

theorem insertTok_cand (node : Node) (c : Nat) (rest : List Token) (seen : List Nat) :
    insertTok node (Token.cand c :: rest) seen =
      if c ∈ seen then insertTok node rest seen
      else
        Node.mk (getChildIns node c).2.value
          (replaceC (getChildIns node c).2.children c
            (insertTok (Node.mk ((getChildIns node c).1.value + 1)
              (getChildIns node c).1.children) rest (c :: seen))) := rfl

@[simp] theorem readBallots_nil (root : Node) : readBallots root [] = root := rfl

@[simp] theorem readBallots_cons (root : Node) (l : List Token)
    (ls : List (List Token)) :
    readBallots root (l :: ls) = readBallots (insertTok root l []) ls := rfl

theorem readBallots_append (root : Node) (as bs : List (List Token)) :
    readBallots root (as ++ bs) = readBallots (readBallots root as) bs := by
  simp [readBallots, List.foldl_append]

@[simp] theorem readBump_nil (ch : Node) : readBump ch [] = ch := rfl

@[simp] theorem readBump_cons (ch : Node) (l : List Token) (ls : List (List Token)) :
    readBump ch (l :: ls) =
      readBump (insertTok (Node.mk (ch.value + 1) ch.children) l []) ls := rfl

@[simp] theorem candsOf_nil : candsOf [] = [] := rfl

@[simp] theorem candsOf_cand (c : Nat) (l : List Token) :
    candsOf (Token.cand c :: l) = c :: candsOf l := rfl

@[simp] theorem candsOf_skip (l : List Token) :
    candsOf (Token.skip :: l) = candsOf l := rfl

@[simp] theorem candsOf_equal (l : List Token) :
    candsOf (Token.equal :: l) = candsOf l := rfl

theorem candsOf_append (l1 l2 : List Token) :
    candsOf (l1 ++ l2) = candsOf l1 ++ candsOf l2 := by
  simp [candsOf, List.filterMap_append]

theorem candsOf_map_cand (b : List Nat) : candsOf (b.map Token.cand) = b := by
  induction b with
  | nil => rfl
  | cons x xs ih => simp [ih]

theorem candsOf_replicate_skip (k : Nat) :
    candsOf (List.replicate k Token.skip) = [] := by
  induction k with
  | zero => rfl
  | succ n ih => simp [List.replicate_succ, ih]

theorem insertTok_skips (node : Node) (k : Nat) (seen : List Nat) :
    insertTok node (List.replicate k Token.skip) seen = node := by
  induction k with
  | zero => rfl
  | succ n ih => simp [List.replicate_succ, ih]

theorem insertTok_value (l : List Token) :
    ∀ (node : Node) (seen : List Nat), (insertTok node l seen).value = node.value := by
  induction l with
  | nil => intro node seen; rfl
  | cons t rest ih =>
      intro node seen
      cases t with
      | skip => simpa using ih node seen
      | equal => rfl
      | cand c =>
          rw [insertTok_cand]
          by_cases hc : c ∈ seen
          · rw [if_pos hc]; exact ih node seen
          · rw [if_neg hc]
            simp only [Node.value_mk]
            exact (getChildIns_spec node c).2.1

theorem insertTok_children_congr (l : List Token) :
    ∀ (v v' : Int) (cs : List (Nat × Node)) (seen : List Nat),
      (insertTok (Node.mk v cs) l seen).children =
        (insertTok (Node.mk v' cs) l seen).children := by
  induction l with
  | nil => intro v v' cs seen; rfl
  | cons t rest ih =>
      intro v v' cs seen
      cases t with
      | skip => simpa using ih v v' cs seen
      | equal => rfl
      | cand c =>
          rw [insertTok_cand, insertTok_cand]
          by_cases hc : c ∈ seen
          · rw [if_pos hc, if_pos hc]; exact ih v v' cs seen
          · rw [if_neg hc, if_neg hc]
            cases hl : lookupC cs c with
            | some ch =>
                have h1 : getChildIns (Node.mk v cs) c = (ch, Node.mk v cs) := by
                  simp [getChildIns, hl]
                have h2 : getChildIns (Node.mk v' cs) c = (ch, Node.mk v' cs) := by
                  simp [getChildIns, hl]
                rw [h1, h2]
                rfl
            | none =>
                have h1 : getChildIns (Node.mk v cs) c =
                    (Node.mk 0 [], Node.mk v (cs ++ [(c, Node.mk 0 [])])) := by
                  simp [getChildIns, hl]
                have h2 : getChildIns (Node.mk v' cs) c =
                    (Node.mk 0 [], Node.mk v' (cs ++ [(c, Node.mk 0 [])])) := by
                  simp [getChildIns, hl]
                rw [h1, h2]
                rfl

theorem insertTok_seen_congr (l : List Token) :
    ∀ (node : Node) (s1 s2 : List Nat),
      (∀ x ∈ candsOf l, (x ∈ s1 ↔ x ∈ s2)) →
      insertTok node l s1 = insertTok node l s2 := by
  induction l with
  | nil => intro node s1 s2 _; rfl
  | cons t rest ih =>
      intro node s1 s2 h
      cases t with
      | skip =>
          simp only [insertTok_skip]
          exact ih node s1 s2 (by simpa using h)
      | equal => rfl
      | cand c =>
          have hc : c ∈ s1 ↔ c ∈ s2 := h c (by simp)
          have hrest : ∀ x ∈ candsOf rest, (x ∈ s1 ↔ x ∈ s2) := by
            intro x hx
            exact h x (by simp [hx])
          rw [insertTok_cand, insertTok_cand]
          by_cases h1 : c ∈ s1
          · rw [if_pos h1, if_pos (hc.mp h1)]
            exact ih node s1 s2 hrest
          · rw [if_neg h1, if_neg (fun h2 => h1 (hc.mpr h2))]
            have : insertTok (Node.mk ((getChildIns node c).1.value + 1)
                (getChildIns node c).1.children) rest (c :: s1) =
              insertTok (Node.mk ((getChildIns node c).1.value + 1)
                (getChildIns node c).1.children) rest (c :: s2) := by
              apply ih
              intro x hx
              simp only [List.mem_cons]
              rw [hrest x hx]
            rw [this]

theorem readBallots_value (ls : List (List Token)) :
    ∀ root : Node, (readBallots root ls).value = root.value := by
  induction ls with
  | nil => intro root; rfl
  | cons l rest ih =>
      intro root
      rw [readBallots_cons, ih, insertTok_value]

theorem insertTok_children_of_value (node : Node) (v : Int) (l : List Token)
    (seen : List Nat) :
    (insertTok (Node.mk v node.children) l seen).children =
      (insertTok node l seen).children := by
  conv_rhs => rw [← Node.eta node]
  exact insertTok_children_congr l v node.value node.children seen

theorem readBallots_children_congr (ls : List (List Token)) :
    ∀ (v v' : Int) (cs : List (Nat × Node)),
      (readBallots (Node.mk v cs) ls).children =
        (readBallots (Node.mk v' cs) ls).children := by
  induction ls with
  | nil => intro v v' cs; rfl
  | cons l rest ih =>
      intro v v' cs
      rw [readBallots_cons, readBallots_cons]
      have h1 : insertTok (Node.mk v cs) l [] =
          Node.mk v (insertTok (Node.mk v cs) l []).children := by
        conv_lhs => rw [← Node.eta (insertTok (Node.mk v cs) l [])]
        rw [insertTok_value]
        rfl
      have h2 : insertTok (Node.mk v' cs) l [] =
          Node.mk v' (insertTok (Node.mk v' cs) l []).children := by
        conv_lhs => rw [← Node.eta (insertTok (Node.mk v' cs) l [])]
        rw [insertTok_value]
        rfl
      rw [h1, h2, insertTok_children_congr l v v' cs []]
      exact ih v v' _

theorem readBallots_children_of_value (node : Node) (v : Int)
    (ls : List (List Token)) :
    (readBallots (Node.mk v node.children) ls).children =
      (readBallots node ls).children := by
  conv_rhs => rw [← Node.eta node]
  exact readBallots_children_congr ls v node.value node.children

theorem readBump_spec (ls : List (List Token)) :
    ∀ ch : Node, readBump ch ls =
      Node.mk (ch.value + (ls.length : Int)) ((readBallots ch ls).children) := by
  induction ls with
  | nil =>
      intro ch
      simp only [readBump_nil, readBallots_nil, List.length_nil, Int.ofNat_zero,
        add_zero]
      exact (Node.eta ch).symm
  | cons l rest ih =>
      intro ch
      rw [readBump_cons, ih, readBallots_cons]
      have hval : (insertTok (Node.mk (ch.value + 1) ch.children) l []).value =
          ch.value + 1 := by
        rw [insertTok_value]
        rfl
      have hrd : (readBallots (insertTok (Node.mk (ch.value + 1) ch.children) l [])
            rest).children = (readBallots (insertTok ch l []) rest).children := by
        have hx : insertTok (Node.mk (ch.value + 1) ch.children) l [] =
            Node.mk (ch.value + 1) (insertTok ch l []).children := by
          conv_lhs =>
            rw [← Node.eta (insertTok (Node.mk (ch.value + 1) ch.children) l [])]
          rw [hval, insertTok_children_of_value]
        rw [hx]
        exact readBallots_children_of_value (insertTok ch l []) (ch.value + 1) rest
      rw [hrd, hval]
      have : ch.value + 1 + (rest.length : Int) =
          ch.value + ((l :: rest).length : Int) := by
        simp only [List.length_cons]
        push_cast
        ring
      rw [this]

theorem replaceC_self {cs : List (Nat × Node)} {c : Nat} {u : Node}
    (h : lookupC cs c = some u) : replaceC cs c u = cs := by
  induction cs with
  | nil => rfl
  | cons p rest ih =>
      obtain ⟨k, n⟩ := p
      simp only [lookupC] at h
      by_cases hk : k = c
      · rw [if_pos hk] at h
        injection h with h
        simp [replaceC, hk, h]
      · rw [if_neg hk] at h
        simp [replaceC, hk, ih h]

theorem replaceC_replaceC (cs : List (Nat × Node)) (c : Nat) (a b : Node) :
    replaceC (replaceC cs c a) c b = replaceC cs c b := by
  induction cs with
  | nil => rfl
  | cons p rest ih =>
      obtain ⟨k, n⟩ := p
      by_cases hk : k = c
      · simp [replaceC, hk]
      · simp [replaceC, hk, ih]

theorem replaceC_append_of_none {cs : List (Nat × Node)} {c : Nat}
    (ds : List (Nat × Node)) (n' : Node) (h : lookupC cs c = none) :
    replaceC (cs ++ ds) c n' = cs ++ replaceC ds c n' := by
  induction cs with
  | nil => rfl
  | cons p rest ih =>
      obtain ⟨k, n⟩ := p
      simp only [lookupC] at h
      by_cases hk : k = c
      · rw [if_pos hk] at h
        exact absurd h (by simp)
      · rw [if_neg hk] at h
        simp [replaceC, hk, ih h]

theorem readBallots_focus_present (c : Nat) (L : List (List Token)) :
    ∀ (R ch : Node), lookupC R.children c = some ch →
      (∀ l ∈ L, c ∉ candsOf l) →
      readBallots R (L.map (fun l => Token.cand c :: l)) =
        Node.mk R.value (replaceC R.children c (readBump ch L)) := by
  induction L with
  | nil =>
      intro R ch hl _
      simp only [List.map_nil, readBallots_nil, readBump_nil]
      rw [replaceC_self hl, Node.eta]
  | cons l rest ih =>
      intro R ch hl hc
      have hg : getChildIns R c = (ch, R) := by
        simp [getChildIns, hl]
      rw [List.map_cons, readBallots_cons, insertTok_cand,
        if_neg (List.not_mem_nil c), hg]
      have hseen : insertTok (Node.mk ((ch, R).1.value + 1) (ch, R).1.children) l
          (c :: []) = insertTok (Node.mk (ch.value + 1) ch.children) l [] := by
        apply insertTok_seen_congr
        intro x hx
        have hxc : x ≠ c := fun hxc => (hc l (by simp)) (hxc ▸ hx)
        simp [hxc]
      rw [hseen]
      have hl' : lookupC (Node.mk R.value (replaceC R.children c
          (insertTok (Node.mk (ch.value + 1) ch.children) l []))).children c =
          some (insertTok (Node.mk (ch.value + 1) ch.children) l []) := by
        simp only [Node.children_mk]
        exact lookupC_replaceC_self _ hl
      have hrest : ∀ l' ∈ rest, c ∉ candsOf l' := fun l' h' => hc l' (by simp [h'])
      rw [ih _ _ hl' hrest]
      simp only [Node.value_mk, Node.children_mk]
      rw [replaceC_replaceC, readBump_cons]

theorem readBallots_focus (c : Nat) (L : List (List Token)) (R : Node)
    (hc : ∀ l ∈ L, c ∉ candsOf l)
    (hok : (lookupC R.children c).isSome = true ∨ L ≠ []) :
    readBallots R (L.map (fun l => Token.cand c :: l)) =
      Node.mk (getChildIns R c).2.value
        (replaceC (getChildIns R c).2.children c
          (readBump (getChildIns R c).1 L)) := by
  cases hl : lookupC R.children c with
  | some ch =>
      have hg : getChildIns R c = (ch, R) := by
        simp [getChildIns, hl]
      rw [hg]
      exact readBallots_focus_present c L R ch hl hc
  | none =>
      have hg : getChildIns R c =
          (Node.mk 0 [], Node.mk R.value (R.children ++ [(c, Node.mk 0 [])])) := by
        simp [getChildIns, hl]
      cases L with
      | nil =>
          rcases hok with hok | hok
          · rw [hl] at hok
            exact absurd hok (by simp)
          · exact absurd rfl hok
      | cons l rest =>
          rw [hg, List.map_cons, readBallots_cons, insertTok_cand,
            if_neg (List.not_mem_nil c), hg]
          have hseen : insertTok (Node.mk (((Node.mk (0 : Int) ([] : List (Nat × Node)),
              Node.mk R.value (R.children ++ [(c, Node.mk 0 [])]))).1.value + 1)
              ((Node.mk (0 : Int) ([] : List (Nat × Node)),
              Node.mk R.value (R.children ++ [(c, Node.mk 0 [])]))).1.children) l
              (c :: []) =
              insertTok (Node.mk ((0 : Int) + 1) []) l [] := by
            apply insertTok_seen_congr
            intro x hx
            have hxc : x ≠ c := fun hxc => (hc l (by simp)) (hxc ▸ hx)
            simp [hxc]
          rw [hseen]
          have hrep : replaceC (R.children ++ [(c, Node.mk 0 [])]) c
              (insertTok (Node.mk ((0 : Int) + 1) []) l []) =
              R.children ++ [(c, insertTok (Node.mk ((0 : Int) + 1) []) l [])] := by
            rw [replaceC_append_of_none _ _ hl]
            simp [replaceC]
          simp only [Node.value_mk, Node.children_mk]
          rw [hrep]
          have hl' : lookupC (R.children ++
              [(c, insertTok (Node.mk ((0 : Int) + 1) []) l [])]) c =
              some (insertTok (Node.mk ((0 : Int) + 1) []) l []) := by
            rw [lookupC_append_none _ hl]
            simp [lookupC]
          have hrest : ∀ l' ∈ rest, c ∉ candsOf l' := fun l' h' => hc l' (by simp [h'])
          have hfp := readBallots_focus_present c rest
            (Node.mk R.value (R.children ++
              [(c, insertTok (Node.mk ((0 : Int) + 1) []) l [])]))
            (insertTok (Node.mk ((0 : Int) + 1) []) l []) (by simpa using hl') hrest
          rw [hfp]
          simp only [Node.value_mk, Node.children_mk]
          have hrep2 : replaceC (R.children ++
              [(c, insertTok (Node.mk ((0 : Int) + 1) []) l [])]) c
              (readBump (insertTok (Node.mk ((0 : Int) + 1) []) l []) rest) =
              R.children ++ [(c, readBump (insertTok (Node.mk ((0 : Int) + 1) []) l [])
                rest)] := by
            rw [replaceC_append_of_none _ _ hl]
            simp [replaceC]
          rw [hrep2]
          have hrep3 : replaceC (R.children ++ [(c, Node.mk 0 [])]) c
              (readBump (Node.mk 0 []) (l :: rest)) =
              R.children ++ [(c, readBump (Node.mk 0 []) (l :: rest))] := by
            rw [replaceC_append_of_none _ _ hl]
            simp [replaceC]
          rw [hrep3, readBump_cons]
          rfl

theorem readBallots_replicate_skip (n : Nat) (node : Node) (k : Nat) :
    readBallots node (List.replicate n (List.replicate k Token.skip)) = node := by
  induction n generalizing node with
  | zero => rfl
  | succ m ih =>
      rw [List.replicate_succ, readBallots_cons, insertTok_skips]
      exact ih node

theorem writeBallots_shift : ∀ t : Node, ∀ (ranks : Nat) (b : List Nat),
    writeBallots ranks t b =
      (writeBallots (ranks - b.length) t []).map
        (fun l => b.map Token.cand ++ l) := by
  apply node_size_ind (fun t => ∀ (ranks : Nat) (b : List Nat),
    writeBallots ranks t b =
      (writeBallots (ranks - b.length) t []).map (fun l => b.map Token.cand ++ l))
  intro t ih ranks b
  obtain ⟨v, cs⟩ := t
  have hent : ∀ p : Nat × Node, p ∈ cs → ∀ (ranks : Nat) (b : List Nat),
      writeBallots ranks p.2 b =
        (writeBallots (ranks - b.length) p.2 []).map
          (fun l => b.map Token.cand ++ l) := by
    intro p hp
    exact ih p.2 (size_snd_lt hp)
  have inner : ∀ ds : List (Nat × Node),
      (∀ p : Nat × Node, p ∈ ds → ∀ (ranks : Nat) (b : List Nat),
        writeBallots ranks p.2 b =
          (writeBallots (ranks - b.length) p.2 []).map
            (fun l => b.map Token.cand ++ l)) →
      ∀ (ranks : Nat) (b : List Nat),
        writeBallotsL ranks ds b =
          (writeBallotsL (ranks - b.length) ds []).map
            (fun l => b.map Token.cand ++ l) := by
    intro ds hds
    induction ds with
    | nil => intro ranks b; simp
    | cons p rest ihr =>
        intro ranks b
        obtain ⟨c, n⟩ := p
        have hn := hds (c, n) (by simp)
        have hrest : ∀ p : Nat × Node, p ∈ rest → ∀ (ranks : Nat) (b : List Nat),
            writeBallots ranks p.2 b =
              (writeBallots (ranks - b.length) p.2 []).map
                (fun l => b.map Token.cand ++ l) := by
          intro p hp
          exact hds p (by simp [hp])
        rw [writeBallotsL_cons, writeBallotsL_cons, List.map_append,
          ihr hrest ranks b]
        have h1 := hn ranks (b ++ [c])
        have h2 := hn (ranks - b.length) [c]
        have hlen : ranks - (b ++ [c]).length = ranks - b.length - 1 := by
          simp [List.length_append, Nat.sub_sub]
        rw [h1, hlen]
        have h2' : writeBallots (ranks - b.length) n ([] ++ [c]) =
            (writeBallots (ranks - b.length - 1) n []).map
              (fun l => [c].map Token.cand ++ l) := by
          simpa using h2
        rw [h2', List.map_map]
        congr 1
        apply List.map_congr_left
        intro l hl
        simp

  rw [writeBallots_mk, writeBallots_mk, List.map_append,
    inner cs hent ranks b]
  congr 1
  simp [List.map_replicate]

theorem writeBallots_length : ∀ t : Node, consV t = true →
    ∀ (ranks : Nat) (b : List Nat),
      ((writeBallots ranks t b).length : Int) = t.value := by
  apply node_size_ind (fun t => consV t = true →
    ∀ (ranks : Nat) (b : List Nat),
      ((writeBallots ranks t b).length : Int) = t.value)
  intro t ih hcons ranks b
  obtain ⟨v, cs⟩ := t
  rw [consV_eq] at hcons
  simp only [Node.value_mk, Node.children_mk, Bool.and_eq_true,
    decide_eq_true_eq] at hcons
  obtain ⟨hle, hcl⟩ := hcons
  have hent : ∀ p : Nat × Node, p ∈ cs → consV p.2 = true →
      ∀ (ranks : Nat) (b : List Nat),
        ((writeBallots ranks p.2 b).length : Int) = p.2.value := by
    intro p hp
    exact ih p.2 (size_snd_lt hp)
  have inner : ∀ ds : List (Nat × Node),
      (∀ p : Nat × Node, p ∈ ds → consV p.2 = true →
        ∀ (ranks : Nat) (b : List Nat),
          ((writeBallots ranks p.2 b).length : Int) = p.2.value) →
      consVL ds = true →
      ∀ (ranks : Nat) (b : List Nat),
        ((writeBallotsL ranks ds b).length : Int) = sumVals ds := by
    intro ds hds hdl
    induction ds with
    | nil => intro ranks b; simp [sumVals]
    | cons p rest ihr =>
        intro ranks b
        obtain ⟨c, n⟩ := p
        simp only [consVL_cons, Bool.and_eq_true] at hdl
        have hrest : ∀ p : Nat × Node, p ∈ rest → consV p.2 = true →
            ∀ (ranks : Nat) (b : List Nat),
              ((writeBallots ranks p.2 b).length : Int) = p.2.value := by
          intro p hp
          exact hds p (by simp [hp])
        rw [writeBallotsL_cons]
        rw [List.length_append]
        push_cast
        rw [hds (c, n) (by simp) hdl.1 ranks (b ++ [c]), ihr hrest hdl.2 ranks b]
        simp [sumVals]
  rw [writeBallots_mk, List.length_append]
  push_cast
  rw [inner cs hent hcl ranks b, List.length_replicate]
  rw [Int.toNat_of_nonneg (by omega)]
  simp only [Node.value_mk]
  ring

theorem writeBallots_cands_mem : ∀ t : Node, ∀ (ranks : Nat) (b : List Nat)
    (l : List Token), l ∈ writeBallots ranks t b →
    ∀ x, x ∈ candsOf l → cFree x t = true → x ∈ b := by
  apply node_size_ind (fun t => ∀ (ranks : Nat) (b : List Nat)
    (l : List Token), l ∈ writeBallots ranks t b →
    ∀ x, x ∈ candsOf l → cFree x t = true → x ∈ b)
  intro t ih ranks b l hl x hx hfree
  obtain ⟨v, cs⟩ := t
  rw [cFree_eq] at hfree
  simp only [Node.children_mk] at hfree
  rw [writeBallots_mk] at hl
  rcases List.mem_append.mp hl with hl | hl
  · have hent : ∀ p : Nat × Node, p ∈ cs → ∀ (ranks : Nat) (b : List Nat)
        (l : List Token), l ∈ writeBallots ranks p.2 b →
        ∀ x, x ∈ candsOf l → cFree x p.2 = true → x ∈ b := by
      intro p hp
      exact ih p.2 (size_snd_lt hp)
    have inner : ∀ ds : List (Nat × Node),
        (∀ p : Nat × Node, p ∈ ds → ∀ (ranks : Nat) (b : List Nat)
          (l : List Token), l ∈ writeBallots ranks p.2 b →
          ∀ x, x ∈ candsOf l → cFree x p.2 = true → x ∈ b) →
        cFreeL x ds = true →
        ∀ (ranks : Nat) (b : List Nat) (l : List Token),
          l ∈ writeBallotsL ranks ds b → x ∈ candsOf l → x ∈ b := by
      intro ds hds hfl
      induction ds with
      | nil => intro ranks b l hl _; simp at hl
      | cons p rest ihr =>
          intro ranks b l hl hx
          obtain ⟨c, n⟩ := p
          simp only [cFreeL_cons, Bool.and_eq_true, decide_eq_true_eq] at hfl
          obtain ⟨⟨hne, hfn⟩, hfr⟩ := hfl
          rw [writeBallotsL_cons] at hl
          rcases List.mem_append.mp hl with hl | hl
          · have := hds (c, n) (by simp) ranks (b ++ [c]) l hl x hx hfn
            rcases List.mem_append.mp this with h | h
            · exact h
            · simp at h
              exact absurd h.symm hne
          · exact ihr (fun p hp => hds p (by simp [hp])) hfr ranks b l hl hx
    exact inner cs (fun p hp => hent p hp) hfree ranks b l hl hx
  · have hrep := List.eq_of_mem_replicate hl
    subst hrep
    rw [candsOf_append, candsOf_map_cand, candsOf_replicate_skip] at hx
    simpa using hx

@[simp] theorem graftKids_nil (cs0 : List (Nat × Node)) : graftKids cs0 [] = cs0 := by
  rw [graftKids]

theorem graftKids_cons (cs0 : List (Nat × Node)) (c : Nat) (tc : Node)
    (rest : List (Nat × Node)) :
    graftKids cs0 ((c, tc) :: rest) =
      graftKids (if (lookupC cs0 c).isSome then replaceC cs0 c tc
        else cs0 ++ [(c, tc)]) rest := by
  rw [graftKids]

theorem graftKids_exact_aux : ∀ (ext done todo0 : List (Nat × Node)),
    keysOf todo0 = keysOf ext → (∀ p : Nat × Node, p ∈ todo0 → p.2 = Node.mk 0 []) →
    (keysOf (done ++ todo0)).Nodup →
    graftKids (done ++ todo0) ext = done ++ ext := by
  intro ext
  induction ext with
  | nil =>
      intro done todo0 hk _ _
      have ht : todo0 = [] := by
        cases todo0 with
        | nil => rfl
        | cons q r => simp [keysOf] at hk
      subst ht
      simp
  | cons p rest ih =>
      intro done todo0 hk hz hnodup
      obtain ⟨c, tc⟩ := p
      cases todo0 with
      | nil => simp [keysOf] at hk
      | cons q todo0' =>
          obtain ⟨k0, z⟩ := q
          simp only [keysOf, List.map_cons, List.cons.injEq] at hk
          obtain ⟨hk0, hk'⟩ := hk
          subst hk0
          have hzz : z = Node.mk 0 [] := hz (k0, z) (by simp)
          subst hzz
          have hcdone : k0 ∉ keysOf done := by
            simp only [keysOf, List.map_append, List.map_cons] at hnodup
            have := (List.nodup_append.mp hnodup).2.2
            intro hmem
            exact this hmem (by simp)
          have hld : lookupC done k0 = none := (lookupC_none_iff _ _).mpr hcdone
          have hlook : lookupC (done ++ (k0, Node.mk 0 []) :: todo0') k0 =
              some (Node.mk 0 []) := by
            rw [lookupC_append_none _ hld]
            simp [lookupC]
          rw [graftKids_cons, hlook]
          simp only [Option.isSome_some, if_pos]
          have hrep : replaceC (done ++ (k0, Node.mk 0 []) :: todo0') k0 tc =
              done ++ (k0, tc) :: todo0' := by
            rw [replaceC_append_of_none _ _ hld]
            simp [replaceC]
          rw [hrep]
          have hassoc : done ++ (k0, tc) :: todo0' =
              (done ++ [(k0, tc)]) ++ todo0' := by
            rw [List.append_assoc]
            rfl
          rw [hassoc]
          have hnodup' : (keysOf ((done ++ [(k0, tc)]) ++ todo0')).Nodup := by
            simp only [keysOf, List.map_append, List.map_cons, List.map_nil] at hnodup ⊢
            simpa [List.append_assoc] using hnodup
          rw [ih (done ++ [(k0, tc)]) todo0' hk'
            (fun p hp => hz p (by simp [hp])) hnodup']
          rw [List.append_assoc]
          rfl

theorem graftKids_exact (cs0 ext : List (Nat × Node))
    (hk : keysOf cs0 = keysOf ext)
    (hz : ∀ p : Nat × Node, p ∈ cs0 → p.2 = Node.mk 0 [])
    (hnodup : (keysOf cs0).Nodup) :
    graftKids cs0 ext = ext := by
  have := graftKids_exact_aux ext [] cs0 hk hz (by simpa using hnodup)
  simpa using this

theorem foldl_getChildIns : ∀ (ks : List Nat) (R : Node),
    (∀ k ∈ ks, lookupC R.children k = none) → ks.Nodup →
    ks.foldl (fun acc c => (getChildIns acc c).2) R =
      Node.mk R.value (R.children ++ ks.map (fun c => (c, Node.mk 0 []))) := by
  intro ks
  induction ks with
  | nil =>
      intro R _ _
      simp only [List.foldl_nil, List.map_nil, List.append_nil]
      exact (Node.eta R).symm
  | cons k ks' ih =>
      intro R hlk hnodup
      have hlkk : lookupC R.children k = none := hlk k (by simp)
      have hg : getChildIns R k =
          (Node.mk 0 [], Node.mk R.value (R.children ++ [(k, Node.mk 0 [])])) := by
        simp [getChildIns, hlkk]
      rw [List.foldl_cons, hg]
      have hlk' : ∀ k' ∈ ks', lookupC (Node.mk R.value
          (R.children ++ [(k, Node.mk 0 [])])).children k' = none := by
        intro k' hk'
        simp only [Node.children_mk]
        rw [lookupC_append_none _ (hlk k' (by simp [hk']))]
        have hne : k ≠ k' := by
          intro hcontra
          exact (List.nodup_cons.mp hnodup).1 (hcontra ▸ hk')
        simp [lookupC, hne]
      rw [ih _ hlk' (List.nodup_cons.mp hnodup).2]
      simp [List.append_assoc]

theorem initCands_eq (n : Nat) :
    initCands n =
      Node.mk 0 ((List.range' 1 n).map (fun c => (c, Node.mk 0 []))) := by
  rw [initCands, foldl_getChildIns (List.range' 1 n) (Node.mk 0 [])
    (fun k _ => rfl) (List.nodup_range' 1 n)]
  rfl

theorem lookupC_map_const : ∀ (ks : List Nat) (x : Nat) (z : Node),
    lookupC (ks.map (fun c => (c, z))) x = if x ∈ ks then some z else none := by
  intro ks
  induction ks with
  | nil => intro x z; simp [lookupC]
  | cons k ks' ih =>
      intro x z
      simp only [List.map_cons, lookupC]
      by_cases hk : k = x
      · subst hk
        simp
      · rw [if_neg hk, ih]
        by_cases hx : x ∈ ks'
        · simp [hx, Ne.symm hk]
        · simp [hx, Ne.symm hk]

theorem foldl_max_length (r : Nat) : ∀ (L : List (List Token)) (acc : Nat),
    (∀ l ∈ L, l.length = r) →
    L.foldl (fun m l => max m l.length) acc =
      if L.isEmpty then acc else max acc r := by
  intro L
  induction L with
  | nil => intro acc _; rfl
  | cons l L' ih =>
      intro acc h
      have hl : l.length = r := h l (by simp)
      rw [List.foldl_cons, ih _ (fun l' h' => h l' (by simp [h'])), hl]
      simp only [List.isEmpty_cons, Bool.false_eq_true, if_false]
      split
      · rfl
      · omega

theorem graftKids_fresh : ∀ (ext cs0 : List (Nat × Node)),
    (∀ p : Nat × Node, p ∈ ext → lookupC cs0 p.1 = none) →
    (keysOf ext).Nodup →
    graftKids cs0 ext = cs0 ++ ext := by
  intro ext
  induction ext with
  | nil => intro cs0 _ _; simp
  | cons p rest ih =>
      intro cs0 hfresh hnodup
      obtain ⟨c, tc⟩ := p
      have hlc : lookupC cs0 c = none := hfresh (c, tc) (by simp)
      rw [graftKids_cons, hlc]
      simp only [Option.isSome_none, Bool.false_eq_true, if_false]
      have hfresh' : ∀ q : Nat × Node, q ∈ rest → lookupC (cs0 ++ [(c, tc)]) q.1 = none := by
        intro q hq
        rw [lookupC_append_none _ (hfresh q (by simp [hq]))]
        have hne : c ≠ q.1 := by
          simp only [keysOf, List.map_cons, List.nodup_cons] at hnodup
          intro hcontra
          exact hnodup.1 (hcontra ▸ List.mem_map.mpr ⟨q, hq, rfl⟩)
        simp [lookupC, hne]
      have hnodup' : (keysOf rest).Nodup := by
        simp only [keysOf, List.map_cons, List.nodup_cons] at hnodup
        exact hnodup.2
      rw [ih (cs0 ++ [(c, tc)]) hfresh' hnodup']
      simp

theorem readBallotsL_graft : ∀ (ds : List (Nat × Node)),
    (∀ p : Nat × Node, p ∈ ds →
      ∀ (ranks : Nat) (R : Node),
        (∀ q : Nat × Node, q ∈ p.2.children → OkChild R q) →
        readBallots R (writeBallots ranks p.2 []) =
          Node.mk R.value (graftKids R.children p.2.children)) →
    (∀ p : Nat × Node, p ∈ ds →
      consV p.2 = true ∧ uniqK p.2 = true ∧ ndp [p.1] p.2 = true) →
    ∀ (ranks : Nat) (R : Node),
      (keysOf ds).Nodup →
      (∀ p : Nat × Node, p ∈ ds → OkChild R p) →
      readBallots R (writeBallotsL ranks ds []) =
        Node.mk R.value (graftKids R.children ds) := by
  intro ds
  induction ds with
  | nil =>
      intro _ _ ranks R _ _
      simp only [writeBallotsL_nil, readBallots_nil, graftKids_nil]
      exact (Node.eta R).symm
  | cons p rest ih =>
      intro hrec hwf ranks R hnodup hok
      obtain ⟨c, tc⟩ := p
      obtain ⟨hconsTc0, huniqTc0, hndpTc0⟩ := hwf (c, tc) (by simp)
      have hconsTc : consV tc = true := hconsTc0
      have huniqTc : uniqK tc = true := huniqTc0
      have hndpTc : ndp [c] tc = true := hndpTc0
      obtain ⟨hposz0, hlp0, hlz0⟩ := hok (c, tc) (by simp)
      have hposz : (0 < tc.value ∧ posB tc = true) ∨ tc = Node.mk 0 [] := hposz0
      have hlp : lookupC R.children c = none → 0 < tc.value := hlp0
      have hlz : lookupC R.children c = none ∨
          lookupC R.children c = some (Node.mk 0 []) := hlz0
      rw [writeBallotsL_cons, readBallots_append]
      have hLlen : ((writeBallots (ranks - [c].length) tc []).length : Int) =
          tc.value := writeBallots_length tc hconsTc _ []
      have hcands : ∀ l ∈ writeBallots (ranks - [c].length) tc [],
          c ∉ candsOf l := by
        intro l hl hcmem
        have hfree : cFree c tc = true :=
          ndp_banned_cFree tc [c] c (by simp) hndpTc
        have := writeBallots_cands_mem tc (ranks - [c].length) [] l hl c hcmem hfree
        simp at this
      have hLmap : writeBallots ranks tc ([] ++ [c]) =
          (writeBallots (ranks - [c].length) tc []).map
            (fun l => Token.cand c :: l) := by
        rw [List.nil_append, writeBallots_shift tc ranks [c]]
        exact List.map_congr_left (fun l _ => rfl)
      rw [hLmap]
      have hokfocus : (lookupC R.children c).isSome = true ∨
          writeBallots (ranks - [c].length) tc [] ≠ [] := by
        rcases hlz with hl | hl
        · right
          intro hcontra
          rw [hcontra] at hLlen
          simp only [List.length_nil, Int.ofNat_zero] at hLlen
          have := hlp hl
          omega
        · left
          rw [hl]
          rfl
      rw [readBallots_focus c _ R hcands hokfocus]
      have hchild : readBump (Node.mk 0 [])
          (writeBallots (ranks - [c].length) tc []) = tc := by
        rw [readBump_spec]
        have hq : ∀ q : Nat × Node, q ∈ tc.children →
            OkChild (Node.mk 0 []) q := by
          intro q hq
          have hmemq : 0 < q.2.value ∧ posB q.2 = true := by
            rcases hposz with h | h
            · exact (posBL_iff tc.children).mp (by rw [← posB_eq]; exact h.2) q hq
            · rw [h] at hq
              simp at hq
          exact ⟨Or.inl hmemq, fun _ => hmemq.1, Or.inl rfl⟩
        have hr : readBallots (Node.mk 0 [])
            (writeBallots (ranks - [c].length) tc []) =
            Node.mk (0 : Int) (graftKids [] tc.children) :=
          hrec (c, tc) (by simp) (ranks - [c].length) (Node.mk 0 []) hq
        rw [hr]
        have hkn : (keysOf tc.children).Nodup := by
          have h := huniqTc
          rw [uniqK_eq] at h
          simp only [Bool.and_eq_true] at h
          exact (nodupB_iff _).mp h.1
        rw [Node.children_mk, graftKids_fresh tc.children []
          (fun q _ => rfl) hkn]
        simp only [Node.value_mk, List.nil_append, zero_add]
        rw [hLlen]
        exact Node.eta tc
      have hrec' : ∀ p : Nat × Node, p ∈ rest →
          ∀ (ranks : Nat) (R : Node),
            (∀ q : Nat × Node, q ∈ p.2.children → OkChild R q) →
            readBallots R (writeBallots ranks p.2 []) =
              Node.mk R.value (graftKids R.children p.2.children) :=
        fun p hp => hrec p (by simp [hp])
      have hwf' : ∀ p : Nat × Node, p ∈ rest →
          consV p.2 = true ∧ uniqK p.2 = true ∧ ndp [p.1] p.2 = true :=
        fun p hp => hwf p (by simp [hp])
      have hnodup' : (keysOf rest).Nodup := by
        simp only [keysOf, List.map_cons, List.nodup_cons] at hnodup
        exact hnodup.2
      have hne : ∀ q : Nat × Node, q ∈ rest → q.1 ≠ c := by
        intro q hq hcontra
        simp only [keysOf, List.map_cons, List.nodup_cons] at hnodup
        exact hnodup.1 (hcontra ▸ List.mem_map.mpr ⟨q, hq, rfl⟩)
      rcases hlz with hl | hl
      · have hg : getChildIns R c =
            (Node.mk 0 [], Node.mk R.value (R.children ++ [(c, Node.mk 0 [])])) := by
          simp [getChildIns, hl]
        simp only [hg]
        rw [hchild]
        simp only [Node.value_mk, Node.children_mk]
        have hrep : replaceC (R.children ++ [(c, Node.mk 0 [])]) c tc =
            R.children ++ [(c, tc)] := by
          rw [replaceC_append_of_none _ _ hl]
          simp [replaceC]
        rw [hrep]
        have hok' : ∀ q : Nat × Node, q ∈ rest →
            OkChild (Node.mk R.value (R.children ++ [(c, tc)])) q := by
          intro q hq
          obtain ⟨h1, h2, h3⟩ := hok q (by simp [hq])
          have hlook : lookupC (R.children ++ [(c, tc)]) q.1 =
              lookupC R.children q.1 := by
            cases hx : lookupC R.children q.1 with
            | some u => exact lookupC_append_left _ hx
            | none =>
                rw [lookupC_append_none _ hx]
                simp [lookupC, Ne.symm (hne q hq)]
          exact ⟨h1, fun hnone => h2 (hlook.symm.trans hnone),
            by
              rcases h3 with h3 | h3
              · exact Or.inl (hlook.trans h3)
              · exact Or.inr (hlook.trans h3)⟩
        rw [ih hrec' hwf' ranks (Node.mk R.value (R.children ++ [(c, tc)]))
          hnodup' hok']
        rw [graftKids_cons, hl]
        simp only [Option.isSome_none, Bool.false_eq_true, if_false,
          Node.value_mk, Node.children_mk]
      · have hg : getChildIns R c = (Node.mk 0 [], R) := by
          simp [getChildIns, hl]
        simp only [hg]
        rw [hchild]
        have hok' : ∀ q : Nat × Node, q ∈ rest →
            OkChild (Node.mk R.value (replaceC R.children c tc)) q := by
          intro q hq
          obtain ⟨h1, h2, h3⟩ := hok q (by simp [hq])
          have hlook : lookupC (replaceC R.children c tc) q.1 =
              lookupC R.children q.1 := lookupC_replaceC_ne _ (hne q hq)
          exact ⟨h1, fun hnone => h2 (hlook.symm.trans hnone),
            by
              rcases h3 with h3 | h3
              · exact Or.inl (hlook.trans h3)
              · exact Or.inr (hlook.trans h3)⟩
        rw [ih hrec' hwf' ranks (Node.mk R.value (replaceC R.children c tc))
          hnodup' hok']
        rw [graftKids_cons, hl]
        simp only [Option.isSome_some, if_true, Node.value_mk, Node.children_mk]

theorem readBallots_writeBallots : ∀ t : Node,
    consV t = true → uniqK t = true → ndp [] t = true →
    ∀ (ranks : Nat) (R : Node),
      (∀ p : Nat × Node, p ∈ t.children → OkChild R p) →
      readBallots R (writeBallots ranks t []) =
        Node.mk R.value (graftKids R.children t.children) := by
  apply node_size_ind (fun t => consV t = true → uniqK t = true →
    ndp [] t = true →
    ∀ (ranks : Nat) (R : Node),
      (∀ p : Nat × Node, p ∈ t.children → OkChild R p) →
      readBallots R (writeBallots ranks t []) =
        Node.mk R.value (graftKids R.children t.children))
  intro t ih hcons huniq hndp ranks R hok
  obtain ⟨v, cs⟩ := t
  rw [consV_eq] at hcons
  simp only [Node.value_mk, Node.children_mk, Bool.and_eq_true,
    decide_eq_true_eq] at hcons
  obtain ⟨hle, hcl⟩ := hcons
  rw [uniqK_eq] at huniq
  simp only [Node.children_mk, Bool.and_eq_true] at huniq
  obtain ⟨hnodupB, hul⟩ := huniq
  rw [ndp_eq] at hndp
  simp only [Node.children_mk] at hndp
  rw [writeBallots_mk, readBallots_append]
  have hline : (([] : List Nat).map Token.cand ++
      List.replicate (ranks - ([] : List Nat).length) Token.skip) =
      List.replicate ranks Token.skip := rfl
  rw [hline, readBallots_replicate_skip]
  have hrec : ∀ p : Nat × Node, p ∈ cs →
      ∀ (ranks : Nat) (R : Node),
        (∀ q : Nat × Node, q ∈ p.2.children → OkChild R q) →
        readBallots R (writeBallots ranks p.2 []) =
          Node.mk R.value (graftKids R.children p.2.children) := by
    intro p hp ranks R hq
    have hcp : consV p.2 = true := (consVL_iff cs).mp hcl p hp
    have hup : uniqK p.2 = true := (uniqKL_iff cs).mp hul p hp
    have hnp : ndp [] p.2 = true := by
      have := ((ndpL_iff [] cs).mp hndp p hp).2
      exact ndp_mono p.2 [] (p.1 :: []) (by simp) this
    exact ih p.2 (size_snd_lt hp) hcp hup hnp ranks R hq
  have hwf : ∀ p : Nat × Node, p ∈ cs →
      consV p.2 = true ∧ uniqK p.2 = true ∧ ndp [p.1] p.2 = true := by
    intro p hp
    exact ⟨(consVL_iff cs).mp hcl p hp, (uniqKL_iff cs).mp hul p hp,
      ((ndpL_iff [] cs).mp hndp p hp).2⟩
  exact readBallotsL_graft cs hrec hwf ranks R ((nodupB_iff _).mp hnodupB) hok

/-- Claim C5 (amended): for an election whose ballots have no equal-rank
markers or weights above 1 — as holds for any tree profile — and whose
profile is well formed (consistent counts, duplicate-free child keys, no
path repeating a candidate), whose root children are keyed exactly
`1..len(names)` in that order, in which every root child either is an
untouched zero leaf or has a positive count with all strict descendants
positive, with at least one ballot, and in which no represented ballot
ranks more than `ranks` candidates (every written line carries exactly
`ranks` tokens), `write_blt` followed by `_read_blt` reproduces the
election exactly. -/
theorem C5_blt_roundtrip (e : Election)
    (hcons : consV e.profile = true) (huniq : uniqK e.profile = true)
    (hndp : ndp [] e.profile = true)
    (hkeys : keysOf e.profile.children = List.range' 1 e.names.length)
    (hpos : ∀ p : Nat × Node, p ∈ e.profile.children →
      (0 < p.2.value ∧ posB p.2 = true) ∨ p.2 = Node.mk 0 [])
    (hval : 0 < e.profile.value)
    (hranks : ∀ l ∈ writeBallots e.ranks e.profile [], l.length = e.ranks) :
    readBlt (writeBlt e) = e := by
  obtain ⟨nm, pf, rk, st, ds⟩ := e
  have hcons' : consV pf = true := hcons
  have huniq' : uniqK pf = true := huniq
  have hndp' : ndp [] pf = true := hndp
  have hkeys' : keysOf pf.children = List.range' 1 nm.length := hkeys
  have hpos' : ∀ p : Nat × Node, p ∈ pf.children →
      (0 < p.2.value ∧ posB p.2 = true) ∨ p.2 = Node.mk 0 [] := hpos
  have hval' : 0 < pf.value := hval
  have hranks' : ∀ l ∈ writeBallots rk pf [], l.length = rk := hranks
  have hlen : ((writeBallots rk pf []).length : Int) = pf.value :=
    writeBallots_length pf hcons' rk []
  have hne : writeBallots rk pf [] ≠ [] := by
    intro hcontra
    rw [hcontra] at hlen
    simp only [List.length_nil, Int.ofNat_zero] at hlen
    omega
  have hkr : (keysOf pf.children).Nodup := by
    rw [hkeys']
    exact List.nodup_range' 1 nm.length
  have hok : ∀ p : Nat × Node, p ∈ pf.children →
      OkChild (Node.mk 0 ((List.range' 1 nm.length).map
        (fun c => (c, Node.mk 0 [])))) p := by
    intro p hp
    have hmem : p.1 ∈ List.range' 1 nm.length := by
      rw [← hkeys']
      exact List.mem_map.mpr ⟨p, hp, rfl⟩
    have hlook : lookupC ((List.range' 1 nm.length).map
        (fun c => (c, Node.mk 0 []))) p.1 = some (Node.mk 0 []) := by
      rw [lookupC_map_const, if_pos hmem]
    exact ⟨hpos' p hp, fun hnone => by
        rw [Node.children_mk] at hnone
        rw [hnone] at hlook
        exact absurd hlook (by simp),
      Or.inr (by rw [Node.children_mk]; exact hlook)⟩
  have hrb := readBallots_writeBallots pf hcons' huniq' hndp' rk
    (Node.mk 0 ((List.range' 1 nm.length).map (fun c => (c, Node.mk 0 [])))) hok
  have hgk : graftKids ((List.range' 1 nm.length).map
      (fun c => (c, Node.mk 0 []))) pf.children = pf.children := by
    have hidl : ∀ ks : List Nat, List.map (Prod.fst ∘ fun c =>
        (c, Node.mk (0 : Int) [])) ks = ks := by
      intro ks
      induction ks with
      | nil => rfl
      | cons k ks ihk => simp [ihk]
    have hid : List.map (Prod.fst ∘ fun c => (c, Node.mk (0 : Int) []))
        (List.range' 1 nm.length) = List.range' 1 nm.length :=
      hidl (List.range' 1 nm.length)
    apply graftKids_exact
    · rw [hkeys']
      simp only [keysOf, List.map_map]
      exact hid
    · intro p hp
      rcases List.mem_map.mp hp with ⟨c, _, hc⟩
      rw [← hc]
    · simp only [keysOf, List.map_map]
      rw [hid]
      exact List.nodup_range' 1 nm.length
  simp only [writeBlt, readBlt]
  simp only [Election.mk.injEq]
  refine ⟨trivial, ?_, ?_, trivial, trivial⟩
  · rw [initCands_eq, hrb]
    simp only [Node.value_mk, Node.children_mk]
    rw [hgk, hlen]
    exact Node.eta pf
  · rw [foldl_max_length rk _ 0 hranks']
    rw [if_neg (by simpa using hne)]
    omega

/-- Claim C5 (original, refuted): the round trip does not preserve
`ranks`: an election with no ballots — hence trivially no equal-rank
markers and no weights above 1 — and `ranks = 5` reads back with
`ranks = 0`, because `_read_blt` recomputes `ranks` as the maximum
token count over the ballot lines, of which there are none. -/
theorem C5_counterexample :
    (readBlt (writeBlt cexBlt)).ranks = 0 ∧ cexBlt.ranks = 5 ∧
      readBlt (writeBlt cexBlt) ≠ cexBlt := by
  refine ⟨rfl, rfl, fun h => ?_⟩
  have h5 := congrArg Election.ranks h
  have h0 : (readBlt (writeBlt cexBlt)).ranks = 0 := rfl
  rw [h0] at h5
  exact absurd h5 (by decide)

theorem C5_blt_roundtrip_witness : readBlt (writeBlt wBltEl) = wBltEl :=
  C5_blt_roundtrip wBltEl (by decide) (by decide) (by decide) (by decide)
    (by
      intro p hp
      rcases List.mem_cons.mp hp with h | hp2
      · exact Or.inl (by rw [h]; exact ⟨by decide, rfl⟩)
      · rcases List.mem_cons.mp hp2 with h | hp3
        · exact Or.inl (by rw [h]; exact ⟨by decide, rfl⟩)
        · simp at hp3)
    (by decide) (by decide)


theorem optMapChildren_congr : ∀ (cs : List (Nat × Node))
    (g1 g2 : Nat × Node → Option Node), (∀ p ∈ cs, g1 p = g2 p) →
    optMapChildren g1 cs = optMapChildren g2 cs := by
  intro cs
  induction cs with
  | nil => intro g1 g2 _; rfl
  | cons p rest ih =>
      intro g1 g2 h
      simp only [optMapChildren]
      rw [h p (by simp), ih g1 g2 (fun q hq => h q (by simp [hq]))]

theorem optMapChildren_some_of : ∀ (cs : List (Nat × Node))
    (g : Nat × Node → Option Node), (∀ p ∈ cs, ∃ u, g p = some u) →
    ∃ cs2, optMapChildren g cs = some cs2 := by
  intro cs
  induction cs with
  | nil => intro g _; exact ⟨[], rfl⟩
  | cons p rest ih =>
      intro g h
      obtain ⟨u, hu⟩ := h p (by simp)
      obtain ⟨rest2, hrest⟩ := ih g (fun q hq => h q (by simp [hq]))
      exact ⟨(p.1, u) :: rest2, by simp [optMapChildren, hu, hrest]⟩

theorem optMapChildren_mem : ∀ (cs : List (Nat × Node))
    (g : Nat × Node → Option Node) (cs2 : List (Nat × Node)),
    optMapChildren g cs = some cs2 →
    ∀ q ∈ cs2, ∃ u, (q.1, u) ∈ cs ∧ g (q.1, u) = some q.2 := by
  intro cs
  induction cs with
  | nil =>
      intro g cs2 h q hq
      simp only [optMapChildren, Option.some.injEq] at h
      rw [← h] at hq
      simp at hq
  | cons p rest ih =>
      intro g cs2 h q hq
      cases hg : g p with
      | none => simp [optMapChildren, hg] at h
      | some u =>
          cases hr : optMapChildren g rest with
          | none => simp [optMapChildren, hg, hr] at h
          | some rest2 =>
              simp only [optMapChildren, hg, hr, Option.some.injEq] at h
              rw [← h] at hq
              rcases List.mem_cons.mp hq with hq | hq
              · subst hq
                refine ⟨p.2, ?_, ?_⟩
                · exact List.mem_cons_self p rest
                · exact hg
              · obtain ⟨w, hw1, hw2⟩ := ih g rest2 hr q hq
                exact ⟨w, by simp [hw1], hw2⟩

theorem optMapChildren_keys : ∀ (cs : List (Nat × Node))
    (g : Nat × Node → Option Node) (cs2 : List (Nat × Node)),
    optMapChildren g cs = some cs2 → keysOf cs2 = keysOf cs := by
  intro cs
  induction cs with
  | nil =>
      intro g cs2 h
      simp only [optMapChildren, Option.some.injEq] at h
      rw [← h]
  | cons p rest ih =>
      intro g cs2 h
      cases hg : g p with
      | none => simp [optMapChildren, hg] at h
      | some u =>
          cases hr : optMapChildren g rest with
          | none => simp [optMapChildren, hg, hr] at h
          | some rest2 =>
              simp only [optMapChildren, hg, hr, Option.some.injEq] at h
              rw [← h]
              simp only [keysOf, List.map_cons]
              rw [show List.map Prod.fst rest2 = keysOf rest2 from rfl,
                ih g rest2 hr]
              rfl

theorem optMapChildren_id : ∀ (cs : List (Nat × Node))
    (g : Nat × Node → Option Node),
    (∀ p ∈ cs, g p = some p.2) → optMapChildren g cs = some cs := by
  intro cs
  induction cs with
  | nil => intro g _; rfl
  | cons p rest ih =>
      intro g h
      have hp := h p (by simp)
      have hrest := ih g (fun q hq => h q (by simp [hq]))
      simp [optMapChildren, hp, hrest]

theorem reduceNodeF_congr :
    ∀ f g t c order start, t.size ≤ f → t.size ≤ g →
      reduceNodeF f t c order start = reduceNodeF g t c order start := by
  intro f
  induction f using Nat.strong_induction_on with
  | _ f ih =>
    intro g t c order start hf hg
    have hst := size_pos t
    obtain ⟨f2, rfl⟩ : ∃ f2, f = f2 + 1 := ⟨f - 1, by omega⟩
    obtain ⟨g2, rfl⟩ : ∃ g2, g = g2 + 1 := ⟨g - 1, by omega⟩
    simp only [reduceNodeF]
    by_cases hfin : c = order.getD (order.length - 1) 0 ∨
        c = order.getD (order.length - 2) 0
    · rw [if_pos hfin, if_pos hfin]
    · rw [if_neg hfin, if_neg hfin]
      by_cases hc : c ∈ order
      · rw [if_pos hc, if_pos hc]
        have hsz := elimRange_size t order start (order.indexOf c)
        have hpw : ∀ p : Nat × Node,
            p ∈ (elimRange t order start (order.indexOf c)).children →
            reduceNodeF f2 p.2 p.1 order (start + 1) =
            reduceNodeF g2 p.2 p.1 order (start + 1) := by
          intro p hp
          have h1 := size_snd_lt hp
          exact ih f2 (by omega) g2 p.2 p.1 order (start + 1) (by omega) (by omega)
        rw [optMapChildren_congr _ _ _ hpw]
      · rw [if_neg hc, if_neg hc]

theorem reduceNodeF_eq_wrapper (f : Nat) (t : Node) (c : Nat) (order : List Nat)
    (start : Nat) (h : t.size ≤ f) :
    reduceNodeF f t c order start = reduceNode t c order start :=
  reduceNodeF_congr f t.size t c order start h (le_refl _)

theorem reduceNode_def (t : Node) (c : Nat) (order : List Nat) (start : Nat) :
    reduceNode t c order start =
      if c = order.getD (order.length - 1) 0 ∨ c = order.getD (order.length - 2) 0
      then some (Node.mk t.value [])
      else if c ∈ order then
        Option.map
          (fun cs => Node.mk (elimRange t order start (order.indexOf c)).value cs)
          (optMapChildren (fun p => reduceNode p.2 p.1 order (start + 1))
            (elimRange t order start (order.indexOf c)).children)
      else none := by
  have hst := size_pos t
  have h1 : t.size = (t.size - 1) + 1 := by omega
  rw [reduceNode, h1]
  simp only [reduceNodeF]
  by_cases hfin : c = order.getD (order.length - 1) 0 ∨
      c = order.getD (order.length - 2) 0
  · rw [if_pos hfin, if_pos hfin]
  · rw [if_neg hfin, if_neg hfin]
    by_cases hc : c ∈ order
    · rw [if_pos hc, if_pos hc]
      have hsz := elimRange_size t order start (order.indexOf c)
      have hpw : ∀ p : Nat × Node,
          p ∈ (elimRange t order start (order.indexOf c)).children →
          reduceNodeF (t.size - 1) p.2 p.1 order (start + 1) =
          reduceNode p.2 p.1 order (start + 1) := by
        intro p hp
        have h2 := size_snd_lt hp
        exact reduceNodeF_eq_wrapper _ _ _ _ _ (by omega)
      rw [optMapChildren_congr _ _ _ hpw]
    · rw [if_neg hc, if_neg hc]

theorem reduceNode_some_cFree :
    ∀ t : Node, ∀ x c order start (r : Node), reduceNode t c order start = some r →
      cFree x t = true → cFree x r = true := by
  apply node_size_ind (fun t => ∀ x c order start (r : Node),
    reduceNode t c order start = some r → cFree x t = true → cFree x r = true)
  intro t ih x c order start r hred h
  rw [reduceNode_def] at hred
  by_cases hfin : c = order.getD (order.length - 1) 0 ∨
      c = order.getD (order.length - 2) 0
  · rw [if_pos hfin] at hred
    injection hred with hred
    rw [← hred]
    rfl
  · rw [if_neg hfin] at hred
    by_cases hc : c ∈ order
    · rw [if_pos hc] at hred
      rcases Option.map_eq_some'.mp hred with ⟨cs2, hmap, hr⟩
      rw [← hr]
      have ht'free : cFree x (elimRange t order start (order.indexOf c)) = true := by
        rw [elimRange_eq_foldElim]
        exact foldElim_cFree_preserved _ h
      rw [cFree_mk, cFreeL_iff]
      intro q hq
      obtain ⟨u, hmem, hredu⟩ := optMapChildren_mem _ _ _ hmap q hq
      rw [cFree_eq, cFreeL_iff] at ht'free
      obtain ⟨hne, hfu⟩ := ht'free (q.1, u) hmem
      refine ⟨hne, ih u ?_ x q.1 order (start + 1) q.2 hredu hfu⟩
      have h1 : u.size < (elimRange t order start (order.indexOf c)).size :=
        size_snd_lt hmem
      have h2 := elimRange_size t order start (order.indexOf c)
      omega
    · rw [if_neg hc] at hred
      exact absurd hred (by simp)

theorem reduceNode_isSome :
    ∀ t : Node, ∀ c order start, keysIn order t = true → c ∈ order →
      ∃ r, reduceNode t c order start = some r := by
  apply node_size_ind (fun t => ∀ c order start, keysIn order t = true →
    c ∈ order → ∃ r, reduceNode t c order start = some r)
  intro t ih c order start hkeys hc
  rw [reduceNode_def]
  by_cases hfin : c = order.getD (order.length - 1) 0 ∨
      c = order.getD (order.length - 2) 0
  · exact ⟨_, by rw [if_pos hfin]⟩
  · rw [if_neg hfin, if_pos hc]
    have ht'keys : keysIn order (elimRange t order start (order.indexOf c)) = true := by
      rw [elimRange_eq_foldElim]
      exact keysIn_foldElim _ t hkeys
    have heach : ∀ p : Nat × Node,
        p ∈ (elimRange t order start (order.indexOf c)).children →
        ∃ u, reduceNode p.2 p.1 order (start + 1) = some u := by
      intro p hp
      rw [keysIn_eq, keysInL_iff] at ht'keys
      obtain ⟨h1, h2⟩ := ht'keys p hp
      refine ih p.2 ?_ p.1 order (start + 1) h2 h1
      have hs1 : p.2.size < (elimRange t order start (order.indexOf c)).size :=
        size_snd_lt hp
      have hs2 := elimRange_size t order start (order.indexOf c)
      omega
    obtain ⟨cs2, hcs2⟩ := optMapChildren_some_of _ _ heach
    exact ⟨_, by rw [hcs2]; rfl⟩

theorem reduceNode_idem :
    ∀ t : Node, ndp [] t = true → uniqK t = true → ∀ c order start (r : Node),
      reduceNode t c order start = some r →
      reduceNode r c order start = some r := by
  apply node_size_ind (fun t => ndp [] t = true → uniqK t = true →
    ∀ c order start (r : Node), reduceNode t c order start = some r →
      reduceNode r c order start = some r)
  intro t ih hndp hu c order start r hred
  rw [reduceNode_def] at hred
  by_cases hfin : c = order.getD (order.length - 1) 0 ∨
      c = order.getD (order.length - 2) 0
  · rw [if_pos hfin] at hred
    injection hred with hred
    rw [← hred, reduceNode_def, if_pos hfin]
    rfl
  · rw [if_neg hfin] at hred
    by_cases hc : c ∈ order
    · rw [if_pos hc] at hred
      rcases Option.map_eq_some'.mp hred with ⟨cs2, hmap, hr⟩
      have ht'ndp : ndp [] (elimRange t order start (order.indexOf c)) = true := by
        rw [elimRange_eq_foldElim]
        exact foldElim_ndp _ hndp
      have ht'u : uniqK (elimRange t order start (order.indexOf c)) = true := by
        rw [elimRange_eq_foldElim]
        exact foldElim_uniqK _ hu
      have hRfree : ∀ i, i ∈ List.range' start (order.indexOf c - start) →
          cFree (order.getD i 0)
            (Node.mk (elimRange t order start (order.indexOf c)).value cs2) = true := by
        intro i hi
        have ht'free : cFree (order.getD i 0)
            (elimRange t order start (order.indexOf c)) = true := by
          rw [elimRange_eq_foldElim]
          apply foldElim_cFree_each _ hndp hu
          exact List.mem_map.mpr ⟨i, hi, rfl⟩
        rw [cFree_mk, cFreeL_iff]
        intro q hq
        obtain ⟨u, hmem, hredu⟩ := optMapChildren_mem _ _ _ hmap q hq
        rw [cFree_eq, cFreeL_iff] at ht'free
        obtain ⟨hne, hfu⟩ := ht'free (q.1, u) hmem
        exact ⟨hne, reduceNode_some_cFree u _ q.1 order (start + 1) q.2 hredu hfu⟩
      have hRrange : elimRange
          (Node.mk (elimRange t order start (order.indexOf c)).value cs2)
          order start (order.indexOf c) =
          Node.mk (elimRange t order start (order.indexOf c)).value cs2 := by
        rw [elimRange_eq_foldElim]
        apply foldElim_id_of_cFree
        intro x hx
        rcases List.mem_map.mp hx with ⟨i, hi, rfl⟩
        exact hRfree i hi
      have hid : optMapChildren (fun p => reduceNode p.2 p.1 order (start + 1))
          cs2 = some cs2 := by
        apply optMapChildren_id
        intro q hq
        obtain ⟨u, hmem, hredu⟩ := optMapChildren_mem _ _ _ hmap q hq
        have hundp : ndp [] u = true := by
          rw [ndp_eq, ndpL_iff] at ht'ndp
          exact ndp_mono u [] [q.1] (by simp) (ht'ndp (q.1, u) hmem).2
        have huu : uniqK u = true := by
          rw [uniqK_eq] at ht'u
          simp only [Bool.and_eq_true] at ht'u
          rw [uniqKL_iff] at ht'u
          exact ht'u.2 (q.1, u) hmem
        have hsz : u.size < t.size := by
          have h1 : u.size < (elimRange t order start (order.indexOf c)).size :=
            size_snd_lt hmem
          have h2 := elimRange_size t order start (order.indexOf c)
          omega
        exact ih u hsz hundp huu q.1 order (start + 1) q.2 hredu
      rw [← hr, reduceNode_def, if_neg hfin, if_pos hc, hRrange]
      simp only [Node.children_mk, Node.value_mk]
      rw [hid]
      rfl
    · rw [if_neg hc] at hred
      exact absurd hred (by simp)

/-- Claim C9 fails as stated: this root has as many children as the
elimination order is long, yet the second application of reduce changes
the tree (its node count drops from 6 to 5). -/
theorem C9_counterexample :
    ¬ (∀ R : Node, cexReduce.reduce [1, 2, 3, 4] = some R →
        R.reduce [1, 2, 3, 4] = some R) := by
  intro h
  obtain ⟨R, hR⟩ : ∃ R : Node, cexReduce.reduce [1, 2, 3, 4] = some R := ⟨_, rfl⟩
  have h2 := h R hR
  have hchain : (cexReduce.reduce [1, 2, 3, 4]).bind
      (fun r => r.reduce [1, 2, 3, 4]) = some R := by
    rw [hR]
    simpa using h2
  have hs1 : sizeO (cexReduce.reduce [1, 2, 3, 4]) = 6 := rfl
  have hs2 : sizeO ((cexReduce.reduce [1, 2, 3, 4]).bind
      (fun r => r.reduce [1, 2, 3, 4])) = 5 := rfl
  rw [hR] at hs1
  rw [hchain] at hs2
  simp [sizeO] at hs1 hs2
  omega

/-- Claim C9, amended: reduce is idempotent on every profile tree whose
downward paths never repeat a candidate (`ndp []`, true of every parsed
ballot trie) and whose nodes have duplicate-free child keys, provided the
elimination order has exactly as many entries as the root has children
and every candidate occurring in the tree occurs in the order (so the
`elim_order.index(c)` lookups cannot raise). -/
theorem C9_reduce_idem (t : Node) (order : List Nat)
    (hndp : ndp [] t = true) (hu : uniqK t = true)
    (hkeys : keysIn order t = true)
    (hlen : order.length = t.children.length) :
    ∃ R : Node, t.reduce order = some R ∧ R.reduce order = some R := by
  rw [Node.reduce, if_pos hlen]
  by_cases hshort : order.length < 2
  · refine ⟨t, by rw [if_pos hshort], ?_⟩
    rw [Node.reduce, if_pos hlen, if_pos hshort]
  · rw [if_neg hshort]
    have heach : ∀ p : Nat × Node, p ∈ t.children →
        ∃ u, reduceNode p.2 p.1 order 0 = some u := by
      intro p hp
      rw [keysIn_eq, keysInL_iff] at hkeys
      obtain ⟨h1, h2⟩ := hkeys p hp
      exact reduceNode_isSome p.2 p.1 order 0 h2 h1
    obtain ⟨cs2, hmap⟩ := optMapChildren_some_of t.children _ heach
    refine ⟨Node.mk t.value cs2, by rw [hmap]; rfl, ?_⟩
    have hlen2 : order.length = (Node.mk t.value cs2).children.length := by
      have hk := congrArg List.length (optMapChildren_keys _ _ _ hmap)
      simp only [keysOf, List.length_map] at hk
      simp only [Node.children_mk]
      omega
    rw [Node.reduce, if_pos hlen2, if_neg hshort]
    have hid : optMapChildren (fun p => reduceNode p.2 p.1 order 0) cs2 =
        some cs2 := by
      apply optMapChildren_id
      intro q hq
      obtain ⟨u, hmem, hredu⟩ := optMapChildren_mem _ _ _ hmap q hq
      have hundp : ndp [] u = true := by
        rw [ndp_eq, ndpL_iff] at hndp
        exact ndp_mono u [] [q.1] (by simp) (hndp (q.1, u) hmem).2
      have huu : uniqK u = true := by
        rw [uniqK_eq] at hu
        simp only [Bool.and_eq_true] at hu
        rw [uniqKL_iff] at hu
        exact hu.2 (q.1, u) hmem
      exact reduceNode_idem u hundp huu q.1 order 0 q.2 hredu
    simp only [Node.children_mk, Node.value_mk]
    rw [hid]
    rfl

/-- Witness: the scenario-S1 profile together with the order 3, 2, 1. -/
theorem C9_reduce_idem_witness :
    (ndp [] (Node.mk 100 [(1, Node.mk 60 [(2, Node.mk 60 [(3, Node.mk 60 [])])]),
      (2, Node.mk 30 [(1, Node.mk 30 [(3, Node.mk 30 [])])]),
      (3, Node.mk 10 [(2, Node.mk 10 [(1, Node.mk 10 [])])])]) = true) ∧
    (keysIn [3, 2, 1]
      (Node.mk 100 [(1, Node.mk 60 [(2, Node.mk 60 [(3, Node.mk 60 [])])]),
        (2, Node.mk 30 [(1, Node.mk 30 [(3, Node.mk 30 [])])]),
        (3, Node.mk 10 [(2, Node.mk 10 [(1, Node.mk 10 [])])])]) = true) ∧
    (∃ R : Node,
      (Node.mk 100 [(1, Node.mk 60 [(2, Node.mk 60 [(3, Node.mk 60 [])])]),
        (2, Node.mk 30 [(1, Node.mk 30 [(3, Node.mk 30 [])])]),
        (3, Node.mk 10 [(2, Node.mk 10 [(1, Node.mk 10 [])])])]).reduce [3, 2, 1] =
        some R ∧ R.reduce [3, 2, 1] = some R) :=
  ⟨rfl, rfl, C9_reduce_idem
    (Node.mk 100 [(1, Node.mk 60 [(2, Node.mk 60 [(3, Node.mk 60 [])])]),
      (2, Node.mk 30 [(1, Node.mk 30 [(3, Node.mk 30 [])])]),
      (3, Node.mk 10 [(2, Node.mk 10 [(1, Node.mk 10 [])])])])
    [3, 2, 1] rfl rfl rfl rfl⟩
